import Mathlib

/-!
# LR(0) parser generator and shift-reduce driver (`lr0_parser.cpp`)

A shallow embedding of the algorithmic core of `lr0_parser.cpp`:

* the grammar model produced by `read_grammar` (productions, nonterminal and
  terminal sets) and the augmentation step of `main`;
* items, `symbol_after_dot`, `is_dot_at_end`, `closure`, `go_to`, `state_index`;
* the canonical-collection loop of `main`;
* the ACTION / GOTO table construction of `main` with its conflict policy;
* the shift-reduce parse loop of `main`.

Conventions of the embedding.

* `std::string` is `String`; `std::set<std::string>` is a strictly increasing
  `List String` (iteration order of a `std::set` is the sorted order);
  `std::unordered_map<std::string, V>` is a function `String → Option V`
  (only lookups and insertions are used by the core, never iteration).
* `std::vector<T>` is `List T`.  The state stack of the parse loop is kept with
  its top at the head of the list.
* `int` values that are only ever indices built from `0`, `i`, `dot + 1` are
  `Nat`; `Action::val` and the result of `state_index` (which may be `-1`) are
  `Int`.
* Loops whose termination is not syntactically evident carry an explicit fuel
  argument and return `none` when the fuel runs out; the fuel used by the
  definitions below is proved sufficient.
* An access that is undefined behaviour in C++ (indexing a vector out of
  range, `back()` / `pop_back()` on an empty vector) is made explicit:
  `symbol_after_dot` / `is_dot_at_end` read an empty production for an index
  that is out of range, and the parse loop stops with `Outcome.outOfRange`.
-/

namespace LR0

/-! ## Data model -/

/-- A production `lhs -> rhs` (`struct Production`). -/
structure Production where
  lhs : String
  rhs : List String
deriving DecidableEq, Repr, Inhabited

/-- An item: production index and dot position (`struct Item`). -/
structure Item where
  prod : Nat
  dot : Nat
deriving DecidableEq, Repr

/-- A state is a vector of items (`using State = vector<Item>`). -/
abbrev State := List Item

/-! ## Ordered string sets (`std::set<std::string>`) -/

/-- Lexicographic comparison of character sequences by code point; this is the
order `std::less<std::string>` induces on UTF-8 text. -/
def chars_less : List Char → List Char → Bool
  | [], [] => false
  | [], _ :: _ => true
  | _ :: _, [] => false
  | a :: as, b :: bs =>
    if a.toNat < b.toNat then true
    else if b.toNat < a.toNat then false
    else chars_less as bs

/-- The order `operator<` of `std::string`. -/
def str_less (a b : String) : Bool := chars_less a.data b.data

/-- Insertion `std::set<std::string>::insert` into a sorted duplicate-free list. -/
def set_insert (x : String) : List String → List String
  | [] => [x]
  | y :: ys =>
    if x = y then y :: ys
    else if str_less x y then x :: y :: ys
    else y :: set_insert x ys

/-- Membership test `s.count(x) != 0`. -/
def set_count (s : List String) (x : String) : Bool := decide (x ∈ s)

/-! ## Grammar reader (the part of `read_grammar` after tokenisation) -/

/-- One non-blank grammar line after splitting: the trimmed text before `->`
and, for every `|`-separated alternative, its whitespace-separated tokens with
the `eps` tokens already dropped. -/
structure GrammarLine where
  lhs : String
  alts : List (List String)
deriving DecidableEq, Repr

/-- The result of `read_grammar`: the production list and the two symbol sets
it fills in. -/
structure Grammar where
  prods : List Production
  nonterminals : List String
  terminals : List String
deriving DecidableEq, Repr

/-- The productions pushed for the lines, in order (`prods.push_back(p)`). -/
def line_prods (lines : List GrammarLine) : List Production :=
  lines.flatMap fun l => l.alts.map fun a => ⟨l.lhs, a⟩

/-- The set built by `nonterminals.insert(lhs)` for every line. -/
def line_nonterminals (lines : List GrammarLine) : List String :=
  lines.foldl (fun s l => set_insert l.lhs s) []

/-- The terminal collection loop: every right-hand-side symbol that is not in
`nonterminals` is inserted into `terminals`. -/
def collect_terminals (prods : List Production) (nonterminals : List String) : List String :=
  prods.foldl
    (fun ts p => p.rhs.foldl (fun ts s => if set_count nonterminals s = false then set_insert s ts else ts) ts)
    []

/-- The function `read_grammar` on already split lines. -/
def read_grammar (lines : List GrammarLine) : Grammar :=
  let prods := line_prods lines
  let nonterminals := line_nonterminals lines
  let terminals := set_insert "$" (collect_terminals prods nonterminals)
  ⟨prods, nonterminals, terminals⟩

/-- The augmentation step of `main`: production `S0' -> S0` is inserted at index
0, its left-hand side is added to the nonterminals, `$` to the terminals.
`main` only reaches this step when `prods` is non-empty; `prods[0].lhs` of an
empty list is read here as the left-hand side of the empty default production. -/
def augment (g : Grammar) : Grammar :=
  let S0 := (g.prods.getD 0 default).lhs
  let aug : Production := ⟨S0 ++ "'", [S0]⟩
  ⟨aug :: g.prods, set_insert aug.lhs g.nonterminals, set_insert "$" g.terminals⟩

/-! ## Item helpers -/

/-- The function `symbol_after_dot`: the right-hand-side symbol at the dot, or
the empty string when the dot is at the end. -/
def symbol_after_dot (it : Item) (prods : List Production) : String :=
  let p := prods.getD it.prod default
  if it.dot < p.rhs.length then p.rhs.getD it.dot "" else ""

/-- The function `is_dot_at_end`. -/
def is_dot_at_end (it : Item) (prods : List Production) : Bool :=
  decide ((prods.getD it.prod default).rhs.length ≤ it.dot)

/-! ## Closure -/

/-- One iteration of the inner `for` loop of `closure` for index `i`: when
`prods[i].lhs == a` and the item `(i, 0)` is not yet in `C`, it is inserted into
`C` and pushed on the queue. The pair is `(C, q)`. -/
def closure_add (prods : List Production) (a : String)
    (st : List Item × List Item) (i : Nat) : List Item × List Item :=
  if (prods.getD i default).lhs = a then
    if (⟨i, 0⟩ : Item) ∈ st.1 then st else (st.1 ++ [⟨i, 0⟩], st.2 ++ [⟨i, 0⟩])
  else st

/-- The inner `for(int i=0;i<(int)prods.size();++i)` loop of `closure`. -/
def closure_expand (prods : List Production) (a : String)
    (st : List Item × List Item) : List Item × List Item :=
  (List.range prods.length).foldl (closure_add prods a) st

/-- The worklist loop `while(!q.empty())` of `closure`, on the set `C` (kept as
a duplicate-free list) and the queue `q`. One unit of fuel is used per popped
item; `none` means the fuel ran out before the queue was empty. -/
def closure_loop (prods : List Production) (nonterminals : List String) :
    Nat → List Item → List Item → Option (List Item)
  | _, C, [] => some C
  | 0, _, _ :: _ => none
  | fuel + 1, C, it :: q =>
    let a := symbol_after_dot it prods
    if a = "" then closure_loop prods nonterminals fuel C q
    else if set_count nonterminals a = false then closure_loop prods nonterminals fuel C q
    else
      let st := closure_expand prods a (C, q)
      closure_loop prods nonterminals fuel st.1 st.2

/-- The comparison lambda handed to `sort` in `closure`. -/
def item_less (x y : Item) : Bool :=
  if x.prod ≠ y.prod then decide (x.prod < y.prod) else decide (x.dot < y.dot)

/-- The order in which `sort` may leave `x` before `y`: `y` is not `less` than `x`. -/
def item_le (x y : Item) : Prop := item_less y x = false

instance item_le_decidable : DecidableRel item_le :=
  fun x y => inferInstanceAs (Decidable (item_less y x = false))

/-- The call `sort(out.begin(), out.end(), less)`: the arrangement of the
elements in which no element is `less` than an earlier one. The elements of
`out` are distinct, so this arrangement is unique. -/
def sort_items (out : List Item) : State :=
  out.insertionSort item_le

/-- The function `closure`. `C` starts as the distinct elements of `I`, the
queue as `I`; every popped item was pushed either initially or together with a
new dot-0 item, so `I.length + prods.length` pops suffice
(`closure_loop_terminates`). -/
def closure (I : State) (prods : List Production) (nonterminals : List String) : State :=
  match closure_loop prods nonterminals (I.length + prods.length) I.dedup I with
  | some C => sort_items C
  | none => []

/-- The function `go_to`. -/
def go_to (I : State) (X : String) (prods : List Production) (nonterminals : List String) : State :=
  let J : State := I.filterMap fun it =>
    let a := symbol_after_dot it prods
    if a ≠ "" ∧ a = X then some ⟨it.prod, it.dot + 1⟩ else none
  closure J prods nonterminals

/-- The comparison of `C[i]` with `S` inside `state_index`: equal sizes and
item-wise equality. -/
def state_eq : State → State → Bool
  | [], [] => true
  | x :: xs, y :: ys => decide (x = y) && state_eq xs ys
  | _, _ => false

/-- The loop of `state_index` from index `i` on. -/
def state_index_from (S : State) : List State → Nat → Int
  | [], _ => -1
  | c :: cs, i => if state_eq c S then (i : Int) else state_index_from S cs (i + 1)

/-- The function `state_index`: the first index of a state equal to `S`, or `-1`. -/
def state_index (C : List State) (S : State) : Int := state_index_from S C 0

/-! ## Canonical collection -/

/-- The set `nextSymbols` of a state: the non-empty symbols after a dot, in
the iteration order of the `std::set`. -/
def next_symbols (Ci : State) (prods : List Production) : List String :=
  Ci.foldl
    (fun s it =>
      let a := symbol_after_dot it prods
      if a ≠ "" then set_insert a s else s)
    []

/-- The body of `for(auto &X: nextSymbols)`: `go_to(C[i], X)` is appended when it
is non-empty and `state_index` does not find it. The pair is `(C, changed)`. -/
def add_goto (prods : List Production) (nonterminals : List String) (Ci : State)
    (st : List State × Bool) (X : String) : List State × Bool :=
  let g := go_to Ci X prods nonterminals
  if g.isEmpty then st
  else if state_index st.1 g = -1 then (st.1 ++ [g], true) else st

/-- One pass `for(size_t i=0;i<C.size();++i)` of the construction loop, from
index `i` on; `C.size()` is re-read at every iteration. One unit of fuel is
used per state visited. -/
def collect_pass (prods : List Production) (nonterminals : List String) :
    Nat → Nat → List State → Bool → Option (List State × Bool)
  | 0, _, _, _ => none
  | fuel + 1, i, C, changed =>
    match C.get? i with
    | none => some (C, changed)
    | some Ci =>
      let st := (next_symbols Ci prods).foldl (add_goto prods nonterminals Ci) (C, changed)
      collect_pass prods nonterminals fuel (i + 1) st.1 st.2

/-- The loop `while(changed)`: passes are repeated until one appends nothing.
One unit of fuel is used per pass; every pass gets `passFuel`. -/
def collect_loop (prods : List Production) (nonterminals : List String) (passFuel : Nat) :
    Nat → List State → Option (List State)
  | 0, _ => none
  | fuel + 1, C =>
    match collect_pass prods nonterminals passFuel 0 C false with
    | none => none
    | some (C1, true) => collect_loop prods nonterminals passFuel fuel C1
    | some (C1, false) => some C1

/-- The items `(p, d)`, `0 ≤ d ≤ |rhs(p)|`, of the productions `ps`, numbered
from `k` on. -/
def items_from : Nat → List Production → List Item
  | _, [] => []
  | k, p :: ps => (List.range (p.rhs.length + 1)).map (Item.mk k) ++ items_from (k + 1) ps

/-- The item universe of a grammar: all `(p, d)` with `p` a production index
and `0 ≤ d ≤ |rhs(p)|`. -/
def item_universe (prods : List Production) : List Item := items_from 0 prods

/-- The number of items of the grammar, `Σ (|rhs(p)| + 1)`; the item universe
has `2 ^ item_count prods` subsets. -/
def item_count (prods : List Production) : Nat := (item_universe prods).length

/-- The canonical collection built by `main`: `C` starts as
`[closure({(0,0)})]` and the construction loop runs on it. The fuel
`2 ^ item_count prods + 1` is sufficient (`collect_loop_terminates`). -/
def canonical_collection (prods : List Production) (nonterminals : List String) :
    Option (List State) :=
  let fuel := 2 ^ item_count prods + 1
  collect_loop prods nonterminals fuel fuel [closure [⟨0, 0⟩] prods nonterminals]

/-! ## ACTION / GOTO tables -/

/-- The tag `Action::Type`. -/
inductive ActionType
  | ERR
  | SHIFT
  | REDUCE
  | ACCEPT
deriving DecidableEq, Repr

/-- The record `struct Action`, default `{ERR, -1}`. -/
structure Action where
  type : ActionType := ActionType.ERR
  val : Int := -1
deriving DecidableEq, Repr

/-- A row `ACTION[i]` (`unordered_map<string,Action>`). -/
abbrev ActionRow := String → Option Action

/-- A row `GOTO[i]` (`unordered_map<string,int>`). -/
abbrev GotoRow := String → Option Int

/-- Assignment `m[k] = v`. -/
def map_set {V : Type} (m : String → Option V) (k : String) (v : V) : String → Option V :=
  fun x => if x = k then some v else m x

/-- The value of `row[a]` as read through `operator[]` (default-constructed
when absent), which is also `row.count(a) ? row[a] : Action()`. -/
def action_at (row : ActionRow) (a : String) : Action := (row a).getD {}

/-- The shift proposal on cell `ACTION[i][a]` with target `j`. -/
def propose_shift (row : ActionRow) (a : String) (j : Int) : ActionRow :=
  let act : Action := ⟨ActionType.SHIFT, j⟩
  let cur := action_at row a
  if cur.type = ActionType.ERR then map_set row a act
  else if cur.type ≠ act.type ∨ cur.val ≠ act.val then
    if cur.type = ActionType.REDUCE ∧ act.type = ActionType.SHIFT then map_set row a act
    else map_set row a cur
  else map_set row a cur

/-- The reduce proposal on cell `ACTION[i][t]` with production `p`. -/
def propose_reduce (row : ActionRow) (t : String) (p : Int) : ActionRow :=
  let r : Action := ⟨ActionType.REDUCE, p⟩
  let cur := action_at row t
  if cur.type = ActionType.ERR then map_set row t r
  else if cur.type ≠ r.type ∨ cur.val ≠ r.val then
    if cur.type = ActionType.SHIFT then map_set row t cur
    else if cur.type = ActionType.REDUCE then
      if r.val < cur.val then map_set row t r else map_set row t cur
    else map_set row t cur
  else map_set row t cur

/-- The body of `for(auto &it: C[i])` in the table construction, on the rows
`(ACTION[i], GOTO[i])`. -/
def table_item (prods : List Production) (nonterminals terminals : List String)
    (C : List State) (Ci : State) (rows : ActionRow × GotoRow) (it : Item) :
    ActionRow × GotoRow :=
  if is_dot_at_end it prods = false then
    let a := symbol_after_dot it prods
    let g := go_to Ci a prods nonterminals
    if g.isEmpty = false then
      let j := state_index C g
      if set_count terminals a then (propose_shift rows.1 a j, rows.2)
      else if set_count nonterminals a then (rows.1, map_set rows.2 a j)
      else rows
    else rows
  else if it.prod = 0 then (map_set rows.1 "$" ⟨ActionType.ACCEPT, -1⟩, rows.2)
  else (terminals.foldl (fun row t => propose_reduce row t (it.prod : Int)) rows.1, rows.2)

/-- The rows `(ACTION[i], GOTO[i])` after the table construction visited state
`C[i] = Ci`. -/
def table_row (prods : List Production) (nonterminals terminals : List String)
    (C : List State) (Ci : State) : ActionRow × GotoRow :=
  Ci.foldl (table_item prods nonterminals terminals C Ci) (fun _ => none, fun _ => none)

/-- The tables `ACTION` and `GOTO`, row by row. -/
def build_tables (prods : List Production) (nonterminals terminals : List String)
    (C : List State) : List (ActionRow × GotoRow) :=
  C.map (table_row prods nonterminals terminals C)

/-! ## Parse loop -/

/-- The mutable part of the parse loop: the stack of states (top first) and
the input cursor `ip`. -/
structure Config where
  stack : List Int
  ip : Nat
deriving DecidableEq, Repr

/-- A move printed by the parse loop: `shift 'a' -> state j`, or
`reduce by p` followed by `goto state g`. -/
inductive Move
  | shift (a : String) (j : Int)
  | reduce (p : Int) (g : Int)
deriving DecidableEq, Repr

/-- How the parse loop ends: the ACCEPT branch, the parse-error branch
(token, state), the missing-GOTO branch (state, nonterminal), or an access
that is undefined in C++. -/
inductive Outcome
  | accept
  | parseError (a : String) (s : Int)
  | missingGoto (t : Int) (lhs : String)
  | outOfRange
deriving DecidableEq, Repr

/-- The result of one iteration of `while(true)`. -/
inductive Step
  | next (c : Config) (m : Move)
  | stop (o : Outcome)
deriving DecidableEq, Repr

/-- The rows `ACTION[s]`, `GOTO[s]` for an `int` index `s`. -/
def rows_at (tables : List (ActionRow × GotoRow)) (s : Int) : Option (ActionRow × GotoRow) :=
  if 0 ≤ s then tables.get? s.toNat else none

/-- One iteration of the parse loop. -/
def parse_step (prods : List Production) (tables : List (ActionRow × GotoRow))
    (tokens : List String) (c : Config) : Step :=
  match c.stack with
  | [] => Step.stop Outcome.outOfRange
  | s :: _ =>
    match tokens.get? c.ip with
    | none => Step.stop Outcome.outOfRange
    | some a =>
      match rows_at tables s with
      | none => Step.stop Outcome.outOfRange
      | some row =>
        let act := action_at row.1 a
        match act.type with
        | ActionType.SHIFT => Step.next ⟨act.val :: c.stack, c.ip + 1⟩ (Move.shift a act.val)
        | ActionType.REDUCE =>
          if act.val < 0 then Step.stop Outcome.outOfRange
          else
            match prods.get? act.val.toNat with
            | none => Step.stop Outcome.outOfRange
            | some p =>
              match c.stack.drop p.rhs.length with
              | [] => Step.stop Outcome.outOfRange
              | t :: below =>
                match rows_at tables t with
                | none => Step.stop Outcome.outOfRange
                | some rowt =>
                  match rowt.2 p.lhs with
                  | none => Step.stop (Outcome.missingGoto t p.lhs)
                  | some g => Step.next ⟨g :: t :: below, c.ip⟩ (Move.reduce act.val g)
        | ActionType.ACCEPT => Step.stop Outcome.accept
        | ActionType.ERR => Step.stop (Outcome.parseError a s)

/-- What a bounded run of the parse loop reports: the moves made, the
configuration reached, and the outcome if the loop has ended. -/
structure Run where
  trace : List Move
  final : Config
  outcome : Option Outcome
deriving DecidableEq, Repr

/-- The loop `while(true)` run for at most `fuel` iterations. -/
def parse_loop (prods : List Production) (tables : List (ActionRow × GotoRow))
    (tokens : List String) : Nat → Config → Run
  | 0, c => ⟨[], c, none⟩
  | fuel + 1, c =>
    match parse_step prods tables tokens c with
    | Step.stop o => ⟨[], c, some o⟩
    | Step.next c1 m =>
      let r := parse_loop prods tables tokens fuel c1
      ⟨m :: r.trace, r.final, r.outcome⟩

/-- The tables `main` builds for a grammar: `none` when no production was read
(`main` returns 1 before building anything) or when the construction loop did
not finish. -/
def main_tables (lines : List GrammarLine) :
    Option (Grammar × List State × List (ActionRow × GotoRow)) :=
  let g0 := read_grammar lines
  if g0.prods = [] then none
  else
    let g := augment g0
    match canonical_collection g.prods g.nonterminals with
    | none => none
    | some C => some (g, C, build_tables g.prods g.nonterminals g.terminals C)

/-- The function `main` on split grammar lines and input tokens: the tables are
built, `$` is appended to the tokens, and the parse loop runs from stack `[0]`
and cursor `0` for at most `fuel` iterations. -/
def main (lines : List GrammarLine) (input : List String) (fuel : Nat) : Option Run :=
  match main_tables lines with
  | none => none
  | some (g, _, tables) => some (parse_loop g.prods tables (input ++ ["$"]) fuel ⟨[0], 0⟩)

/-! ## Example grammars -/

/-- The grammar lines `E -> E + T | T` and `T -> id`. -/
def linesE : List GrammarLine := [⟨"E", [["E", "+", "T"], ["T"]]⟩, ⟨"T", [["id"]]⟩]

/-- The augmented grammar of `linesE`. -/
def grammarE : Grammar := augment (read_grammar linesE)

/-- The canonical collection of the example grammar `linesE`. -/
def statesE : List State :=
  [[⟨0, 0⟩, ⟨1, 0⟩, ⟨2, 0⟩, ⟨3, 0⟩], [⟨0, 1⟩, ⟨1, 1⟩], [⟨2, 1⟩], [⟨3, 1⟩],
    [⟨1, 2⟩, ⟨3, 0⟩], [⟨1, 3⟩]]

/-- The grammar lines `A -> B | a` and `B -> A`. -/
def linesLoop : List GrammarLine := [⟨"A", [["B"], ["a"]]⟩, ⟨"B", [["A"]]⟩]

/-- A move without its target state: the token shifted or the production
reduced by. -/
inductive MoveKind
  | shift (a : String)
  | reduce (p : Int)
deriving DecidableEq, Repr

/-- The kind of a move. -/
def Move.kind : Move → MoveKind
  | Move.shift a _ => MoveKind.shift a
  | Move.reduce p _ => MoveKind.reduce p

/-- Whether a move is a shift. -/
def Move.is_shift : Move → Bool
  | Move.shift _ _ => true
  | Move.reduce _ _ => false

/-- The grammar lines `S -> S $ b | A | a` and `A -> S`. -/
def linesX : List GrammarLine := [⟨"S", [["S", "$", "b"], ["A"], ["a"]]⟩, ⟨"A", [["S"]]⟩]

/-- The augmented grammar of `linesX`. -/
def grammarX : Grammar := augment (read_grammar linesX)

/-- The canonical collection of `linesX`. -/
def statesX : List State :=
  [[⟨0, 0⟩, ⟨1, 0⟩, ⟨2, 0⟩, ⟨3, 0⟩, ⟨4, 0⟩], [⟨2, 1⟩], [⟨0, 1⟩, ⟨1, 1⟩, ⟨4, 1⟩], [⟨3, 1⟩],
    [⟨1, 2⟩], [⟨1, 3⟩]]

/-- The grammar line `S -> a | a b`. -/
def linesSR : List GrammarLine := [⟨"S", [["a"], ["a", "b"]]⟩]

/-- The augmented grammar of `linesSR`. -/
def grammarSR : Grammar := augment (read_grammar linesSR)

/-- The canonical collection of `linesSR`. -/
def statesSR : List State :=
  [[⟨0, 0⟩, ⟨1, 0⟩, ⟨2, 0⟩], [⟨0, 1⟩], [⟨1, 1⟩, ⟨2, 1⟩], [⟨2, 2⟩]]

/-- The grammar lines `S -> A | B`, `A -> a`, `B -> a`. -/
def linesRR : List GrammarLine := [⟨"S", [["A"], ["B"]]⟩, ⟨"A", [["a"]]⟩, ⟨"B", [["a"]]⟩]

/-- The augmented grammar of `linesRR`. -/
def grammarRR : Grammar := augment (read_grammar linesRR)

/-- The canonical collection of `linesRR`. -/
def statesRR : List State :=
  [[⟨0, 0⟩, ⟨1, 0⟩, ⟨2, 0⟩, ⟨3, 0⟩, ⟨4, 0⟩], [⟨1, 1⟩], [⟨2, 1⟩], [⟨0, 1⟩], [⟨3, 1⟩, ⟨4, 1⟩]]

/-! ## Specification vocabulary -/

/-- Item `it` is expanded in `C`: if a nonterminal follows its dot, every dot-0
item of a production with that left-hand side is in `C`. -/
def expanded_in (prods : List Production) (nonterminals : List String) (C : List Item)
    (it : Item) : Prop :=
  symbol_after_dot it prods ≠ "" → set_count nonterminals (symbol_after_dot it prods) = true →
    ∀ i, i < prods.length → (prods.getD i default).lhs = symbol_after_dot it prods →
      (⟨i, 0⟩ : Item) ∈ C

/-- The item list `C` is closed: each of its items is expanded in it. -/
def closed_items (prods : List Production) (nonterminals : List String) (C : List Item) : Prop :=
  ∀ it ∈ C, expanded_in prods nonterminals C it

/-- The number of production indices `i` whose dot-0 item is not yet in `C`. -/
def missing_items (prods : List Production) (C : List Item) : Nat :=
  (List.range prods.length).countP fun i => decide ((⟨i, 0⟩ : Item) ∉ C)

/-- Item `it` is an item of the grammar: `prod` is a production index and the
dot is within `[0, |rhs|]`. -/
def valid_item (prods : List Production) (it : Item) : Prop :=
  it.prod < prods.length ∧ it.dot ≤ (prods.getD it.prod default).rhs.length

/-- A state as `closure` leaves it: duplicate-free and in the order of `sort`. -/
def sorted_state (s : State) : Prop := s.Nodup ∧ s.Sorted item_le

/-- The automaton invariant: no state occurs twice, every state is
duplicate-free, sorted, and made of items of the grammar. -/
def automaton_inv (prods : List Production) (C : List State) : Prop :=
  C.Nodup ∧ ∀ s ∈ C, sorted_state s ∧ ∀ it ∈ s, valid_item prods it

/-- What a shift proposal with target `j` leaves in a cell that held `cur`. -/
def shift_cell (cur : Action) (j : Int) : Action :=
  if cur.type = ActionType.ERR ∨ cur.type = ActionType.REDUCE then ⟨ActionType.SHIFT, j⟩ else cur

/-- What a reduce proposal with production `p` leaves in a cell that held `cur`. -/
def reduce_cell (cur : Action) (p : Int) : Action :=
  if cur.type = ActionType.ERR then ⟨ActionType.REDUCE, p⟩
  else if cur.type = ActionType.REDUCE ∧ p < cur.val then ⟨ActionType.REDUCE, p⟩
  else cur

/-- What the visit of item `it` of state `Ci` leaves in cell `t` of the ACTION
row when the cell held `cur`. -/
def item_cell (prods : List Production) (nonterminals terminals : List String)
    (C : List State) (Ci : State) (t : String) (cur : Action) (it : Item) : Action :=
  if is_dot_at_end it prods = false then
    if (go_to Ci (symbol_after_dot it prods) prods nonterminals).isEmpty = false ∧
        set_count terminals (symbol_after_dot it prods) = true ∧
        t = symbol_after_dot it prods then
      shift_cell cur (state_index C (go_to Ci t prods nonterminals))
    else cur
  else if it.prod = 0 then
    if t = "$" then ⟨ActionType.ACCEPT, -1⟩ else cur
  else if t ∈ terminals then reduce_cell cur (it.prod : Int) else cur

/-- The tables of the example grammar `linesE`. -/
def tablesE : List (ActionRow × GotoRow) :=
  build_tables grammarE.prods grammarE.nonterminals grammarE.terminals statesE

/-- The grammar lines `E -> x E' | a` and `E' -> b`, whose language is
`{a, x b}`. -/
def linesClash : List GrammarLine := [⟨"E", [["x", "E'"], ["a"]]⟩, ⟨"E'", [["b"]]⟩]

/-- The grammar line `E -> x E' | a`, in which `E'` is read as a terminal. -/
def linesClashTerminal : List GrammarLine := [⟨"E", [["x", "E'"], ["a"]]⟩]

/-- The grammar line `$ -> a`. -/
def linesDollar : List GrammarLine := [⟨"$", [["a"]]⟩]

/-- The name `main` gives the augmented start symbol: the left-hand side of the
first production with `'` appended. -/
def start_name (g : Grammar) : String := (g.prods.getD 0 default).lhs ++ "'"

/-- The stack is a path of `go_to` transitions that starts at state 0: the
bottom entry is `0`, and every entry above another is the index of a state that
is the non-empty `go_to` of the state below it on some symbol. -/
def stack_path (prods : List Production) (nonterminals : List String) (C : List State) :
    List Int → Prop
  | [] => False
  | [s] => s = 0
  | s :: s1 :: rest =>
    (∃ (k k1 : Nat) (C1 : State) (X : String), s = (k : Int) ∧ s1 = (k1 : Int) ∧
      C.get? k1 = some C1 ∧ go_to C1 X prods nonterminals ≠ [] ∧
      C.get? k = some (go_to C1 X prods nonterminals)) ∧
    stack_path prods nonterminals C (s1 :: rest)

/-- The run of the example grammar on `id + id` after six iterations: the stack
is `0 1 4 5`, the cursor is on `$`, and the next action is the reduce by
`E -> E + T`. -/
def runE6 : Run :=
  ⟨[Move.shift "id" 3, Move.reduce 3 2, Move.reduce 2 1, Move.shift "+" 4, Move.shift "id" 3,
    Move.reduce 3 5], ⟨[5, 4, 1, 0], 3⟩, none⟩

/-- The grammar line `S -> a $`. -/
def linesEnd : List GrammarLine := [⟨"S", [["a", "$"]]⟩]

/-- A unit step of the grammar: `B` is the whole right-hand side of a production
with left-hand side `A` (a unit production `A -> B`). -/
def unit_step (prods : List Production) (B A : String) : Prop :=
  ∃ p ∈ prods, p.lhs = A ∧ p.rhs = [B]

/-- The top state of the stack was entered on `X`: when the stack has two entries
or more, the top state is `go_to` of the state below it on `X`. -/
def stack_entry (prods : List Production) (nonterminals : List String) (C : List State)
    (X : String) : List Int → Prop
  | s :: s1 :: _ =>
    ∃ (k k1 : Nat) (C1 : State), s = (k : Int) ∧ s1 = (k1 : Int) ∧
      C.get? k1 = some C1 ∧ C.get? k = some (go_to C1 X prods nonterminals)
  | _ => True

/-- The grammar lines `S -> A S | a` and `A -> eps`. -/
def linesEps : List GrammarLine := [⟨"S", [["A", "S"], ["a"]]⟩, ⟨"A", [[]]⟩]

/-- A ranking of the symbols of the example grammar `linesE` along its unit
productions `E -> T` and `T -> id`. -/
def rankE (s : String) : Nat := if s = "E" then 2 else if s = "T" then 1 else 0

/-! ## The parse loop: basic facts -/

/-- Once the loop has ended, more fuel changes nothing. -/
theorem parse_loop_add (prods : List Production) (tables : List (ActionRow × GotoRow))
    (tokens : List String) (k : Nat) :
    ∀ (n : Nat) (c : Config), (parse_loop prods tables tokens n c).outcome ≠ none →
      parse_loop prods tables tokens (n + k) c = parse_loop prods tables tokens n c := by
  intro n
  induction n with
  | zero => intro c h; simp [parse_loop] at h
  | succ n ih =>
    intro c h
    rw [Nat.add_right_comm]
    simp only [parse_loop] at h ⊢
    cases hs : parse_step prods tables tokens c with
    | stop o => simp
    | next c1 m =>
      rw [hs] at h
      simp only at h ⊢
      rw [ih c1 h]

/-- A finished run of `main` is the same for every larger fuel. -/
theorem main_add (lines : List GrammarLine) (input : List String) (n k : Nat) (r : Run)
    (h : main lines input n = some r) (ho : r.outcome ≠ none) :
    main lines input (n + k) = some r := by
  unfold main at h ⊢
  cases hm : main_tables lines with
  | none => rw [hm] at h; simp at h
  | some x =>
    obtain ⟨g, C, tables⟩ := x
    rw [hm] at h
    simp only [Option.some.injEq] at h ⊢
    rw [parse_loop_add, h]
    rw [h]; exact ho


/-- The run of `main` when the tables are known. -/
theorem main_of_tables (lines : List GrammarLine) (input : List String) (fuel : Nat)
    (g : Grammar) (C : List State) (tables : List (ActionRow × GotoRow))
    (h : main_tables lines = some (g, C, tables)) :
    main lines input fuel = some (parse_loop g.prods tables (input ++ ["$"]) fuel ⟨[0], 0⟩) := by
  unfold main
  rw [h]

/-- The outcome after a move is the outcome of the rest of the run. -/
theorem parse_loop_outcome_next (prods : List Production) (tables : List (ActionRow × GotoRow))
    (tokens : List String) (n : Nat) (c c1 : Config) (m : Move)
    (h : parse_step prods tables tokens c = Step.next c1 m) :
    (parse_loop prods tables tokens (n + 1) c).outcome
      = (parse_loop prods tables tokens n c1).outcome := by
  simp [parse_loop, h]

/-- A shift move needs a token under the cursor and advances the cursor by one;
a reduce move leaves the cursor where it is. -/
theorem parse_step_ip (prods : List Production) (tables : List (ActionRow × GotoRow))
    (tokens : List String) (c c1 : Config) (m : Move)
    (h : parse_step prods tables tokens c = Step.next c1 m) :
    c.ip < tokens.length ∧ c1.ip = c.ip + (if m.is_shift then 1 else 0) := by
  unfold parse_step at h
  split at h
  · simp at h
  · split at h
    · simp at h
    · rename_i a ha
      have hlt : c.ip < tokens.length := by
        rcases Nat.lt_or_ge c.ip tokens.length with h1 | h1
        · exact h1
        · rw [List.get?_eq_none.mpr h1] at ha; simp at ha
      refine ⟨hlt, ?_⟩
      split at h
      · simp at h
      · dsimp only at h
        split at h
        · simp only [Step.next.injEq] at h
          obtain ⟨h1, h2⟩ := h
          subst h1 h2
          simp [Move.is_shift]
        · split at h
          · simp at h
          · split at h
            · simp at h
            · split at h
              · simp at h
              · split at h
                · simp at h
                · split at h
                  · simp at h
                  · simp only [Step.next.injEq] at h
                    obtain ⟨h1, h2⟩ := h
                    subst h1 h2
                    simp [Move.is_shift]
        · simp at h
        · simp at h

/-- In a bounded run from a cursor within the token list, the number of shift
moves is the distance the cursor travelled, the cursor stays within the list,
and a run that has not ended has made `fuel` moves. -/
theorem parse_loop_shifts (prods : List Production) (tables : List (ActionRow × GotoRow))
    (tokens : List String) :
    ∀ (fuel : Nat) (c : Config), c.ip ≤ tokens.length →
      (parse_loop prods tables tokens fuel c).final.ip ≤ tokens.length ∧
      (parse_loop prods tables tokens fuel c).trace.countP Move.is_shift + c.ip
        = (parse_loop prods tables tokens fuel c).final.ip ∧
      ((parse_loop prods tables tokens fuel c).outcome = none →
        (parse_loop prods tables tokens fuel c).trace.length = fuel) := by
  intro fuel
  induction fuel with
  | zero => intro c hc; simp [parse_loop, hc]
  | succ n ih =>
    intro c hc
    simp only [parse_loop]
    cases hs : parse_step prods tables tokens c with
    | stop o => simp [hc]
    | next c1 m =>
      obtain ⟨h1, h2⟩ := parse_step_ip prods tables tokens c c1 m hs
      have hc1 : c1.ip ≤ tokens.length := by
        rw [h2]; split <;> omega
      obtain ⟨i1, i2, i3⟩ := ih c1 hc1
      refine ⟨i1, ?_, ?_⟩
      · simp only [List.countP_cons]
        rw [← i2, h2]
        cases hm : m.is_shift <;> simp; omega
      · intro ho
        simp only [List.length_cons]
        rw [i3 ho]

/-! ## Worked examples -/

/-- C1: for the grammar `E -> E + T | T`, `T -> id` and the input `id + id`, the run
of `main` ends in the ACCEPT branch: after 8 iterations of the parse loop, and
with every larger bound on the number of iterations, the outcome is accept. -/
theorem example_accepts :
    ∀ k, (main linesE ["id", "+", "id"] (8 + k)).map Run.outcome
      = some (some Outcome.accept) := by
  intro k
  have h : main linesE ["id", "+", "id"] 8
      = some ⟨[Move.shift "id" 3, Move.reduce 3 2, Move.reduce 2 1, Move.shift "+" 4,
          Move.shift "id" 3, Move.reduce 3 5, Move.reduce 1 1], ⟨[1, 0], 3⟩,
          some Outcome.accept⟩ := by decide
  rw [main_add _ _ _ _ _ h (by simp)]
  rfl

/-- C2 (as stated, refuted): the run on `id + id` ends in accept, but its moves
are not `shift id, reduce T->id, shift +, shift id, reduce T->id, reduce E->E+T`:
the sequence of the code has one more move. -/
theorem example_trace_differs :
    ∃ r, main linesE ["id", "+", "id"] 8 = some r ∧ r.outcome = some Outcome.accept ∧
      r.trace.map Move.kind ≠
        [MoveKind.shift "id", MoveKind.reduce 3, MoveKind.shift "+", MoveKind.shift "id",
          MoveKind.reduce 3, MoveKind.reduce 1] := by
  decide

/-- C2 (amended): the moves of the run on `id + id` are exactly: shift `id` (to
state 3); reduce by 3 (`T -> id`), goto 2; reduce by 2 (`E -> T`), goto 1; shift
`+` (to 4); shift `id` (to 3); reduce by 3 (`T -> id`), goto 5; reduce by 1
(`E -> E + T`), goto 1; then accept, with stack `0 1` and the cursor on `$`. -/
theorem example_trace :
    main linesE ["id", "+", "id"] 8
      = some ⟨[Move.shift "id" 3, Move.reduce 3 2, Move.reduce 2 1, Move.shift "+" 4,
          Move.shift "id" 3, Move.reduce 3 5, Move.reduce 1 1], ⟨[1, 0], 3⟩,
          some Outcome.accept⟩ := by
  decide

/-- C3: for the same grammar and the input `id id`, the parse loop ends in the
parse-error branch at the second `id` (cursor index 1, state 1), after the moves
shift `id`, reduce `T -> id`, reduce `E -> T`; the outcome is none of accept,
missing GOTO, out-of-range access. -/
theorem example_rejects :
    main linesE ["id", "id"] 4
      = some ⟨[Move.shift "id" 3, Move.reduce 3 2, Move.reduce 2 1], ⟨[1, 0], 1⟩,
          some (Outcome.parseError "id" 1)⟩ ∧
    (["id", "id"] ++ ["$"]).get? 1 = some "id" := by
  decide

/-- For the grammar lines `A -> B | a`, `B -> A` and the input `a a`, whatever the
bound on the number of iterations, the run is still going: after shift `a` it
reduces by `A -> a`, then by `B -> A` and `A -> B` in turn. -/
theorem loop_run_outcome :
    ∀ fuel, (main linesLoop ["a", "a"] fuel).map Run.outcome = some none := by
  intro fuel
  have ht : main_tables linesLoop
      = some (augment (read_grammar linesLoop),
          [[⟨0, 0⟩, ⟨1, 0⟩, ⟨2, 0⟩, ⟨3, 0⟩], [⟨0, 1⟩, ⟨3, 1⟩], [⟨1, 1⟩], [⟨2, 1⟩]],
          build_tables (augment (read_grammar linesLoop)).prods
            (augment (read_grammar linesLoop)).nonterminals
            (augment (read_grammar linesLoop)).terminals
            [[⟨0, 0⟩, ⟨1, 0⟩, ⟨2, 0⟩, ⟨3, 0⟩], [⟨0, 1⟩, ⟨3, 1⟩], [⟨1, 1⟩], [⟨2, 1⟩]]) := by
    rfl
  rw [main_of_tables _ _ _ _ _ _ ht]
  simp only [Option.map_some', Option.some.injEq]
  generalize hP : (augment (read_grammar linesLoop)).prods = P
  generalize hT : build_tables P (augment (read_grammar linesLoop)).nonterminals
      (augment (read_grammar linesLoop)).terminals
      [[⟨0, 0⟩, ⟨1, 0⟩, ⟨2, 0⟩, ⟨3, 0⟩], [⟨0, 1⟩, ⟨3, 1⟩], [⟨1, 1⟩], [⟨2, 1⟩]] = T
  have s0 : parse_step P T (["a", "a"] ++ ["$"]) ⟨[0], 0⟩
      = Step.next ⟨[3, 0], 1⟩ (Move.shift "a" 3) := by subst hT hP; decide
  have s3 : parse_step P T (["a", "a"] ++ ["$"]) ⟨[3, 0], 1⟩
      = Step.next ⟨[1, 0], 1⟩ (Move.reduce 2 1) := by subst hT hP; decide
  have s1 : parse_step P T (["a", "a"] ++ ["$"]) ⟨[1, 0], 1⟩
      = Step.next ⟨[2, 0], 1⟩ (Move.reduce 3 2) := by subst hT hP; decide
  have s2 : parse_step P T (["a", "a"] ++ ["$"]) ⟨[2, 0], 1⟩
      = Step.next ⟨[1, 0], 1⟩ (Move.reduce 1 1) := by subst hT hP; decide
  have cyc : ∀ n, (parse_loop P T (["a", "a"] ++ ["$"]) n ⟨[1, 0], 1⟩).outcome = none ∧
      (parse_loop P T (["a", "a"] ++ ["$"]) n ⟨[2, 0], 1⟩).outcome = none := by
    intro n
    induction n with
    | zero => simp [parse_loop]
    | succ n ih =>
      rw [parse_loop_outcome_next _ _ _ _ _ _ _ s1, parse_loop_outcome_next _ _ _ _ _ _ _ s2]
      exact ⟨ih.2, ih.1⟩
  rcases fuel with _ | _ | n
  · simp [parse_loop]
  · rw [parse_loop_outcome_next _ _ _ _ _ _ _ s0]; simp [parse_loop]
  · rw [parse_loop_outcome_next _ _ _ _ _ _ _ s0, parse_loop_outcome_next _ _ _ _ _ _ _ s3]
    exact (cyc n).1

/-- C4 (as stated, refuted): for the grammar lines `A -> B | a`, `B -> A` and the
input `a a` the parse loop never reaches an outcome (accept, parse error,
missing GOTO or out-of-range access): no number of iterations ends the run. -/
theorem example_loops_forever :
    ¬ ∃ fuel r, main linesLoop ["a", "a"] fuel = some r ∧ r.outcome ≠ none := by
  rintro ⟨fuel, r, h, ho⟩
  have := loop_run_outcome fuel
  rw [h] at this
  simp only [Option.map_some', Option.some.injEq] at this
  exact ho this

/-- In every bounded run of `main`, for every grammar and input, the
number of shift moves is at most the number of tokens (the input and `$`), and
a run that has not reached an outcome after `fuel` iterations has made `fuel`
moves, so all but at most `input.length + 1` of them are reduce moves. -/
theorem run_shifts_bounded (lines : List GrammarLine) (input : List String) (fuel : Nat)
    (r : Run) (h : main lines input fuel = some r) :
    r.trace.countP Move.is_shift ≤ input.length + 1 ∧
    (r.outcome = none →
      r.trace.length = fuel ∧
      fuel - (input.length + 1) ≤ r.trace.countP (fun m => !m.is_shift)) := by
  unfold main at h
  cases hm : main_tables lines with
  | none => rw [hm] at h; simp at h
  | some x =>
    obtain ⟨g, C, tables⟩ := x
    rw [hm] at h
    simp only [Option.some.injEq] at h
    obtain ⟨h1, h2, h3⟩ := parse_loop_shifts g.prods tables (input ++ ["$"]) fuel ⟨[0], 0⟩
      (Nat.zero_le _)
    rw [h] at h1 h2 h3
    simp only [List.length_append, List.length_singleton, Nat.add_zero] at h1 h2
    have hs : r.trace.countP Move.is_shift ≤ input.length + 1 := by omega
    refine ⟨hs, fun ho => ⟨h3 ho, ?_⟩⟩
    have hl := List.length_eq_countP_add_countP Move.is_shift r.trace
    have h4 := h3 ho
    have : List.countP (fun m => !m.is_shift) r.trace
        = List.countP (fun a => decide ¬Move.is_shift a = true) r.trace := by
      congr 1; funext m; cases m.is_shift <;> simp
    omega

/-- A run to which `run_shifts_bounded` applies: the looping grammar after 10
iterations has made one shift and nine reduces. -/
theorem run_shifts_bounded_witness :
    List.countP Move.is_shift
        [Move.shift "a" 3, Move.reduce 2 1, Move.reduce 3 2, Move.reduce 1 1,
          Move.reduce 3 2, Move.reduce 1 1, Move.reduce 3 2, Move.reduce 1 1, Move.reduce 3 2,
          Move.reduce 1 1] ≤ ["a", "a"].length + 1 ∧
      ((none : Option Outcome) = none →
        [Move.shift "a" 3, Move.reduce 2 1, Move.reduce 3 2, Move.reduce 1 1,
          Move.reduce 3 2, Move.reduce 1 1, Move.reduce 3 2, Move.reduce 1 1, Move.reduce 3 2,
          Move.reduce 1 1].length = 10 ∧
        10 - (["a", "a"].length + 1) ≤ List.countP (fun m => !m.is_shift)
          [Move.shift "a" 3, Move.reduce 2 1, Move.reduce 3 2, Move.reduce 1 1,
            Move.reduce 3 2, Move.reduce 1 1, Move.reduce 3 2, Move.reduce 1 1, Move.reduce 3 2,
            Move.reduce 1 1]) :=
  run_shifts_bounded linesLoop ["a", "a"] 10
    ⟨[Move.shift "a" 3, Move.reduce 2 1, Move.reduce 3 2, Move.reduce 1 1,
      Move.reduce 3 2, Move.reduce 1 1, Move.reduce 3 2, Move.reduce 1 1, Move.reduce 3 2,
      Move.reduce 1 1], ⟨[1, 0], 1⟩, none⟩ (by decide)

/-! ## Closure: the worklist loop -/

theorem expanded_in_mono (prods : List Production) (nonterminals : List String)
    (C D : List Item) (it : Item) (hsub : ∀ x ∈ C, x ∈ D)
    (h : expanded_in prods nonterminals C it) : expanded_in prods nonterminals D it :=
  fun h1 h2 i hi hl => hsub _ (h h1 h2 i hi hl)

/-- A predicate that holds less often is counted less often, strictly so when
the list has an element on which the two differ. -/
theorem countP_lt_of_witness {α : Type} (p q : α → Bool) :
    ∀ (l : List α) (a : α), a ∈ l → q a = true → p a = false →
      (∀ x ∈ l, p x = true → q x = true) → l.countP p < l.countP q := by
  intro l
  induction l with
  | nil => intro a ha; simp at ha
  | cons b l ih =>
    intro a ha hq hp himp
    have hle : l.countP p ≤ l.countP q :=
      List.countP_mono_left fun x hx => himp x (List.mem_cons_of_mem _ hx)
    rcases List.mem_cons.mp ha with rfl | hal
    · rw [List.countP_cons_of_pos _ _ hq, List.countP_cons_of_neg _ _ (by simp [hp])]
      omega
    · have hlt := ih a hal hq hp fun x hx => himp x (List.mem_cons_of_mem _ hx)
      by_cases hpb : p b = true
      · rw [List.countP_cons_of_pos _ _ hpb,
          List.countP_cons_of_pos _ _ (himp b (List.mem_cons_self _ _) hpb)]
        omega
      · rw [List.countP_cons_of_neg _ _ hpb]
        by_cases hqb : q b = true
        · rw [List.countP_cons_of_pos _ _ hqb]; omega
        · rw [List.countP_cons_of_neg _ _ hqb]; exact hlt

/-- Inserting a missing dot-0 item lowers the number of missing ones. -/
theorem missing_items_insert (prods : List Production) (C : List Item) (i : Nat)
    (hi : i < prods.length) (hn : (⟨i, 0⟩ : Item) ∉ C) :
    missing_items prods (C ++ [⟨i, 0⟩]) < missing_items prods C := by
  unfold missing_items
  apply countP_lt_of_witness _ _ _ i (List.mem_range.mpr hi)
  · simpa using hn
  · simp
  · intro x _ hx
    simp only [List.mem_append, List.mem_singleton, not_or, decide_eq_true_eq] at hx ⊢
    exact hx.1

/-- One step of the inner loop of `closure`. -/
theorem closure_add_spec (prods : List Production) (a : String)
    (st : List Item × List Item) (i : Nat) :
    (∀ x ∈ st.1, x ∈ (closure_add prods a st i).1) ∧
    (∀ x ∈ st.2, x ∈ (closure_add prods a st i).2) ∧
    (∀ x ∈ (closure_add prods a st i).1, x ∈ st.1 ∨
      (x = ⟨i, 0⟩ ∧ x ∈ (closure_add prods a st i).2 ∧ (prods.getD i default).lhs = a)) ∧
    (∀ x ∈ (closure_add prods a st i).2, x ∈ st.2 ∨ x ∈ (closure_add prods a st i).1) ∧
    ((prods.getD i default).lhs = a → (⟨i, 0⟩ : Item) ∈ (closure_add prods a st i).1) ∧
    (st.1.Nodup → (closure_add prods a st i).1.Nodup) ∧
    (i < prods.length →
      (closure_add prods a st i).2.length + missing_items prods (closure_add prods a st i).1
        ≤ st.2.length + missing_items prods st.1) := by
  unfold closure_add
  by_cases h1 : (prods.getD i default).lhs = a
  · by_cases h2 : (⟨i, 0⟩ : Item) ∈ st.1
    · rw [if_pos h1, if_pos h2]
      exact ⟨fun x hx => hx, fun x hx => hx, fun x hx => Or.inl hx, fun x hx => Or.inl hx,
        fun _ => h2, fun h => h, fun _ => Nat.le_refl _⟩
    · rw [if_pos h1, if_neg h2]
      refine ⟨fun x hx => List.mem_append_left _ hx, fun x hx => List.mem_append_left _ hx,
        ?_, ?_, fun _ => by simp, ?_, ?_⟩
      · intro x hx
        rcases List.mem_append.mp hx with h | h
        · exact Or.inl h
        · right
          have hx1 : x = ⟨i, 0⟩ := by simpa using h
          exact ⟨hx1, by simp [hx1], h1⟩
      · intro x hx
        rcases List.mem_append.mp hx with h | h
        · exact Or.inl h
        · exact Or.inr (List.mem_append_right _ h)
      · intro hnd
        rw [List.nodup_append]
        refine ⟨hnd, List.nodup_singleton _, ?_⟩
        intro x hx hx1
        have : x = ⟨i, 0⟩ := by simpa using hx1
        exact h2 (this ▸ hx)
      · intro hi
        have := missing_items_insert prods st.1 i hi h2
        simp only [List.length_append, List.length_singleton]
        omega
  · rw [if_neg h1]
    exact ⟨fun x hx => hx, fun x hx => hx, fun x hx => Or.inl hx, fun x hx => Or.inl hx,
      fun h => absurd h h1, fun h => h, fun _ => Nat.le_refl _⟩

/-- The inner loop of `closure` over a list of indices. -/
theorem closure_fold_spec (prods : List Production) (a : String) :
    ∀ (l : List Nat) (st : List Item × List Item),
      (∀ x ∈ st.1, x ∈ (l.foldl (closure_add prods a) st).1) ∧
      (∀ x ∈ st.2, x ∈ (l.foldl (closure_add prods a) st).2) ∧
      (∀ x ∈ (l.foldl (closure_add prods a) st).1, x ∈ st.1 ∨
        (x.dot = 0 ∧ x.prod ∈ l ∧ x ∈ (l.foldl (closure_add prods a) st).2 ∧
          (prods.getD x.prod default).lhs = a)) ∧
      (∀ x ∈ (l.foldl (closure_add prods a) st).2,
        x ∈ st.2 ∨ x ∈ (l.foldl (closure_add prods a) st).1) ∧
      (∀ i ∈ l, (prods.getD i default).lhs = a →
        (⟨i, 0⟩ : Item) ∈ (l.foldl (closure_add prods a) st).1) ∧
      (st.1.Nodup → (l.foldl (closure_add prods a) st).1.Nodup) ∧
      ((∀ i ∈ l, i < prods.length) →
        (l.foldl (closure_add prods a) st).2.length
            + missing_items prods (l.foldl (closure_add prods a) st).1
          ≤ st.2.length + missing_items prods st.1) := by
  intro l
  induction l with
  | nil =>
    intro st
    simp only [List.foldl_nil]
    exact ⟨fun x hx => hx, fun x hx => hx, fun x hx => Or.inl hx, fun x hx => Or.inl hx,
      fun i hi => by simp at hi, fun h => h, fun _ => Nat.le_refl _⟩
  | cons i l ih =>
    intro st
    simp only [List.foldl_cons]
    obtain ⟨s1, s2, s3, s4, s5, s6, s7⟩ := closure_add_spec prods a st i
    obtain ⟨f1, f2, f3, f4, f5, f6, f7⟩ := ih (closure_add prods a st i)
    refine ⟨fun x hx => f1 x (s1 x hx), fun x hx => f2 x (s2 x hx), ?_, ?_, ?_,
      fun h => f6 (s6 h), ?_⟩
    · intro x hx
      rcases f3 x hx with h | ⟨h1, h2, h3, h4⟩
      · rcases s3 x h with h' | ⟨h1, h2, h3⟩
        · exact Or.inl h'
        · right
          subst h1
          exact ⟨rfl, List.mem_cons_self _ _, f2 _ h2, h3⟩
      · exact Or.inr ⟨h1, List.mem_cons_of_mem _ h2, h3, h4⟩
    · intro x hx
      rcases f4 x hx with h | h
      · rcases s4 x h with h' | h'
        · exact Or.inl h'
        · exact Or.inr (f1 x h')
      · exact Or.inr h
    · intro j hj hl
      rcases List.mem_cons.mp hj with rfl | hjl
      · exact f1 _ (s5 hl)
      · exact f5 j hjl hl
    · intro hlt
      have h1 := s7 (hlt i (List.mem_cons_self _ _))
      have h2 := f7 fun j hj => hlt j (List.mem_cons_of_mem _ hj)
      omega

/-- When the dot-0 items asked for are all present, the inner loop of `closure`
changes nothing. -/
theorem closure_fold_noop (prods : List Production) (a : String) (C q : List Item) :
    ∀ (l : List Nat), (∀ i ∈ l, (prods.getD i default).lhs = a → (⟨i, 0⟩ : Item) ∈ C) →
      l.foldl (closure_add prods a) (C, q) = (C, q) := by
  intro l
  induction l with
  | nil => intro _; rfl
  | cons i l ih =>
    intro h
    simp only [List.foldl_cons]
    have hstep : closure_add prods a (C, q) i = (C, q) := by
      unfold closure_add
      by_cases h1 : (prods.getD i default).lhs = a
      · rw [if_pos h1, if_pos (h i (List.mem_cons_self _ _) h1)]
      · rw [if_neg h1]
    rw [hstep]
    exact ih fun j hj => h j (List.mem_cons_of_mem _ hj)

/-- The worklist loop of `closure` ends within `q.length + missing_items prods C`
pops, keeps what is in `C`, adds only dot-0 items asked for by a member, keeps
`C` duplicate-free, and ends with a closed list. -/
theorem closure_loop_spec (prods : List Production) (nonterminals : List String) :
    ∀ (fuel : Nat) (C q : List Item), q.length + missing_items prods C ≤ fuel →
      (∀ x ∈ q, x ∈ C) →
      ∃ D, closure_loop prods nonterminals fuel C q = some D ∧
        (∀ x ∈ C, x ∈ D) ∧
        (∀ x ∈ D, x ∈ C ∨ (x.dot = 0 ∧ x.prod < prods.length ∧
          ∃ y ∈ D, symbol_after_dot y prods ≠ "" ∧
            set_count nonterminals (symbol_after_dot y prods) = true ∧
            (prods.getD x.prod default).lhs = symbol_after_dot y prods)) ∧
        (C.Nodup → D.Nodup) ∧
        ((∀ it ∈ C, it ∈ q ∨ expanded_in prods nonterminals C it) →
          closed_items prods nonterminals D) := by
  intro fuel
  induction fuel with
  | zero =>
    intro C q hf hq
    cases q with
    | nil =>
      refine ⟨C, by simp [closure_loop], fun x hx => hx, fun x hx => Or.inl hx, fun h => h, ?_⟩
      intro h it hit
      rcases h it hit with h1 | h1
      · simp at h1
      · exact h1
    | cons it q => simp at hf
  | succ n ih =>
    intro C q hf hq
    cases q with
    | nil =>
      refine ⟨C, by simp [closure_loop], fun x hx => hx, fun x hx => Or.inl hx, fun h => h, ?_⟩
      intro h it hit
      rcases h it hit with h1 | h1
      · simp at h1
      · exact h1
    | cons it q =>
      have hq1 : ∀ x ∈ q, x ∈ C := fun x hx => hq x (List.mem_cons_of_mem _ hx)
      have hf1 : q.length + missing_items prods C ≤ n := by
        simp only [List.length_cons] at hf; omega
      have skip : (symbol_after_dot it prods = "" ∨
          set_count nonterminals (symbol_after_dot it prods) = false) →
          ∀ x ∈ C, (x ∈ it :: q ∨ expanded_in prods nonterminals C x) →
            (x ∈ q ∨ expanded_in prods nonterminals C x) := by
        intro hs x _ hx
        rcases hx with hx | hx
        · rcases List.mem_cons.mp hx with rfl | hx
          · right
            intro h1 h2
            rcases hs with hs | hs
            · exact absurd hs h1
            · rw [hs] at h2; exact absurd h2 (by simp)
          · exact Or.inl hx
        · exact Or.inr hx
      by_cases h1 : symbol_after_dot it prods = ""
      · obtain ⟨D, e, a1, a2, a3, a4⟩ := ih C q hf1 hq1
        refine ⟨D, ?_, a1, a2, a3, fun h => a4 fun x hx => skip (Or.inl h1) x hx (h x hx)⟩
        simp only [closure_loop]
        rw [if_pos h1, e]
      · by_cases h2 : set_count nonterminals (symbol_after_dot it prods) = false
        · obtain ⟨D, e, a1, a2, a3, a4⟩ := ih C q hf1 hq1
          refine ⟨D, ?_, a1, a2, a3, fun h => a4 fun x hx => skip (Or.inr h2) x hx (h x hx)⟩
          simp only [closure_loop]
          rw [if_neg h1, if_pos h2, e]
        · obtain ⟨f1, f2, f3, f4, f5, f6, f7⟩ :=
            closure_fold_spec prods (symbol_after_dot it prods) (List.range prods.length) (C, q)
          have hrange : ∀ i ∈ List.range prods.length, i < prods.length :=
            fun i hi => List.mem_range.mp hi
          have hf2 := f7 hrange
          obtain ⟨D, e, a1, a2, a3, a4⟩ :=
            ih (closure_expand prods (symbol_after_dot it prods) (C, q)).1
              (closure_expand prods (symbol_after_dot it prods) (C, q)).2
              (by unfold closure_expand; simp only at hf2; omega)
              (by
                intro x hx
                rcases f4 x hx with h | h
                · exact f1 x (hq1 x h)
                · exact h)
          have h2t : set_count nonterminals (symbol_after_dot it prods) = true := by
            cases hb : set_count nonterminals (symbol_after_dot it prods)
            · exact absurd hb h2
            · rfl
          refine ⟨D, ?_, fun x hx => a1 x (f1 x hx), ?_, fun h => a3 (f6 h), ?_⟩
          · simp only [closure_loop]
            rw [if_neg h1, if_neg h2, e]
          · intro x hx
            rcases a2 x hx with h | h
            · rcases f3 x h with h' | ⟨d0, hp, _, hl⟩
              · exact Or.inl h'
              · exact Or.inr ⟨d0, hrange _ hp, it,
                  a1 _ (f1 _ (hq it (List.mem_cons_self _ _))), h1, h2t, hl⟩
            · exact Or.inr h
          · intro h
            apply a4
            intro x hx
            rcases f3 x hx with hxC | ⟨_, _, hx2, _⟩
            · rcases h x hxC with hx1 | hx1
              · rcases List.mem_cons.mp hx1 with rfl | hx1
                · right
                  intro _ _ i hi hl
                  exact f5 i (List.mem_range.mpr hi) hl
                · exact Or.inl (f2 x hx1)
              · exact Or.inr (expanded_in_mono _ _ _ _ _ f1 hx1)
            · exact Or.inl hx2

/-- On a closed list the worklist loop of `closure` changes nothing. -/
theorem closure_loop_closed (prods : List Production) (nonterminals : List String)
    (C : List Item) (hC : closed_items prods nonterminals C) :
    ∀ (fuel : Nat) (q : List Item), q.length ≤ fuel → (∀ x ∈ q, x ∈ C) →
      closure_loop prods nonterminals fuel C q = some C := by
  intro fuel
  induction fuel with
  | zero =>
    intro q hf _
    cases q with
    | nil => simp [closure_loop]
    | cons it q => simp at hf
  | succ n ih =>
    intro q hf hq
    cases q with
    | nil => simp [closure_loop]
    | cons it q =>
      have hq1 : ∀ x ∈ q, x ∈ C := fun x hx => hq x (List.mem_cons_of_mem _ hx)
      have hf1 : q.length ≤ n := by simp only [List.length_cons] at hf; omega
      simp only [closure_loop]
      by_cases h1 : symbol_after_dot it prods = ""
      · rw [if_pos h1]; exact ih q hf1 hq1
      · rw [if_neg h1]
        by_cases h2 : set_count nonterminals (symbol_after_dot it prods) = false
        · rw [if_pos h2]; exact ih q hf1 hq1
        · rw [if_neg h2]
          have h2t : set_count nonterminals (symbol_after_dot it prods) = true := by
            cases hb : set_count nonterminals (symbol_after_dot it prods)
            · exact absurd hb h2
            · rfl
          have hno : closure_expand prods (symbol_after_dot it prods) (C, q) = (C, q) := by
            unfold closure_expand
            apply closure_fold_noop
            intro i hi hl
            exact hC it (hq it (List.mem_cons_self _ _)) h1 h2t i (List.mem_range.mp hi) hl
          rw [hno]
          exact ih q hf1 hq1

/-! ## Closure: the sorted result -/

theorem item_le_iff (x y : Item) :
    item_le x y ↔ x.prod < y.prod ∨ (x.prod = y.prod ∧ x.dot ≤ y.dot) := by
  unfold item_le item_less
  by_cases h : y.prod = x.prod
  · simp [h]
  · simp only [ne_eq, h, not_false_eq_true, if_true, decide_eq_false_iff_not, not_lt]
    omega

theorem item_le_total (x y : Item) : item_le x y ∨ item_le y x := by
  rw [item_le_iff, item_le_iff]; omega

theorem item_le_trans (x y z : Item) (h1 : item_le x y) (h2 : item_le y z) : item_le x z := by
  rw [item_le_iff] at *; omega

theorem item_le_antisymm (x y : Item) (h1 : item_le x y) (h2 : item_le y x) : x = y := by
  rw [item_le_iff] at *
  cases x; cases y
  simp only [Item.mk.injEq] at *
  omega

theorem sort_items_perm (l : List Item) : (sort_items l).Perm l :=
  List.perm_insertionSort _ l

theorem sort_items_sorted (l : List Item) : (sort_items l).Sorted item_le :=
  @List.sorted_insertionSort Item item_le _ ⟨item_le_total⟩ ⟨item_le_trans⟩ l

theorem sort_items_of_sorted (l : List Item) (h : l.Sorted item_le) : sort_items l = l :=
  List.Sorted.insertionSort_eq h

/-- The worklist loop of `closure` always ends within the fuel `closure` gives it. -/
theorem closure_loop_terminates (prods : List Production) (nonterminals : List String)
    (I : State) :
    ∃ D, closure_loop prods nonterminals (I.length + prods.length) I.dedup I = some D ∧
      closure I prods nonterminals = sort_items D ∧
      (∀ x ∈ I, x ∈ D) ∧
      (∀ x ∈ D, x ∈ I ∨ (x.dot = 0 ∧ x.prod < prods.length ∧
        ∃ y ∈ D, symbol_after_dot y prods ≠ "" ∧
          set_count nonterminals (symbol_after_dot y prods) = true ∧
          (prods.getD x.prod default).lhs = symbol_after_dot y prods)) ∧
      D.Nodup ∧ closed_items prods nonterminals D := by
  have hm : missing_items prods I.dedup ≤ prods.length := by
    unfold missing_items
    exact (List.countP_le_length _).trans (by simp)
  obtain ⟨D, e, a1, a2, a3, a4⟩ := closure_loop_spec prods nonterminals
    (I.length + prods.length) I.dedup I (by omega) (fun x hx => List.mem_dedup.mpr hx)
  refine ⟨D, e, ?_, fun x hx => a1 x (List.mem_dedup.mpr hx), ?_, a3 (List.nodup_dedup I),
    a4 fun it hit => Or.inl (List.mem_dedup.mp hit)⟩
  · unfold closure; rw [e]
  · intro x hx
    rcases a2 x hx with h | h
    · exact Or.inl (List.mem_dedup.mp h)
    · exact Or.inr h

/-- What `closure` returns: a sorted duplicate-free closed list that contains
`I` and otherwise only dot-0 items asked for by one of its members. -/
theorem closure_spec (prods : List Production) (nonterminals : List String) (I : State) :
    (∀ x ∈ I, x ∈ closure I prods nonterminals) ∧
    (∀ x ∈ closure I prods nonterminals, x ∈ I ∨ (x.dot = 0 ∧ x.prod < prods.length ∧
      ∃ y ∈ closure I prods nonterminals, symbol_after_dot y prods ≠ "" ∧
        set_count nonterminals (symbol_after_dot y prods) = true ∧
        (prods.getD x.prod default).lhs = symbol_after_dot y prods)) ∧
    (closure I prods nonterminals).Nodup ∧
    (closure I prods nonterminals).Sorted item_le ∧
    closed_items prods nonterminals (closure I prods nonterminals) := by
  obtain ⟨D, _, e, a1, a2, a3, a4⟩ := closure_loop_terminates prods nonterminals I
  have hp := sort_items_perm D
  rw [e]
  refine ⟨fun x hx => hp.mem_iff.mpr (a1 x hx), ?_, hp.nodup_iff.mpr a3, sort_items_sorted D, ?_⟩
  · intro x hx
    rcases a2 x (hp.mem_iff.mp hx) with h | ⟨d0, hlt, y, hy, r⟩
    · exact Or.inl h
    · exact Or.inr ⟨d0, hlt, y, hp.mem_iff.mpr hy, r⟩
  · intro it hit h1 h2 i hi hl
    exact hp.mem_iff.mpr (a4 it (hp.mem_iff.mp hit) h1 h2 i hi hl)

/-- Applying `closure` to a closed, sorted, duplicate-free list returns it. -/
theorem closure_of_closed (prods : List Production) (nonterminals : List String) (L : State)
    (hn : L.Nodup) (hs : L.Sorted item_le) (hc : closed_items prods nonterminals L) :
    closure L prods nonterminals = L := by
  unfold closure
  rw [hn.dedup, closure_loop_closed prods nonterminals L hc _ L (by omega) fun x hx => hx]
  exact sort_items_of_sorted L hs

/-- C5: `closure` is idempotent: for every production list, nonterminal set and
item list `S` with valid production indices, `closure (closure S)` is the same
sorted list as `closure S`. -/
theorem closure_idempotent (prods : List Production) (nonterminals : List String) (S : State)
    (_hS : ∀ it ∈ S, it.prod < prods.length) :
    closure (closure S prods nonterminals) prods nonterminals
      = closure S prods nonterminals := by
  obtain ⟨_, _, hn, hs, hc⟩ := closure_spec prods nonterminals S
  exact closure_of_closed prods nonterminals _ hn hs hc

/-- An instance of `closure_idempotent`: the start item of the example grammar. -/
theorem closure_idempotent_witness :
    (∀ it ∈ ([⟨0, 0⟩] : State), it.prod < grammarE.prods.length) ∧
    closure (closure [⟨0, 0⟩] grammarE.prods grammarE.nonterminals) grammarE.prods
        grammarE.nonterminals
      = closure [⟨0, 0⟩] grammarE.prods grammarE.nonterminals :=
  ⟨by decide, closure_idempotent grammarE.prods grammarE.nonterminals [⟨0, 0⟩] (by decide)⟩

/-! ## State lookup -/

theorem state_eq_iff : ∀ (c S : State), state_eq c S = true ↔ c = S := by
  intro c
  induction c with
  | nil => intro S; cases S <;> simp [state_eq]
  | cons x xs ih =>
    intro S
    cases S with
    | nil => simp [state_eq]
    | cons y ys => simp [state_eq, ih ys]

/-- The loop of `state_index`: `-1` when no state equals `S`, otherwise the
first position of `S`, counted from `i`. -/
theorem state_index_from_spec (S : State) :
    ∀ (cs : List State) (i : Nat),
      (S ∉ cs ∧ state_index_from S cs i = -1) ∨
      (∃ k, k < cs.length ∧ cs.get? k = some S ∧ state_index_from S cs i = ((i + k : Nat) : Int)) := by
  intro cs
  induction cs with
  | nil => intro i; left; simp [state_index_from]
  | cons c cs ih =>
    intro i
    by_cases h : state_eq c S = true
    · right
      refine ⟨0, by simp, ?_, ?_⟩
      · simp [(state_eq_iff c S).mp h]
      · simp [state_index_from, h]
    · have hne : c ≠ S := fun e => h ((state_eq_iff c S).mpr e)
      have e : state_index_from S (c :: cs) i = state_index_from S cs (i + 1) := by
        simp [state_index_from, h]
      rcases ih (i + 1) with ⟨h1, h2⟩ | ⟨k, h1, h2, h3⟩
      · left
        refine ⟨?_, ?_⟩
        · simp only [List.mem_cons, not_or]
          exact ⟨fun e => hne e.symm, h1⟩
        · rw [e, h2]
      · right
        refine ⟨k + 1, by simp; omega, by simpa using h2, ?_⟩
        rw [e, h3]
        congr 1
        omega

/-- The function `state_index` returns `-1` exactly when no state of `C` equals `S`. -/
theorem state_index_eq_neg_one (C : List State) (S : State) :
    state_index C S = -1 ↔ S ∉ C := by
  unfold state_index
  rcases state_index_from_spec S C 0 with ⟨h1, h2⟩ | ⟨k, h1, h2, h3⟩
  · exact ⟨fun _ => h1, fun _ => h2⟩
  · constructor
    · intro h
      rw [h3] at h
      omega
    · intro h
      exact absurd (List.get?_mem h2) h

/-! ## Canonical collection: invariants -/

/-- One `go_to` result is either left out or appended, and it is appended only
when it is not yet a state. -/
theorem add_goto_spec (prods : List Production) (nonterminals : List String) (Ci : State)
    (st : List State × Bool) (X : String) :
    add_goto prods nonterminals Ci st X = st ∨
    (add_goto prods nonterminals Ci st X = (st.1 ++ [go_to Ci X prods nonterminals], true) ∧
      go_to Ci X prods nonterminals ∉ st.1 ∧ go_to Ci X prods nonterminals ≠ []) := by
  unfold add_goto
  by_cases h1 : (go_to Ci X prods nonterminals).isEmpty = true
  · left; simp only [h1, if_true]
  · by_cases h2 : state_index st.1 (go_to Ci X prods nonterminals) = -1
    · right
      simp only [h1, h2, if_true]
      refine ⟨by simp, (state_index_eq_neg_one _ _).mp h2, ?_⟩
      intro e
      rw [e] at h1
      simp at h1
    · left; simp only [h1, h2, if_false]; simp

/-- The inner loop over `nextSymbols` keeps every property of the state list
that appending a new `go_to` result of `Ci` keeps; the list only grows, and the
flag `changed` is either unchanged or set with the list strictly longer. -/
theorem add_goto_fold (prods : List Production) (nonterminals : List String) (Ci : State)
    (P : List State → Prop)
    (hP : ∀ C X, P C → go_to Ci X prods nonterminals ∉ C →
      P (C ++ [go_to Ci X prods nonterminals])) :
    ∀ (l : List String) (st : List State × Bool), P st.1 →
      P (l.foldl (add_goto prods nonterminals Ci) st).1 ∧
      (∃ T, (l.foldl (add_goto prods nonterminals Ci) st).1 = st.1 ++ T) ∧
      ((l.foldl (add_goto prods nonterminals Ci) st).2 = st.2 ∨
        ((l.foldl (add_goto prods nonterminals Ci) st).2 = true ∧
          st.1.length < (l.foldl (add_goto prods nonterminals Ci) st).1.length)) := by
  intro l
  induction l with
  | nil => intro st h; exact ⟨h, ⟨[], by simp⟩, Or.inl rfl⟩
  | cons X l ih =>
    intro st h
    simp only [List.foldl_cons]
    rcases add_goto_spec prods nonterminals Ci st X with e | ⟨e, hn, _⟩
    · rw [e]; exact ih st h
    · rw [e]
      obtain ⟨i1, ⟨T, i2⟩, i3⟩ := ih (st.1 ++ [go_to Ci X prods nonterminals], true)
        (hP st.1 X h hn)
      refine ⟨i1, ⟨go_to Ci X prods nonterminals :: T, by rw [i2]; simp⟩, Or.inr ⟨?_, ?_⟩⟩
      · rcases i3 with h3 | h3
        · exact h3
        · exact h3.1
      · rw [i2]; simp

/-- A finished pass keeps every property of the state list that appending a new
`go_to` result of one of its states keeps. -/
theorem collect_pass_inv (prods : List Production) (nonterminals : List String)
    (P : List State → Prop)
    (hP : ∀ C Ci X, P C → Ci ∈ C → go_to Ci X prods nonterminals ∉ C →
      P (C ++ [go_to Ci X prods nonterminals])) :
    ∀ (fuel i : Nat) (C : List State) (changed : Bool) (r : List State × Bool),
      collect_pass prods nonterminals fuel i C changed = some r → P C →
      P r.1 ∧ (∃ T, r.1 = C ++ T) ∧ (r.2 = changed ∨ (r.2 = true ∧ C.length < r.1.length)) := by
  intro fuel
  induction fuel with
  | zero => intro i C changed r h; simp [collect_pass] at h
  | succ n ih =>
    intro i C changed r h hC
    simp only [collect_pass] at h
    cases hg : C.get? i with
    | none =>
      rw [hg] at h
      simp only [Option.some.injEq] at h
      subst h
      exact ⟨hC, ⟨[], by simp⟩, Or.inl rfl⟩
    | some Ci =>
      rw [hg] at h
      simp only at h
      have hmem : Ci ∈ C := List.get?_mem hg
      obtain ⟨f1, ⟨T, f2⟩, f3⟩ := add_goto_fold prods nonterminals Ci
        (fun D => P D ∧ Ci ∈ D)
        (fun D X hD hn => ⟨hP D Ci X hD.1 hD.2 hn, List.mem_append_left _ hD.2⟩)
        (next_symbols Ci prods) (C, changed) ⟨hC, hmem⟩
      obtain ⟨i1, ⟨T2, i2⟩, i3⟩ := ih (i + 1) _ _ r h f1.1
      refine ⟨i1, ⟨T ++ T2, by rw [i2, f2]; simp⟩, ?_⟩
      have hlen : C.length ≤
          ((next_symbols Ci prods).foldl (add_goto prods nonterminals Ci) (C, changed)).1.length := by
        rw [f2]; simp
      rcases i3 with h3 | ⟨h3, h4⟩
      · rcases f3 with h5 | ⟨h5, h6⟩
        · left; rw [h3, h5]
        · right
          simp only at h6
          refine ⟨by rw [h3, h5], ?_⟩
          rw [i2]; simp only [List.length_append]; omega
      · right; exact ⟨h3, by omega⟩

/-- A finished construction loop keeps every such property. -/
theorem collect_loop_inv (prods : List Production) (nonterminals : List String)
    (P : List State → Prop)
    (hP : ∀ C Ci X, P C → Ci ∈ C → go_to Ci X prods nonterminals ∉ C →
      P (C ++ [go_to Ci X prods nonterminals])) (passFuel : Nat) :
    ∀ (fuel : Nat) (C D : List State),
      collect_loop prods nonterminals passFuel fuel C = some D → P C → P D := by
  intro fuel
  induction fuel with
  | zero => intro C D h; simp [collect_loop] at h
  | succ n ih =>
    intro C D h hC
    simp only [collect_loop] at h
    cases hp : collect_pass prods nonterminals passFuel 0 C false with
    | none => rw [hp] at h; simp at h
    | some r =>
      obtain ⟨C1, ch⟩ := r
      rw [hp] at h
      have h1 := (collect_pass_inv prods nonterminals P hP passFuel 0 C false _ hp hC).1
      cases ch with
      | true => exact ih C1 D h h1
      | false =>
        simp only [Option.some.injEq] at h
        subst h
        exact h1

/-- Two sorted duplicate-free states with the same items are the same list. -/
theorem sorted_state_ext (s t : State) (hs : sorted_state s) (ht : sorted_state t)
    (h : ∀ x, x ∈ s ↔ x ∈ t) : s = t :=
  @List.eq_of_perm_of_sorted Item item_le ⟨item_le_antisymm⟩ s t
    ((List.perm_ext_iff_of_nodup hs.1 ht.1).mpr h) hs.2 ht.2

theorem closure_sorted_state (prods : List Production) (nonterminals : List String)
    (I : State) : sorted_state (closure I prods nonterminals) :=
  ⟨(closure_spec prods nonterminals I).2.2.1, (closure_spec prods nonterminals I).2.2.2.1⟩

/-- The construction loop keeps the states pairwise distinct and each of them
sorted and duplicate-free. -/
theorem canonical_collection_distinct (prods : List Production) (nonterminals : List String)
    (C : List State) (h : canonical_collection prods nonterminals = some C) :
    C.Nodup ∧ ∀ s ∈ C, sorted_state s := by
  unfold canonical_collection at h
  refine collect_loop_inv prods nonterminals (fun D => D.Nodup ∧ ∀ s ∈ D, sorted_state s)
    ?_ _ _ _ C h ?_
  · intro D Ci X hD _ hn
    refine ⟨?_, ?_⟩
    · rw [List.nodup_append]
      refine ⟨hD.1, List.nodup_singleton _, ?_⟩
      intro x hx hx1
      have : x = go_to Ci X prods nonterminals := by simpa using hx1
      exact hn (this ▸ hx)
    · intro s hs
      rcases List.mem_append.mp hs with h1 | h1
      · exact hD.2 s h1
      · have : s = go_to Ci X prods nonterminals := by simpa using h1
        rw [this]
        exact closure_sorted_state _ _ _
  · refine ⟨List.nodup_singleton _, ?_⟩
    intro s hs
    have : s = closure [⟨0, 0⟩] prods nonterminals := by simpa using hs
    rw [this]
    exact closure_sorted_state _ _ _

/-- C6: in the automaton produced by the construction loop no two states are
equal: for indices `i ≠ j` the states `C[i]` and `C[j]` differ as item lists and
as item sets. The loop keeps this at every append: `add_goto` appends a state
only when `state_index` finds no equal one, so a duplicate-free state list
stays duplicate-free. -/
theorem automaton_states_distinct (prods : List Production) (nonterminals : List String)
    (C : List State) (h : canonical_collection prods nonterminals = some C) :
    (∀ (i j : Nat) (hi : i < C.length) (hj : j < C.length), i ≠ j →
      C[i] ≠ C[j] ∧ ¬ (∀ x, x ∈ C[i] ↔ x ∈ C[j])) ∧
    (∀ (D : List State) (Ci : State) (X : String) (changed : Bool), D.Nodup →
      (add_goto prods nonterminals Ci (D, changed) X).1.Nodup) := by
  obtain ⟨hn, hs⟩ := canonical_collection_distinct prods nonterminals C h
  refine ⟨?_, ?_⟩
  · intro i j hi hj hij
    have hne : C[i] ≠ C[j] := fun e => hij ((List.Nodup.getElem_inj_iff hn).mp e)
    refine ⟨hne, fun hx => hne ?_⟩
    exact sorted_state_ext _ _ (hs _ (List.getElem_mem hi)) (hs _ (List.getElem_mem hj)) hx
  · intro D Ci X changed hD
    rcases add_goto_spec prods nonterminals Ci (D, changed) X with e | ⟨e, hnot, _⟩
    · rw [e]; exact hD
    · rw [e]
      rw [List.nodup_append]
      refine ⟨hD, List.nodup_singleton _, ?_⟩
      intro x hx hx1
      have : x = go_to Ci X prods nonterminals := by simpa using hx1
      exact hnot (this ▸ hx)

/-- An instance of `automaton_states_distinct`: the six states of the example
grammar. -/
theorem automaton_states_distinct_witness :
    canonical_collection grammarE.prods grammarE.nonterminals = some statesE ∧
    ((∀ (i j : Nat) (hi : i < statesE.length) (hj : j < statesE.length), i ≠ j →
      statesE[i] ≠ statesE[j] ∧ ¬ (∀ x, x ∈ statesE[i] ↔ x ∈ statesE[j])) ∧
    (∀ (D : List State) (Ci : State) (X : String) (changed : Bool), D.Nodup →
      (add_goto grammarE.prods grammarE.nonterminals Ci (D, changed) X).1.Nodup)) :=
  ⟨by decide, automaton_states_distinct grammarE.prods grammarE.nonterminals statesE (by decide)⟩

/-! ## The item universe and the bound on the number of states -/

theorem mem_items_from :
    ∀ (ps : List Production) (k : Nat) (it : Item),
      it ∈ items_from k ps ↔
        k ≤ it.prod ∧ it.prod < k + ps.length ∧
          it.dot ≤ (ps.getD (it.prod - k) default).rhs.length := by
  intro ps
  induction ps with
  | nil => intro k it; simp [items_from]; omega
  | cons p ps ih =>
    intro k it
    simp only [items_from, List.mem_append, List.mem_map, List.mem_range, ih,
      List.length_cons]
    constructor
    · rintro (⟨d, hd, rfl⟩ | ⟨h1, h2, h3⟩)
      · simp only [Nat.sub_self, List.getD_cons_zero]
        omega
      · have e : it.prod - k = (it.prod - (k + 1)) + 1 := by omega
        rw [e, List.getD_cons_succ]
        exact ⟨by omega, by omega, h3⟩
    · rintro ⟨h1, h2, h3⟩
      rcases Nat.eq_or_lt_of_le h1 with e | hlt
      · left
        rw [← e, Nat.sub_self, List.getD_cons_zero] at h3
        refine ⟨it.dot, by omega, ?_⟩
        cases it
        simp only [Item.mk.injEq] at *
        exact ⟨e, trivial⟩
      · right
        have e : it.prod - k = (it.prod - (k + 1)) + 1 := by omega
        rw [e, List.getD_cons_succ] at h3
        exact ⟨by omega, by omega, h3⟩

/-- The item universe holds exactly the items of the grammar. -/
theorem mem_item_universe (prods : List Production) (it : Item) :
    it ∈ item_universe prods ↔ valid_item prods it := by
  unfold item_universe valid_item
  rw [mem_items_from]
  simp

theorem items_from_nodup : ∀ (ps : List Production) (k : Nat), (items_from k ps).Nodup := by
  intro ps
  induction ps with
  | nil => intro k; simp [items_from]
  | cons p ps ih =>
    intro k
    simp only [items_from]
    rw [List.nodup_append]
    refine ⟨?_, ih (k + 1), ?_⟩
    · apply List.Nodup.map
      · intro a b hab
        simpa using hab
      · exact List.nodup_range _
    · intro x hx hx1
      rw [mem_items_from] at hx1
      simp only [List.mem_map, List.mem_range] at hx
      obtain ⟨d, _, rfl⟩ := hx
      simp only at hx1
      omega

/-- The item universe lists no item twice. -/
theorem item_universe_nodup (prods : List Production) : (item_universe prods).Nodup :=
  items_from_nodup prods 0

/-- A list of pairwise distinct sorted states over the items of the grammar
has at most `2 ^ item_count prods` members: each state is a subset of the item
universe. -/
theorem automaton_inv_length (prods : List Production) (C : List State)
    (h : automaton_inv prods C) : C.length ≤ 2 ^ item_count prods := by
  obtain ⟨hn, hs⟩ := h
  have hinj : ∀ s ∈ C, ∀ t ∈ C, s.toFinset = t.toFinset → s = t := by
    intro s hsC t htC e
    apply sorted_state_ext s t (hs s hsC).1 (hs t htC).1
    intro x
    rw [← List.mem_toFinset, ← List.mem_toFinset, e]
  have hmap : (C.map List.toFinset).Nodup := List.Nodup.map_on hinj hn
  have hsub : (C.map List.toFinset).toFinset ⊆ (item_universe prods).toFinset.powerset := by
    intro F hF
    simp only [List.mem_toFinset, List.mem_map] at hF
    obtain ⟨s, hsC, rfl⟩ := hF
    rw [Finset.mem_powerset]
    intro x hx
    rw [List.mem_toFinset] at hx ⊢
    exact (mem_item_universe prods x).mpr ((hs s hsC).2 x hx)
  have hcard := Finset.card_le_card hsub
  rw [List.toFinset_card_of_nodup hmap, List.length_map, Finset.card_powerset,
    List.toFinset_card_of_nodup (item_universe_nodup prods)] at hcard
  exact hcard

/-- A symbol after the dot means the item has a production and the dot is
before the end of its right-hand side. -/
theorem symbol_after_dot_ne_empty (prods : List Production) (it : Item)
    (h : symbol_after_dot it prods ≠ "") :
    it.prod < prods.length ∧ it.dot < (prods.getD it.prod default).rhs.length := by
  unfold symbol_after_dot at h
  by_cases hd : it.dot < (prods.getD it.prod default).rhs.length
  · refine ⟨?_, hd⟩
    rcases Nat.lt_or_ge it.prod prods.length with hp | hp
    · exact hp
    · rw [List.getD_eq_default _ _ hp] at hd
      exact absurd hd (by simp [default, instInhabitedProduction])
  · simp only [hd, if_false] at h
    exact absurd rfl h

/-- The items `closure` returns are items of the grammar when those of `I` are. -/
theorem closure_valid (prods : List Production) (nonterminals : List String) (I : State)
    (hI : ∀ it ∈ I, valid_item prods it) :
    ∀ it ∈ closure I prods nonterminals, valid_item prods it := by
  intro it hit
  rcases (closure_spec prods nonterminals I).2.1 it hit with h | ⟨d0, hp, _⟩
  · exact hI it h
  · exact ⟨hp, by rw [d0]; exact Nat.zero_le _⟩

/-- The items of `go_to(I, X)` are items of the grammar. -/
theorem go_to_valid (prods : List Production) (nonterminals : List String) (I : State)
    (X : String) : ∀ it ∈ go_to I X prods nonterminals, valid_item prods it := by
  unfold go_to
  apply closure_valid
  intro it hit
  simp only [List.mem_filterMap] at hit
  obtain ⟨x, _, hx⟩ := hit
  split at hx
  · rename_i hc
    simp only [Option.some.injEq] at hx
    subst hx
    obtain ⟨h1, h2⟩ := symbol_after_dot_ne_empty prods x hc.1
    exact ⟨h1, h2⟩
  · simp at hx

/-- The automaton invariant is kept by appending a new `go_to` result. -/
theorem automaton_inv_append (prods : List Production) (nonterminals : List String)
    (C : List State) (Ci : State) (X : String) (h : automaton_inv prods C)
    (hn : go_to Ci X prods nonterminals ∉ C) :
    automaton_inv prods (C ++ [go_to Ci X prods nonterminals]) := by
  refine ⟨?_, ?_⟩
  · rw [List.nodup_append]
    refine ⟨h.1, List.nodup_singleton _, ?_⟩
    intro x hx hx1
    have : x = go_to Ci X prods nonterminals := by simpa using hx1
    exact hn (this ▸ hx)
  · intro s hs
    rcases List.mem_append.mp hs with h1 | h1
    · exact h.2 s h1
    · have : s = go_to Ci X prods nonterminals := by simpa using h1
      rw [this]
      exact ⟨closure_sorted_state _ _ _, go_to_valid prods nonterminals Ci X⟩

/-- The automaton invariant holds of the initial state list. -/
theorem automaton_inv_init (prods : List Production) (nonterminals : List String)
    (h : prods ≠ []) : automaton_inv prods [closure [⟨0, 0⟩] prods nonterminals] := by
  refine ⟨List.nodup_singleton _, ?_⟩
  intro s hs
  have : s = closure [⟨0, 0⟩] prods nonterminals := by simpa using hs
  rw [this]
  refine ⟨closure_sorted_state _ _ _, closure_valid prods nonterminals _ ?_⟩
  intro it hit
  have : it = ⟨0, 0⟩ := by simpa using hit
  rw [this]
  exact ⟨List.length_pos.mpr h, Nat.zero_le _⟩

/-! ## Canonical collection: termination -/

/-- A pass ends when its fuel exceeds the room left below the bound on the
number of states. -/
theorem collect_pass_terminates (prods : List Production) (nonterminals : List String) :
    ∀ (fuel i : Nat) (C : List State) (changed : Bool), automaton_inv prods C →
      i ≤ C.length → 2 ^ item_count prods < fuel + i →
      ∃ r, collect_pass prods nonterminals fuel i C changed = some r := by
  intro fuel
  induction fuel with
  | zero =>
    intro i C changed hC hi hf
    have := automaton_inv_length prods C hC
    omega
  | succ n ih =>
    intro i C changed hC hi hf
    simp only [collect_pass]
    cases hg : C.get? i with
    | none => exact ⟨_, rfl⟩
    | some Ci =>
      simp only
      have hlt : i < C.length := by
        rcases Nat.lt_or_ge i C.length with h1 | h1
        · exact h1
        · rw [List.get?_eq_none.mpr h1] at hg; simp at hg
      obtain ⟨f1, ⟨T, f2⟩, _⟩ := add_goto_fold prods nonterminals Ci (automaton_inv prods)
        (fun D X hD hn => automaton_inv_append prods nonterminals D Ci X hD hn)
        (next_symbols Ci prods) (C, changed) hC
      apply ih (i + 1) _ _ f1
      · rw [f2]; simp only [List.length_append]; omega
      · omega

/-- The construction loop ends when its fuel exceeds the room left below the
bound on the number of states. -/
theorem collect_loop_terminates (prods : List Production) (nonterminals : List String)
    (passFuel : Nat) (hpf : 2 ^ item_count prods < passFuel) :
    ∀ (fuel : Nat) (C : List State), automaton_inv prods C →
      2 ^ item_count prods < fuel + C.length →
      ∃ D, collect_loop prods nonterminals passFuel fuel C = some D ∧ automaton_inv prods D := by
  intro fuel
  induction fuel with
  | zero =>
    intro C hC hf
    have := automaton_inv_length prods C hC
    omega
  | succ n ih =>
    intro C hC hf
    obtain ⟨r, hr⟩ := collect_pass_terminates prods nonterminals passFuel 0 C false hC
      (Nat.zero_le _) (by omega)
    obtain ⟨i1, _, i3⟩ := collect_pass_inv prods nonterminals (automaton_inv prods)
      (fun D Ci X hD _ hn => automaton_inv_append prods nonterminals D Ci X hD hn)
      passFuel 0 C false r hr hC
    obtain ⟨C1, ch⟩ := r
    simp only [collect_loop, hr]
    cases ch with
    | false => exact ⟨C1, rfl, i1⟩
    | true =>
      simp only
      apply ih C1 i1
      rcases i3 with h3 | ⟨_, h4⟩
      · simp at h3
      · simp only at h4; omega

/-- C7: for every non-empty production list the construction loop of the
automaton ends (the fuel of `canonical_collection` is never exhausted), and the
number of states is at most `2 ^ item_count prods`, the number of subsets of the
item universe `{(p, d) : p a production index, 0 ≤ d ≤ |rhs(p)|}`. -/
theorem canonical_collection_terminates (prods : List Production)
    (nonterminals : List String) (h : prods ≠ []) :
    ∃ C, canonical_collection prods nonterminals = some C ∧
      C.length ≤ 2 ^ item_count prods := by
  obtain ⟨D, e, hD⟩ := collect_loop_terminates prods nonterminals (2 ^ item_count prods + 1)
    (by omega) (2 ^ item_count prods + 1) [closure [⟨0, 0⟩] prods nonterminals]
    (automaton_inv_init prods nonterminals h)
    (by simp only [List.length_singleton]; omega)
  exact ⟨D, e, automaton_inv_length prods D hD⟩

/-- An instance of `canonical_collection_terminates`: the example grammar. -/
theorem canonical_collection_terminates_witness :
    grammarE.prods ≠ [] ∧
    ∃ C, canonical_collection grammarE.prods grammarE.nonterminals = some C ∧
      C.length ≤ 2 ^ item_count grammarE.prods :=
  ⟨by decide, canonical_collection_terminates grammarE.prods grammarE.nonterminals (by decide)⟩

/-! ## Table construction: what happens to one cell -/

theorem action_at_map_set (row : ActionRow) (k : String) (v : Action) (t : String) :
    action_at (map_set row k v) t = if t = k then v else action_at row t := by
  unfold action_at map_set
  by_cases h : t = k
  · simp [h]
  · simp [h]

theorem action_at_propose_shift (row : ActionRow) (a : String) (j : Int) (t : String) :
    action_at (propose_shift row a j) t
      = if t = a then shift_cell (action_at row a) j else action_at row t := by
  unfold propose_shift shift_cell
  by_cases ht : t = a
  · subst ht
    simp only [if_true]
    rcases hc : (action_at row t) with ⟨ty, v⟩
    cases ty <;> simp [action_at_map_set, hc]
  · simp only [ht, if_false]
    split
    · rw [action_at_map_set, if_neg ht]
    · split
      · split
        · rw [action_at_map_set, if_neg ht]
        · rw [action_at_map_set, if_neg ht]
      · rw [action_at_map_set, if_neg ht]

theorem action_at_propose_reduce (row : ActionRow) (a : String) (p : Int) (t : String) :
    action_at (propose_reduce row a p) t
      = if t = a then reduce_cell (action_at row a) p else action_at row t := by
  unfold propose_reduce reduce_cell
  by_cases ht : t = a
  · subst ht
    simp only [if_true]
    rcases hc : (action_at row t) with ⟨ty, v⟩
    cases ty
    · simp [action_at_map_set, hc]
    · simp [action_at_map_set, hc]
    · by_cases hv : p < v
      · have hne : ¬ v = p := by omega
        simp [action_at_map_set, hc, hv, hne]
      · simp [action_at_map_set, hc, hv]
    · simp [action_at_map_set, hc]
  · simp only [ht, if_false]
    split
    · rw [action_at_map_set, if_neg ht]
    · split
      · split
        · rw [action_at_map_set, if_neg ht]
        · split
          · split
            · rw [action_at_map_set, if_neg ht]
            · rw [action_at_map_set, if_neg ht]
          · rw [action_at_map_set, if_neg ht]
      · rw [action_at_map_set, if_neg ht]

theorem reduce_cell_idem (cur : Action) (p : Int) :
    reduce_cell (reduce_cell cur p) p = reduce_cell cur p := by
  unfold reduce_cell
  rcases cur with ⟨ty, v⟩
  cases ty
  · simp
  · simp
  · by_cases hv : p < v
    · simp [hv]
    · simp [hv]
  · simp

/-- The reduce loop over the terminals, seen from cell `t`. -/
theorem action_at_reduce_fold (p : Int) (t : String) :
    ∀ (terminals : List String) (row : ActionRow),
      action_at (terminals.foldl (fun row t1 => propose_reduce row t1 p) row) t
        = if t ∈ terminals then reduce_cell (action_at row t) p else action_at row t := by
  intro terminals
  induction terminals with
  | nil => intro row; simp
  | cons a l ih =>
    intro row
    simp only [List.foldl_cons]
    rw [ih, action_at_propose_reduce]
    by_cases hta : t = a
    · subst hta
      simp only [if_true, List.mem_cons, true_or]
      split
      · exact reduce_cell_idem _ _
      · rfl
    · simp only [hta, if_false, List.mem_cons, false_or]

/-- The visit of one item, seen from cell `t`. -/
theorem action_at_table_item (prods : List Production) (nonterminals terminals : List String)
    (C : List State) (Ci : State) (rows : ActionRow × GotoRow) (it : Item) (t : String) :
    action_at (table_item prods nonterminals terminals C Ci rows it).1 t
      = item_cell prods nonterminals terminals C Ci t (action_at rows.1 t) it := by
  unfold table_item item_cell
  cases h1 : is_dot_at_end it prods with
  | false =>
    simp only [if_true]
    cases h2 : (go_to Ci (symbol_after_dot it prods) prods nonterminals).isEmpty with
    | false =>
      simp only [if_true, true_and]
      cases h3 : set_count terminals (symbol_after_dot it prods) with
      | true =>
        simp only [if_true, true_and]
        rw [action_at_propose_shift]
        by_cases h4 : t = symbol_after_dot it prods
        · simp only [h4, if_true]
        · simp only [h4, if_false]
      | false =>
        simp only [Bool.false_eq_true, if_false, false_and]
        split <;> rfl
    | true =>
      simp only [Bool.true_eq_false, if_false, false_and]
  | true =>
    simp only [Bool.true_eq_false, if_false]
    by_cases h2 : it.prod = 0
    · simp only [h2, if_true]
      rw [action_at_map_set]
    · simp only [h2, if_false]
      rw [action_at_reduce_fold]

/-- The row of a state, seen from cell `t`: the items are visited in order. -/
theorem action_at_items_fold (prods : List Production) (nonterminals terminals : List String)
    (C : List State) (Ci : State) (t : String) :
    ∀ (l : List Item) (rows : ActionRow × GotoRow),
      action_at (l.foldl (table_item prods nonterminals terminals C Ci) rows).1 t
        = l.foldl (item_cell prods nonterminals terminals C Ci t) (action_at rows.1 t) := by
  intro l
  induction l with
  | nil => intro rows; rfl
  | cons it l ih =>
    intro rows
    simp only [List.foldl_cons]
    rw [ih, action_at_table_item]

/-- The cell `ACTION[i][t]` after the table construction. -/
theorem action_at_table_row (prods : List Production) (nonterminals terminals : List String)
    (C : List State) (Ci : State) (t : String) :
    action_at (table_row prods nonterminals terminals C Ci).1 t
      = Ci.foldl (item_cell prods nonterminals terminals C Ci t) {} := by
  unfold table_row
  rw [action_at_items_fold]
  rfl

/-! ## Table construction: the conflict policy on one cell -/

theorem shift_cell_cases (cur : Action) (j : Int) :
    ((cur.type = ActionType.ERR ∨ cur.type = ActionType.REDUCE) ∧
      shift_cell cur j = ⟨ActionType.SHIFT, j⟩) ∨
    ((cur.type = ActionType.SHIFT ∨ cur.type = ActionType.ACCEPT) ∧ shift_cell cur j = cur) := by
  unfold shift_cell
  rcases cur with ⟨ty, v⟩
  cases ty <;> simp

theorem reduce_cell_cases (cur : Action) (p : Int) :
    (cur.type = ActionType.ERR ∧ reduce_cell cur p = ⟨ActionType.REDUCE, p⟩) ∨
    (cur.type = ActionType.REDUCE ∧ p < cur.val ∧ reduce_cell cur p = ⟨ActionType.REDUCE, p⟩) ∨
    (cur.type = ActionType.REDUCE ∧ cur.val ≤ p ∧ reduce_cell cur p = cur) ∨
    ((cur.type = ActionType.SHIFT ∨ cur.type = ActionType.ACCEPT) ∧ reduce_cell cur p = cur) := by
  unfold reduce_cell
  rcases cur with ⟨ty, v⟩
  cases ty
  · simp
  · simp
  · by_cases hv : p < v
    · simp [hv]
    · simp [hv]; omega
  · simp

/-- The four ways the visit of an item acts on a cell. -/
theorem item_cell_cases (prods : List Production) (nonterminals terminals : List String)
    (C : List State) (Ci : State) (t : String) (cur : Action) (it : Item) :
    (item_cell prods nonterminals terminals C Ci t cur it = cur ∧
      ¬ (is_dot_at_end it prods = false ∧
        (go_to Ci (symbol_after_dot it prods) prods nonterminals).isEmpty = false ∧
        set_count terminals (symbol_after_dot it prods) = true ∧
        t = symbol_after_dot it prods) ∧
      ¬ (is_dot_at_end it prods = true ∧ it.prod = 0 ∧ t = "$") ∧
      ¬ (is_dot_at_end it prods = true ∧ it.prod ≠ 0 ∧ t ∈ terminals)) ∨
    (item_cell prods nonterminals terminals C Ci t cur it
        = shift_cell cur (state_index C (go_to Ci t prods nonterminals)) ∧
      is_dot_at_end it prods = false ∧
      (go_to Ci (symbol_after_dot it prods) prods nonterminals).isEmpty = false ∧
      set_count terminals (symbol_after_dot it prods) = true ∧
      t = symbol_after_dot it prods) ∨
    (item_cell prods nonterminals terminals C Ci t cur it = ⟨ActionType.ACCEPT, -1⟩ ∧
      is_dot_at_end it prods = true ∧ it.prod = 0 ∧ t = "$") ∨
    (item_cell prods nonterminals terminals C Ci t cur it = reduce_cell cur (it.prod : Int) ∧
      is_dot_at_end it prods = true ∧ it.prod ≠ 0 ∧ t ∈ terminals) := by
  unfold item_cell
  cases h1 : is_dot_at_end it prods with
  | false =>
    simp only [if_true]
    by_cases h2 : (go_to Ci (symbol_after_dot it prods) prods nonterminals).isEmpty = false ∧
        set_count terminals (symbol_after_dot it prods) = true ∧ t = symbol_after_dot it prods
    · right; left
      rw [if_pos h2]
      exact ⟨rfl, trivial, h2⟩
    · left
      rw [if_neg h2]
      refine ⟨rfl, fun h => h2 h.2, ?_, ?_⟩ <;> simp
  | true =>
    simp only [Bool.true_eq_false, if_false]
    by_cases h2 : it.prod = 0
    · rw [if_pos h2]
      by_cases h3 : t = "$"
      · right; right; left
        rw [if_pos h3]
        exact ⟨rfl, trivial, h2, h3⟩
      · left
        rw [if_neg h3]
        refine ⟨rfl, by simp, fun h => h3 h.2.2, fun h => h.2.1 h2⟩
    · rw [if_neg h2]
      by_cases h3 : t ∈ terminals
      · right; right; right
        rw [if_pos h3]
        exact ⟨rfl, trivial, h2, h3⟩
      · left
        rw [if_neg h3]
        refine ⟨rfl, by simp, fun h => h2 h.2.1, fun h => h3 h.2.2⟩

/-- Accept: a cell is accept after the items `l` exactly when it was accept
before, or it is the `$` cell and `l` has a complete item of production 0. -/
theorem cell_fold_accept (prods : List Production) (nonterminals terminals : List String)
    (C : List State) (Ci : State) (t : String) :
    ∀ (l : List Item) (c0 : Action),
      (l.foldl (item_cell prods nonterminals terminals C Ci t) c0).type = ActionType.ACCEPT ↔
        c0.type = ActionType.ACCEPT ∨
          (t = "$" ∧ ∃ it ∈ l, is_dot_at_end it prods = true ∧ it.prod = 0) := by
  intro l
  induction l with
  | nil => intro c0; simp
  | cons it l ih =>
    intro c0
    simp only [List.foldl_cons]
    rw [ih]
    have step : (item_cell prods nonterminals terminals C Ci t c0 it).type = ActionType.ACCEPT ↔
        c0.type = ActionType.ACCEPT ∨ (t = "$" ∧ is_dot_at_end it prods = true ∧ it.prod = 0) := by
      rcases item_cell_cases prods nonterminals terminals C Ci t c0 it with
        ⟨e, _, h2, _⟩ | ⟨e, h1, _⟩ | ⟨e, h1, h2, h3⟩ | ⟨e, h1, h2, _⟩
      · rw [e]
        constructor
        · exact Or.inl
        · rintro (h | ⟨a, b, c⟩)
          · exact h
          · exact absurd ⟨b, c, a⟩ h2
      · rw [e]
        constructor
        · intro h
          rcases shift_cell_cases c0 (state_index C (go_to Ci t prods nonterminals)) with
            ⟨_, e1⟩ | ⟨_, e1⟩
          · rw [e1] at h; simp at h
          · rw [e1] at h; exact Or.inl h
        · rintro (h | ⟨_, b, _⟩)
          · rcases shift_cell_cases c0 (state_index C (go_to Ci t prods nonterminals)) with
              ⟨h0, _⟩ | ⟨_, e1⟩
            · rcases h0 with h0 | h0 <;> rw [h0] at h <;> simp at h
            · rw [e1]; exact h
          · rw [h1] at b; simp at b
      · rw [e]
        simp only [true_iff]
        exact Or.inr ⟨h3, h1, h2⟩
      · rw [e]
        constructor
        · intro h
          rcases reduce_cell_cases c0 (it.prod : Int) with
            ⟨_, e1⟩ | ⟨_, _, e1⟩ | ⟨_, _, e1⟩ | ⟨_, e1⟩
          · rw [e1] at h; simp at h
          · rw [e1] at h; simp at h
          · rw [e1] at h; exact Or.inl h
          · rw [e1] at h; exact Or.inl h
        · rintro (h | ⟨_, _, c⟩)
          · rcases reduce_cell_cases c0 (it.prod : Int) with
              ⟨h0, _⟩ | ⟨h0, _, _⟩ | ⟨_, _, e1⟩ | ⟨_, e1⟩
            · rw [h0] at h; simp at h
            · rw [h0] at h; simp at h
            · rw [e1]; exact h
            · rw [e1]; exact h
          · exact absurd c h2
    rw [step]
    simp only [List.mem_cons, exists_eq_or_imp]
    tauto

/-- Reduce: when a cell is `reduce` after the items `l`, it was empty or a
`reduce` before, its production is the one it had or that of a complete item of
`l` other than production 0, and it is no larger than the one it had and (for a
terminal `t`) than that of every such complete item. -/
theorem cell_fold_reduce (prods : List Production) (nonterminals terminals : List String)
    (C : List State) (Ci : State) (t : String) :
    ∀ (l : List Item) (c0 : Action),
      (l.foldl (item_cell prods nonterminals terminals C Ci t) c0).type = ActionType.REDUCE →
      (c0.type = ActionType.ERR ∨ c0.type = ActionType.REDUCE) ∧
      (l.foldl (item_cell prods nonterminals terminals C Ci t) c0 = c0 ∨
        (t ∈ terminals ∧ ∃ it ∈ l, is_dot_at_end it prods = true ∧ it.prod ≠ 0 ∧
          (l.foldl (item_cell prods nonterminals terminals C Ci t) c0).val = (it.prod : Int))) ∧
      (c0.type = ActionType.REDUCE →
        (l.foldl (item_cell prods nonterminals terminals C Ci t) c0).val ≤ c0.val) ∧
      (t ∈ terminals → ∀ it ∈ l, is_dot_at_end it prods = true → it.prod ≠ 0 →
        (l.foldl (item_cell prods nonterminals terminals C Ci t) c0).val ≤ (it.prod : Int)) := by
  intro l
  induction l with
  | nil =>
    intro c0 h
    exact ⟨Or.inr h, Or.inl rfl, fun _ => le_refl _, fun _ it hit => by simp at hit⟩
  | cons it l ih =>
    intro c0 h
    simp only [List.foldl_cons] at h ⊢
    obtain ⟨a1, a2, a3, a4⟩ := ih _ h
    generalize hc1 : item_cell prods nonterminals terminals C Ci t c0 it = c1 at h a1 a2 a3 a4 ⊢
    generalize hc : l.foldl (item_cell prods nonterminals terminals C Ci t) c1 = c at h a1 a2 a3 a4 ⊢
    have lift : (t ∈ terminals ∧ ∃ x ∈ l, is_dot_at_end x prods = true ∧ x.prod ≠ 0 ∧
        c.val = (x.prod : Int)) →
        (t ∈ terminals ∧ ∃ x ∈ it :: l, is_dot_at_end x prods = true ∧ x.prod ≠ 0 ∧
        c.val = (x.prod : Int)) := by
      rintro ⟨ht, x, hx, r⟩
      exact ⟨ht, x, List.mem_cons_of_mem _ hx, r⟩
    have notSA : ¬ (c1.type = ActionType.SHIFT ∨ c1.type = ActionType.ACCEPT) := by
      rintro (h0 | h0) <;> rcases a1 with a1 | a1 <;> rw [h0] at a1 <;> simp at a1
    rcases item_cell_cases prods nonterminals terminals C Ci t c0 it with
      ⟨e, _, _, h3⟩ | ⟨e, _⟩ | ⟨e, _⟩ | ⟨e, h1, h2, h3⟩
    · rw [hc1] at e
      subst e
      refine ⟨a1, ?_, a3, ?_⟩
      · rcases a2 with a2 | a2
        · exact Or.inl a2
        · exact Or.inr (lift a2)
      · intro ht x hx hcx hp
        rcases List.mem_cons.mp hx with rfl | hx
        · exact absurd ⟨hcx, hp, ht⟩ h3
        · exact a4 ht x hx hcx hp
    · rw [hc1] at e
      exfalso
      rcases shift_cell_cases c0 (state_index C (go_to Ci t prods nonterminals)) with
        ⟨_, e1⟩ | ⟨h0, e1⟩
      · rw [e1] at e; exact notSA (Or.inl (by rw [e]))
      · rw [e1] at e; exact notSA (by rw [e]; exact h0)
    · rw [hc1] at e
      exact absurd (Or.inr (by rw [e])) notSA
    · rw [hc1] at e
      rcases reduce_cell_cases c0 (it.prod : Int) with
        ⟨h0, e1⟩ | ⟨h0, hlt, e1⟩ | ⟨h0, hle, e1⟩ | ⟨h0, e1⟩
      · rw [e1] at e
        have hv : c.val ≤ (it.prod : Int) := by
          have := a3 (by rw [e]); rw [e] at this; exact this
        refine ⟨Or.inl h0, ?_, ?_, ?_⟩
        · rcases a2 with a2 | a2
          · right
            refine ⟨h3, it, List.mem_cons_self _ _, h1, h2, ?_⟩
            rw [a2, e]
          · exact Or.inr (lift a2)
        · intro h5; rw [h0] at h5; simp at h5
        · intro ht x hx hcx hp
          rcases List.mem_cons.mp hx with rfl | hx
          · exact hv
          · exact a4 ht x hx hcx hp
      · rw [e1] at e
        have hv : c.val ≤ (it.prod : Int) := by
          have := a3 (by rw [e]); rw [e] at this; exact this
        refine ⟨Or.inr h0, ?_, ?_, ?_⟩
        · rcases a2 with a2 | a2
          · right
            refine ⟨h3, it, List.mem_cons_self _ _, h1, h2, ?_⟩
            rw [a2, e]
          · exact Or.inr (lift a2)
        · intro _; omega
        · intro ht x hx hcx hp
          rcases List.mem_cons.mp hx with rfl | hx
          · exact hv
          · exact a4 ht x hx hcx hp
      · rw [e1] at e
        subst e
        refine ⟨Or.inr h0, ?_, a3, ?_⟩
        · rcases a2 with a2 | a2
          · exact Or.inl a2
          · exact Or.inr (lift a2)
        · intro ht x hx hcx hp
          rcases List.mem_cons.mp hx with rfl | hx
          · have := a3 h0; omega
          · exact a4 ht x hx hcx hp
      · rw [e1] at e
        subst e
        exact absurd h0 notSA

/-- Shift: a cell that is empty, a `reduce`, or `shift j` for the `go_to`
target `j` of the state on `t` stays so while the items `l` are visited,
provided `l` does not put accept into the cell; it is `shift j` at the end if
it was at the start or if `l` has an item that proposes the shift on `t`. -/
theorem cell_fold_shift (prods : List Production) (nonterminals terminals : List String)
    (C : List State) (Ci : State) (t : String) :
    ∀ (l : List Item) (c0 : Action),
      ¬ (t = "$" ∧ ∃ it ∈ l, is_dot_at_end it prods = true ∧ it.prod = 0) →
      (c0.type = ActionType.ERR ∨ c0.type = ActionType.REDUCE ∨
        c0 = ⟨ActionType.SHIFT, state_index C (go_to Ci t prods nonterminals)⟩) →
      ((l.foldl (item_cell prods nonterminals terminals C Ci t) c0).type = ActionType.ERR ∨
        (l.foldl (item_cell prods nonterminals terminals C Ci t) c0).type = ActionType.REDUCE ∨
        l.foldl (item_cell prods nonterminals terminals C Ci t) c0
          = ⟨ActionType.SHIFT, state_index C (go_to Ci t prods nonterminals)⟩) ∧
      ((c0 = ⟨ActionType.SHIFT, state_index C (go_to Ci t prods nonterminals)⟩ ∨
          ∃ it ∈ l, is_dot_at_end it prods = false ∧
            (go_to Ci (symbol_after_dot it prods) prods nonterminals).isEmpty = false ∧
            set_count terminals (symbol_after_dot it prods) = true ∧
            t = symbol_after_dot it prods) →
        l.foldl (item_cell prods nonterminals terminals C Ci t) c0
          = ⟨ActionType.SHIFT, state_index C (go_to Ci t prods nonterminals)⟩) := by
  intro l
  induction l with
  | nil =>
    intro c0 _ hg
    refine ⟨hg, ?_⟩
    rintro (h | ⟨it, hit, _⟩)
    · exact h
    · simp at hit
  | cons it l ih =>
    intro c0 hna hg
    simp only [List.foldl_cons]
    have hna1 : ¬ (t = "$" ∧ ∃ x ∈ l, is_dot_at_end x prods = true ∧ x.prod = 0) := by
      rintro ⟨h1, x, hx, r⟩
      exact hna ⟨h1, x, List.mem_cons_of_mem _ hx, r⟩
    have hna0 : ¬ (is_dot_at_end it prods = true ∧ it.prod = 0 ∧ t = "$") := by
      rintro ⟨h1, h2, h3⟩
      exact hna ⟨h3, it, List.mem_cons_self _ _, h1, h2⟩
    have step :
        ((item_cell prods nonterminals terminals C Ci t c0 it).type = ActionType.ERR ∨
          (item_cell prods nonterminals terminals C Ci t c0 it).type = ActionType.REDUCE ∨
          item_cell prods nonterminals terminals C Ci t c0 it
            = ⟨ActionType.SHIFT, state_index C (go_to Ci t prods nonterminals)⟩) ∧
        ((c0 = ⟨ActionType.SHIFT, state_index C (go_to Ci t prods nonterminals)⟩ ∨
            (is_dot_at_end it prods = false ∧
              (go_to Ci (symbol_after_dot it prods) prods nonterminals).isEmpty = false ∧
              set_count terminals (symbol_after_dot it prods) = true ∧
              t = symbol_after_dot it prods)) →
          item_cell prods nonterminals terminals C Ci t c0 it
            = ⟨ActionType.SHIFT, state_index C (go_to Ci t prods nonterminals)⟩) := by
      rcases item_cell_cases prods nonterminals terminals C Ci t c0 it with
        ⟨e, h1, _, _⟩ | ⟨e, _⟩ | ⟨_, h1⟩ | ⟨e, h1, _, _⟩
      · rw [e]
        refine ⟨hg, ?_⟩
        rintro (h | h)
        · exact h
        · exact absurd h h1
      · rw [e]
        have : shift_cell c0 (state_index C (go_to Ci t prods nonterminals))
            = ⟨ActionType.SHIFT, state_index C (go_to Ci t prods nonterminals)⟩ := by
          rcases shift_cell_cases c0 (state_index C (go_to Ci t prods nonterminals)) with
            ⟨_, e1⟩ | ⟨h0, e1⟩
          · exact e1
          · rw [e1]
            rcases hg with hg | hg | hg
            · rcases h0 with h0 | h0 <;> rw [h0] at hg <;> simp at hg
            · rcases h0 with h0 | h0 <;> rw [h0] at hg <;> simp at hg
            · exact hg
        rw [this]
        exact ⟨Or.inr (Or.inr rfl), fun _ => rfl⟩
      · exact absurd h1 hna0
      · rw [e]
        rcases reduce_cell_cases c0 (it.prod : Int) with
          ⟨h0, e1⟩ | ⟨h0, _, e1⟩ | ⟨_, _, e1⟩ | ⟨_, e1⟩
        · rw [e1]
          refine ⟨Or.inr (Or.inl rfl), ?_⟩
          rintro (h | h)
          · rw [h] at h0; simp at h0
          · rw [h1] at h; simp at h
        · rw [e1]
          refine ⟨Or.inr (Or.inl rfl), ?_⟩
          rintro (h | h)
          · rw [h] at h0; simp at h0
          · rw [h1] at h; simp at h
        · rw [e1]
          refine ⟨hg, ?_⟩
          rintro (h | h)
          · exact h
          · rw [h1] at h; simp at h
        · rw [e1]
          refine ⟨hg, ?_⟩
          rintro (h | h)
          · exact h
          · rw [h1] at h; simp at h
    obtain ⟨i1, i2⟩ := ih _ hna1 step.1
    refine ⟨i1, ?_⟩
    rintro (h | ⟨x, hx, r⟩)
    · exact i2 (Or.inl (step.2 (Or.inl h)))
    · rcases List.mem_cons.mp hx with rfl | hx
      · exact i2 (Or.inl (step.2 (Or.inr r)))
      · exact i2 (Or.inr ⟨x, hx, r⟩)

/-! ## The tables built by `main` -/

/-- What `main_tables` returns, when it returns. -/
theorem main_tables_spec (lines : List GrammarLine) (g : Grammar) (C : List State)
    (tables : List (ActionRow × GotoRow)) (h : main_tables lines = some (g, C, tables)) :
    (read_grammar lines).prods ≠ [] ∧ g = augment (read_grammar lines) ∧
    canonical_collection g.prods g.nonterminals = some C ∧
    tables = build_tables g.prods g.nonterminals g.terminals C := by
  unfold main_tables at h
  simp only at h
  split at h
  · simp at h
  · rename_i hne
    split at h
    · simp at h
    · rename_i D hD
      simp only [Option.some.injEq, Prod.mk.injEq] at h
      obtain ⟨h1, h2, h3⟩ := h
      subst h1 h2 h3
      exact ⟨hne, rfl, hD, rfl⟩

/-- Row `i` of the tables is the row built from state `C[i]`. -/
theorem build_tables_get (prods : List Production) (nonterminals terminals : List String)
    (C : List State) (i : Nat) (Ci : State) (rows : ActionRow × GotoRow)
    (hC : C.get? i = some Ci)
    (hT : (build_tables prods nonterminals terminals C).get? i = some rows) :
    rows = table_row prods nonterminals terminals C Ci := by
  unfold build_tables at hT
  rw [List.get?_eq_getElem?] at hT hC
  rw [List.getElem?_map, hC] at hT
  simpa using hT.symm

/-- The automaton invariant holds of the canonical collection. -/
theorem canonical_collection_inv (prods : List Production) (nonterminals : List String)
    (C : List State) (hne : prods ≠ [])
    (h : canonical_collection prods nonterminals = some C) : automaton_inv prods C := by
  unfold canonical_collection at h
  exact collect_loop_inv prods nonterminals (automaton_inv prods)
    (fun D Ci X hD _ hn => automaton_inv_append prods nonterminals D Ci X hD hn) _ _ _ C h
    (automaton_inv_init prods nonterminals hne)

/-- In a state of valid items of an augmented grammar, the complete item of
production 0 is `(0, 1)`. -/
theorem complete_zero_iff (prods : List Production)
    (h0 : (prods.getD 0 default).rhs.length = 1) (s : State)
    (hs : ∀ it ∈ s, valid_item prods it) :
    (∃ it ∈ s, is_dot_at_end it prods = true ∧ it.prod = 0) ↔ (⟨0, 1⟩ : Item) ∈ s := by
  constructor
  · rintro ⟨it, hit, hc, hp⟩
    have hv := (hs it hit).2
    unfold is_dot_at_end at hc
    rw [hp, h0] at hv
    rw [hp, h0, decide_eq_true_eq] at hc
    have : it = ⟨0, 1⟩ := by
      cases it
      simp only [Item.mk.injEq] at *
      omega
    rw [← this]; exact hit
  · intro h
    refine ⟨⟨0, 1⟩, h, ?_, rfl⟩
    unfold is_dot_at_end
    simp only [h0, decide_eq_true_eq]
    exact Nat.le_refl _

/-- An item with a symbol after its dot makes `go_to` on that symbol non-empty. -/
theorem go_to_nonempty (prods : List Production) (nonterminals : List String) (I : State)
    (it : Item) (hit : it ∈ I) (hne : symbol_after_dot it prods ≠ "") :
    (go_to I (symbol_after_dot it prods) prods nonterminals).isEmpty = false := by
  have hmem : (⟨it.prod, it.dot + 1⟩ : Item)
      ∈ go_to I (symbol_after_dot it prods) prods nonterminals := by
    unfold go_to
    apply (closure_spec prods nonterminals _).1
    simp only [List.mem_filterMap]
    refine ⟨it, hit, ?_⟩
    simp [hne]
  cases hg : go_to I (symbol_after_dot it prods) prods nonterminals with
  | nil => rw [hg] at hmem; simp at hmem
  | cons x xs => rfl

theorem not_at_end_of_symbol (prods : List Production) (it : Item)
    (hne : symbol_after_dot it prods ≠ "") : is_dot_at_end it prods = false := by
  obtain ⟨_, h⟩ := symbol_after_dot_ne_empty prods it hne
  unfold is_dot_at_end
  simp only [decide_eq_false_iff_not, not_le]
  exact h

/-- The states `main` builds are made of valid items, and production 0 has a
right-hand side of length 1. -/
theorem main_tables_inv (lines : List GrammarLine) (g : Grammar) (C : List State)
    (tables : List (ActionRow × GotoRow)) (h : main_tables lines = some (g, C, tables)) :
    automaton_inv g.prods C ∧ (g.prods.getD 0 default).rhs.length = 1 := by
  obtain ⟨_, hg, hC, _⟩ := main_tables_spec lines g C tables h
  have hne : g.prods ≠ [] := by rw [hg]; simp [augment]
  refine ⟨canonical_collection_inv g.prods g.nonterminals C hne hC, ?_⟩
  rw [hg]; rfl

/-- C8 (as stated, refuted): for the grammar lines `S -> S $ b | A | a`, `A -> S`,
state 2 holds `S -> S . $ b` (the terminal `$` after the dot) and the complete
item of production 4 (`A -> S .`), yet the cell `ACTION[2]["$"]` is accept and not
the shift to `go_to(C[2], $)`. -/
theorem shift_loses_to_accept :
    main_tables linesX = some (grammarX, statesX,
      build_tables grammarX.prods grammarX.nonterminals grammarX.terminals statesX) ∧
    statesX.get? 2 = some [⟨0, 1⟩, ⟨1, 1⟩, ⟨4, 1⟩] ∧
    "$" ∈ grammarX.terminals ∧
    (∃ it ∈ ([⟨0, 1⟩, ⟨1, 1⟩, ⟨4, 1⟩] : State), symbol_after_dot it grammarX.prods = "$") ∧
    (∃ it ∈ ([⟨0, 1⟩, ⟨1, 1⟩, ⟨4, 1⟩] : State),
      is_dot_at_end it grammarX.prods = true ∧ it.prod ≠ 0) ∧
    state_index statesX
      (go_to [⟨0, 1⟩, ⟨1, 1⟩, ⟨4, 1⟩] "$" grammarX.prods grammarX.nonterminals) = 4 ∧
    action_at (table_row grammarX.prods grammarX.nonterminals grammarX.terminals statesX
      [⟨0, 1⟩, ⟨1, 1⟩, ⟨4, 1⟩]).1 "$" = ⟨ActionType.ACCEPT, -1⟩ ∧
    action_at (table_row grammarX.prods grammarX.nonterminals grammarX.terminals statesX
      [⟨0, 1⟩, ⟨1, 1⟩, ⟨4, 1⟩]).1 "$" ≠ ⟨ActionType.SHIFT, 4⟩ := by
  refine ⟨rfl, by decide, by decide, by decide, by decide, by decide, by decide, by decide⟩

/-- C8 (amended): shift wins over reduce. For every grammar, every state `C[i]` of
the automaton and every non-empty terminal `t`: if the state has an item with
`t` right after the dot (whether or not it also has complete items of
productions other than 0), the final `ACTION[i][t]` is `shift j` with
`j = state_index(C, go_to(C[i], t))` unless `t` is `$` and the state holds the
complete item `(0, 1)` of production 0, in which case the cell is accept. -/
theorem shift_wins (lines : List GrammarLine) (g : Grammar) (C : List State)
    (tables : List (ActionRow × GotoRow)) (h : main_tables lines = some (g, C, tables))
    (i : Nat) (Ci : State) (rows : ActionRow × GotoRow) (t : String)
    (hC : C.get? i = some Ci) (hT : tables.get? i = some rows)
    (ht : t ∈ g.terminals) (hne : t ≠ "")
    (hit : ∃ it ∈ Ci, symbol_after_dot it g.prods = t) :
    (¬ (t = "$" ∧ (⟨0, 1⟩ : Item) ∈ Ci) →
      action_at rows.1 t
        = ⟨ActionType.SHIFT, state_index C (go_to Ci t g.prods g.nonterminals)⟩) ∧
    ((t = "$" ∧ (⟨0, 1⟩ : Item) ∈ Ci) → (action_at rows.1 t).type = ActionType.ACCEPT) := by
  obtain ⟨_, _, _, htab⟩ := main_tables_spec lines g C tables h
  obtain ⟨hinv, h0⟩ := main_tables_inv lines g C tables h
  have hval : ∀ it ∈ Ci, valid_item g.prods it := (hinv.2 Ci (List.get?_mem hC)).2
  rw [htab] at hT
  rw [build_tables_get _ _ _ _ _ _ _ hC hT, action_at_table_row]
  refine ⟨?_, ?_⟩
  · intro hacc
    obtain ⟨it, hmem, hsym⟩ := hit
    have hsne : symbol_after_dot it g.prods ≠ "" := by rw [hsym]; exact hne
    refine (cell_fold_shift g.prods g.nonterminals g.terminals C Ci t Ci {} ?_
      (Or.inl rfl)).2 (Or.inr ⟨it, hmem, not_at_end_of_symbol _ _ hsne,
        go_to_nonempty _ _ _ _ hmem hsne, ?_, hsym.symm⟩)
    · rintro ⟨h1, h2⟩
      exact hacc ⟨h1, (complete_zero_iff g.prods h0 Ci hval).mp h2⟩
    · rw [hsym]; unfold set_count; simpa using ht
  · rintro ⟨h1, h2⟩
    rw [cell_fold_accept]
    exact Or.inr ⟨h1, (complete_zero_iff g.prods h0 Ci hval).mpr h2⟩

/-- An instance of `shift_wins`: for `S -> a | a b`, state 2 holds `S -> a .` and
`S -> a . b`; the cell on `b` is the shift to state 3. -/
theorem shift_wins_witness :
    main_tables linesSR = some (grammarSR, statesSR,
      build_tables grammarSR.prods grammarSR.nonterminals grammarSR.terminals statesSR) ∧
    (∃ it ∈ ([⟨1, 1⟩, ⟨2, 1⟩] : State), is_dot_at_end it grammarSR.prods = true ∧ it.prod ≠ 0) ∧
    state_index statesSR (go_to [⟨1, 1⟩, ⟨2, 1⟩] "b" grammarSR.prods grammarSR.nonterminals) = 3 ∧
    ((¬ ("b" = "$" ∧ (⟨0, 1⟩ : Item) ∈ ([⟨1, 1⟩, ⟨2, 1⟩] : State)) →
      action_at (table_row grammarSR.prods grammarSR.nonterminals grammarSR.terminals statesSR
          [⟨1, 1⟩, ⟨2, 1⟩]).1 "b"
        = ⟨ActionType.SHIFT, state_index statesSR
            (go_to [⟨1, 1⟩, ⟨2, 1⟩] "b" grammarSR.prods grammarSR.nonterminals)⟩) ∧
    (("b" = "$" ∧ (⟨0, 1⟩ : Item) ∈ ([⟨1, 1⟩, ⟨2, 1⟩] : State)) →
      (action_at (table_row grammarSR.prods grammarSR.nonterminals grammarSR.terminals statesSR
          [⟨1, 1⟩, ⟨2, 1⟩]).1 "b").type = ActionType.ACCEPT)) :=
  ⟨rfl, by decide, by decide,
    shift_wins linesSR grammarSR statesSR
      (build_tables grammarSR.prods grammarSR.nonterminals grammarSR.terminals statesSR) rfl
      2 [⟨1, 1⟩, ⟨2, 1⟩]
      (table_row grammarSR.prods grammarSR.nonterminals grammarSR.terminals statesSR
        [⟨1, 1⟩, ⟨2, 1⟩])
      "b" rfl rfl (by decide) (by decide) (by decide)⟩

/-- Where a reduce entry comes from: a cell that ends as `reduce p` belongs to a
terminal, the state holds the complete item of production `p`, and no complete
item of the state other than that of production 0 has a smaller production. -/
theorem reduce_entry_spec (lines : List GrammarLine) (g : Grammar) (C : List State)
    (tables : List (ActionRow × GotoRow)) (h : main_tables lines = some (g, C, tables))
    (i : Nat) (Ci : State) (rows : ActionRow × GotoRow) (t : String) (p : Int)
    (hC : C.get? i = some Ci) (hT : tables.get? i = some rows)
    (hred : action_at rows.1 t = ⟨ActionType.REDUCE, p⟩) :
    t ∈ g.terminals ∧
    (∃ it ∈ Ci, (it.prod : Int) = p ∧ it.prod ≠ 0 ∧
      it.dot = (g.prods.getD it.prod default).rhs.length) ∧
    (∀ it ∈ Ci, is_dot_at_end it g.prods = true → it.prod ≠ 0 → p ≤ (it.prod : Int)) := by
  obtain ⟨_, _, _, htab⟩ := main_tables_spec lines g C tables h
  obtain ⟨hinv, _⟩ := main_tables_inv lines g C tables h
  have hval : ∀ it ∈ Ci, valid_item g.prods it := (hinv.2 Ci (List.get?_mem hC)).2
  rw [htab] at hT
  rw [build_tables_get _ _ _ _ _ _ _ hC hT, action_at_table_row] at hred
  obtain ⟨_, a2, _, a4⟩ := cell_fold_reduce g.prods g.nonterminals g.terminals C Ci t Ci {}
    (by rw [hred])
  rw [hred] at a2 a4
  rcases a2 with a2 | ⟨ht, it, hit, hc, hp, hv⟩
  · exact absurd a2 (by simp)
  · refine ⟨ht, ⟨it, hit, hv.symm, hp, ?_⟩, a4 ht⟩
    have h1 := (hval it hit).2
    unfold is_dot_at_end at hc
    rw [decide_eq_true_eq] at hc
    omega

/-- C9: reduce/reduce collisions keep the smaller production index. For every
grammar, state `C[i]` and symbol `t`: if the final `ACTION[i][t]` is `reduce p`,
then `t` is a terminal, the state holds the complete item of production `p`
(dot at the end of its right-hand side, `p ≠ 0`), and `p` is the smallest
production index other than 0 among the complete items of the state. -/
theorem reduce_keeps_smallest (lines : List GrammarLine) (g : Grammar) (C : List State)
    (tables : List (ActionRow × GotoRow)) (h : main_tables lines = some (g, C, tables))
    (i : Nat) (Ci : State) (rows : ActionRow × GotoRow) (t : String) (p : Int)
    (hC : C.get? i = some Ci) (hT : tables.get? i = some rows)
    (hred : action_at rows.1 t = ⟨ActionType.REDUCE, p⟩) :
    t ∈ g.terminals ∧
    (∃ it ∈ Ci, (it.prod : Int) = p ∧ it.prod ≠ 0 ∧
      it.dot = (g.prods.getD it.prod default).rhs.length) ∧
    (∀ it ∈ Ci, is_dot_at_end it g.prods = true → it.prod ≠ 0 → p ≤ (it.prod : Int)) :=
  reduce_entry_spec lines g C tables h i Ci rows t p hC hT hred

/-- An instance of `reduce_keeps_smallest`: for `S -> A | B`, `A -> a`, `B -> a`,
state 4 holds the complete items of productions 3 and 4; the cell on `a` is
`reduce 3`. -/
theorem reduce_keeps_smallest_witness :
    main_tables linesRR = some (grammarRR, statesRR,
      build_tables grammarRR.prods grammarRR.nonterminals grammarRR.terminals statesRR) ∧
    action_at (table_row grammarRR.prods grammarRR.nonterminals grammarRR.terminals statesRR
      [⟨3, 1⟩, ⟨4, 1⟩]).1 "a" = ⟨ActionType.REDUCE, 3⟩ ∧
    ("a" ∈ grammarRR.terminals ∧
    (∃ it ∈ ([⟨3, 1⟩, ⟨4, 1⟩] : State), (it.prod : Int) = 3 ∧ it.prod ≠ 0 ∧
      it.dot = (grammarRR.prods.getD it.prod default).rhs.length) ∧
    (∀ it ∈ ([⟨3, 1⟩, ⟨4, 1⟩] : State), is_dot_at_end it grammarRR.prods = true →
      it.prod ≠ 0 → (3 : Int) ≤ (it.prod : Int))) :=
  ⟨rfl, by decide,
    reduce_keeps_smallest linesRR grammarRR statesRR
      (build_tables grammarRR.prods grammarRR.nonterminals grammarRR.terminals statesRR) rfl
      4 [⟨3, 1⟩, ⟨4, 1⟩]
      (table_row grammarRR.prods grammarRR.nonterminals grammarRR.terminals statesRR
        [⟨3, 1⟩, ⟨4, 1⟩])
      "a" 3 rfl rfl (by decide)⟩

/-- C10: production 0 after augmentation is exactly `S0' -> S0` for the left-hand
side `S0` of the first production read, followed by the productions read; and
for every state `C[i]` and symbol `t` the final `ACTION[i][t]` is accept if and
only if `t` is `$` and the state holds the item `(0, 1)`, the complete item of
production 0. -/
theorem accept_iff_start_item (lines : List GrammarLine) (g : Grammar) (C : List State)
    (tables : List (ActionRow × GotoRow)) (h : main_tables lines = some (g, C, tables)) :
    (∃ p0 rest, (read_grammar lines).prods = p0 :: rest ∧
      g.prods = ⟨p0.lhs ++ "'", [p0.lhs]⟩ :: p0 :: rest) ∧
    (∀ (i : Nat) (Ci : State) (rows : ActionRow × GotoRow) (t : String),
      C.get? i = some Ci → tables.get? i = some rows →
      ((action_at rows.1 t).type = ActionType.ACCEPT ↔ (t = "$" ∧ (⟨0, 1⟩ : Item) ∈ Ci))) := by
  obtain ⟨hne, hg, _, htab⟩ := main_tables_spec lines g C tables h
  obtain ⟨hinv, h0⟩ := main_tables_inv lines g C tables h
  refine ⟨?_, ?_⟩
  · cases hp : (read_grammar lines).prods with
    | nil => exact absurd hp hne
    | cons p0 rest =>
      refine ⟨p0, rest, rfl, ?_⟩
      rw [hg]
      unfold augment
      simp only [hp, List.getD_cons_zero]
  · intro i Ci rows t hC hT
    have hval : ∀ it ∈ Ci, valid_item g.prods it := (hinv.2 Ci (List.get?_mem hC)).2
    rw [htab] at hT
    rw [build_tables_get _ _ _ _ _ _ _ hC hT, action_at_table_row, cell_fold_accept,
      complete_zero_iff g.prods h0 Ci hval]
    constructor
    · rintro (h1 | h1)
      · simp at h1
      · exact h1
    · exact Or.inr

/-- An instance of `accept_iff_start_item`: for start nonterminal `E`, production
0 is `E' -> E`, and in state 1 of the example grammar the cell on `$` is accept. -/
theorem accept_iff_start_item_witness :
    main_tables linesE = some (grammarE, statesE,
      build_tables grammarE.prods grammarE.nonterminals grammarE.terminals statesE) ∧
    grammarE.prods.get? 0 = some ⟨"E'", ["E"]⟩ ∧
    action_at (table_row grammarE.prods grammarE.nonterminals grammarE.terminals statesE
      [⟨0, 1⟩, ⟨1, 1⟩]).1 "$" = ⟨ActionType.ACCEPT, -1⟩ ∧
    ((∃ p0 rest, (read_grammar linesE).prods = p0 :: rest ∧
      grammarE.prods = ⟨p0.lhs ++ "'", [p0.lhs]⟩ :: p0 :: rest) ∧
    (∀ (i : Nat) (Ci : State) (rows : ActionRow × GotoRow) (t : String),
      statesE.get? i = some Ci →
      (build_tables grammarE.prods grammarE.nonterminals grammarE.terminals statesE).get? i
        = some rows →
      ((action_at rows.1 t).type = ActionType.ACCEPT ↔ (t = "$" ∧ (⟨0, 1⟩ : Item) ∈ Ci)))) :=
  ⟨rfl, by decide, by decide,
    accept_iff_start_item linesE grammarE statesE
      (build_tables grammarE.prods grammarE.nonterminals grammarE.terminals statesE) rfl⟩

/-! ## Table totality -/

/-- A cell that holds an entry keeps holding one, and the visit of a complete
item of a production other than 0 puts an entry into every terminal's cell. -/
theorem cell_fold_nonerr (prods : List Production) (nonterminals terminals : List String)
    (C : List State) (Ci : State) (t : String) :
    ∀ (l : List Item) (c0 : Action),
      (c0.type ≠ ActionType.ERR ∨
        (t ∈ terminals ∧ ∃ it ∈ l, is_dot_at_end it prods = true ∧ it.prod ≠ 0)) →
      (l.foldl (item_cell prods nonterminals terminals C Ci t) c0).type ≠ ActionType.ERR := by
  intro l
  induction l with
  | nil =>
    intro c0 h
    rcases h with h | ⟨_, it, hit, _⟩
    · exact h
    · simp at hit
  | cons it l ih =>
    intro c0 h
    simp only [List.foldl_cons]
    apply ih
    have keep : c0.type ≠ ActionType.ERR →
        (item_cell prods nonterminals terminals C Ci t c0 it).type ≠ ActionType.ERR := by
      intro hc
      rcases item_cell_cases prods nonterminals terminals C Ci t c0 it with
        ⟨e, _⟩ | ⟨e, _⟩ | ⟨e, _⟩ | ⟨e, _⟩
      · rw [e]; exact hc
      · rw [e]
        rcases shift_cell_cases c0 (state_index C (go_to Ci t prods nonterminals)) with
          ⟨_, e1⟩ | ⟨_, e1⟩
        · rw [e1]; simp
        · rw [e1]; exact hc
      · rw [e]; simp
      · rw [e]
        rcases reduce_cell_cases c0 (it.prod : Int) with
          ⟨_, e1⟩ | ⟨_, _, e1⟩ | ⟨_, _, e1⟩ | ⟨_, e1⟩
        · rw [e1]; simp
        · rw [e1]; simp
        · rw [e1]; exact hc
        · rw [e1]; exact hc
    rcases h with h | ⟨ht, x, hx, hc, hp⟩
    · exact Or.inl (keep h)
    · rcases List.mem_cons.mp hx with rfl | hx
      · left
        by_cases h0 : c0.type = ActionType.ERR
        · rcases item_cell_cases prods nonterminals terminals C Ci t c0 x with
            ⟨_, _, _, h3⟩ | ⟨_, h1, _⟩ | ⟨_, _, h2, _⟩ | ⟨e, _⟩
          · exact absurd ⟨hc, hp, ht⟩ h3
          · rw [hc] at h1; simp at h1
          · exact absurd h2 hp
          · rw [e]
            rcases reduce_cell_cases c0 (x.prod : Int) with
              ⟨_, e1⟩ | ⟨h5, _, _⟩ | ⟨h5, _, _⟩ | ⟨h5, _⟩
            · rw [e1]; simp
            · rw [h0] at h5; simp at h5
            · rw [h0] at h5; simp at h5
            · rcases h5 with h5 | h5 <;> rw [h0] at h5 <;> simp at h5
        · exact keep h0
      · exact Or.inr ⟨ht, x, hx, hc, hp⟩

/-- C11: table totality. For every state `C[i]` of the final automaton: if the state
holds a complete item of a production other than 0, then `ACTION[i][t]` is an
entry other than the error entry (a shift, a reduce or accept) for every
terminal `t` of the terminal set; and if the state holds the complete item
`(0, 1)` of production 0, then `ACTION[i]["$"]` is accept and no other cell of
row `i` is accept. -/
theorem table_totality (lines : List GrammarLine) (g : Grammar) (C : List State)
    (tables : List (ActionRow × GotoRow)) (h : main_tables lines = some (g, C, tables))
    (i : Nat) (Ci : State) (rows : ActionRow × GotoRow)
    (hC : C.get? i = some Ci) (hT : tables.get? i = some rows) :
    ((∃ it ∈ Ci, is_dot_at_end it g.prods = true ∧ it.prod ≠ 0) →
      ∀ t ∈ g.terminals, (action_at rows.1 t).type ≠ ActionType.ERR) ∧
    ((⟨0, 1⟩ : Item) ∈ Ci →
      (action_at rows.1 "$").type = ActionType.ACCEPT ∧
      ∀ t, (action_at rows.1 t).type = ActionType.ACCEPT → t = "$") := by
  obtain ⟨_, _, _, htab⟩ := main_tables_spec lines g C tables h
  obtain ⟨hinv, h0⟩ := main_tables_inv lines g C tables h
  have hval : ∀ it ∈ Ci, valid_item g.prods it := (hinv.2 Ci (List.get?_mem hC)).2
  rw [htab] at hT
  rw [build_tables_get _ _ _ _ _ _ _ hC hT]
  refine ⟨?_, ?_⟩
  · intro hex t ht
    rw [action_at_table_row]
    exact cell_fold_nonerr g.prods g.nonterminals g.terminals C Ci t Ci {} (Or.inr ⟨ht, hex⟩)
  · intro hmem
    refine ⟨?_, ?_⟩
    · rw [action_at_table_row, cell_fold_accept]
      exact Or.inr ⟨rfl, (complete_zero_iff g.prods h0 Ci hval).mpr hmem⟩
    · intro t ht
      rw [action_at_table_row, cell_fold_accept] at ht
      rcases ht with ht | ht
      · simp at ht
      · exact ht.1

/-- An instance of `table_totality`: state 2 of the grammar `S -> a | a b` holds
the complete item of production 1; state 1 holds `(0, 1)`. -/
theorem table_totality_witness :
    main_tables linesSR = some (grammarSR, statesSR,
      build_tables grammarSR.prods grammarSR.nonterminals grammarSR.terminals statesSR) ∧
    (∃ it ∈ ([⟨1, 1⟩, ⟨2, 1⟩] : State), is_dot_at_end it grammarSR.prods = true ∧ it.prod ≠ 0) ∧
    (((∃ it ∈ ([⟨1, 1⟩, ⟨2, 1⟩] : State),
        is_dot_at_end it grammarSR.prods = true ∧ it.prod ≠ 0) →
      ∀ t ∈ grammarSR.terminals,
        (action_at (table_row grammarSR.prods grammarSR.nonterminals grammarSR.terminals
          statesSR [⟨1, 1⟩, ⟨2, 1⟩]).1 t).type ≠ ActionType.ERR) ∧
    ((⟨0, 1⟩ : Item) ∈ ([⟨1, 1⟩, ⟨2, 1⟩] : State) →
      (action_at (table_row grammarSR.prods grammarSR.nonterminals grammarSR.terminals
          statesSR [⟨1, 1⟩, ⟨2, 1⟩]).1 "$").type = ActionType.ACCEPT ∧
      ∀ t, (action_at (table_row grammarSR.prods grammarSR.nonterminals grammarSR.terminals
          statesSR [⟨1, 1⟩, ⟨2, 1⟩]).1 t).type = ActionType.ACCEPT → t = "$")) :=
  ⟨rfl, by decide,
    table_totality linesSR grammarSR statesSR
      (build_tables grammarSR.prods grammarSR.nonterminals grammarSR.terminals statesSR) rfl
      2 [⟨1, 1⟩, ⟨2, 1⟩]
      (table_row grammarSR.prods grammarSR.nonterminals grammarSR.terminals statesSR
        [⟨1, 1⟩, ⟨2, 1⟩]) rfl rfl⟩

/-! ## Closure-complete states -/

/-- Every state of a finished construction loop is a result of `closure`, hence
closed. -/
theorem canonical_collection_closed (prods : List Production) (nonterminals : List String)
    (C : List State) (h : canonical_collection prods nonterminals = some C) :
    ∀ s ∈ C, closed_items prods nonterminals s := by
  unfold canonical_collection at h
  refine collect_loop_inv prods nonterminals
    (fun D => ∀ s ∈ D, closed_items prods nonterminals s) ?_ _ _ _ C h ?_
  · intro D Ci X hD _ _ s hs
    rcases List.mem_append.mp hs with h1 | h1
    · exact hD s h1
    · have : s = go_to Ci X prods nonterminals := by simpa using h1
      rw [this]
      unfold go_to
      exact (closure_spec prods nonterminals _).2.2.2.2
  · intro s hs
    have : s = closure [⟨0, 0⟩] prods nonterminals := by simpa using hs
    rw [this]
    exact (closure_spec prods nonterminals _).2.2.2.2

/-- C13: every state of the final automaton is closure-complete: for every state
`C[i]`, every item of it whose symbol after the dot is a nonterminal `A`, and
every production index `p` with `lhs(p) = A`, the item `(p, 0)` is in `C[i]`. -/
theorem states_closure_complete (prods : List Production) (nonterminals : List String)
    (C : List State) (h : canonical_collection prods nonterminals = some C)
    (i : Nat) (Ci : State) (hC : C.get? i = some Ci) (it : Item) (hit : it ∈ Ci)
    (hne : symbol_after_dot it prods ≠ "")
    (hnt : symbol_after_dot it prods ∈ nonterminals)
    (p : Nat) (hp : p < prods.length)
    (hl : (prods.getD p default).lhs = symbol_after_dot it prods) :
    (⟨p, 0⟩ : Item) ∈ Ci := by
  have hc := canonical_collection_closed prods nonterminals C h Ci (List.get?_mem hC)
  exact hc it hit hne (by unfold set_count; simpa using hnt) p hp hl

/-- An instance of `states_closure_complete`: state 4 of the example grammar
holds `E -> E + . T`, and with it `T -> . id`. -/
theorem states_closure_complete_witness :
    canonical_collection grammarE.prods grammarE.nonterminals = some statesE ∧
    statesE.get? 4 = some [⟨1, 2⟩, ⟨3, 0⟩] ∧
    symbol_after_dot ⟨1, 2⟩ grammarE.prods = "T" ∧
    (grammarE.prods.getD 3 default).lhs = "T" ∧
    (⟨3, 0⟩ : Item) ∈ ([⟨1, 2⟩, ⟨3, 0⟩] : State) :=
  ⟨by decide, by decide, by decide, by decide,
    states_closure_complete grammarE.prods grammarE.nonterminals statesE (by decide)
      4 [⟨1, 2⟩, ⟨3, 0⟩] (by decide) ⟨1, 2⟩ (by decide) (by decide) (by decide) 3 (by decide)
      (by decide)⟩

/-! ## One step of the parse loop -/

/-- C17: a reduce step leaves the cursor where it is and rewrites only the stack;
a shift step pushes its target and advances the cursor by one. In a
configuration with top state `s` and current token `a`: if `ACTION[s][a]` is
`reduce p` with `m = |rhs(p)|`, the state `t` is the one exposed by removing the
top `m` entries and `GOTO[t][lhs(p)] = g` exists, then the step continues with the
stack `g` on top of the old stack without its top `m` entries (length
`old - m + 1`) and the same cursor, and the rest of the loop runs with the same
productions, tables and tokens; if `ACTION[s][a]` is `shift j`, the step
continues with `j` pushed and the cursor advanced by exactly one. -/
theorem step_frame (prods : List Production) (tables : List (ActionRow × GotoRow))
    (tokens : List String) (c : Config) (s : Int) (rest : List Int) (a : String)
    (row : ActionRow × GotoRow) (hs : c.stack = s :: rest)
    (ha : tokens.get? c.ip = some a) (hrow : rows_at tables s = some row) :
    (∀ (p : Int) (pr : Production) (t : Int) (below : List Int) (rowt : ActionRow × GotoRow)
        (g : Int),
      action_at row.1 a = ⟨ActionType.REDUCE, p⟩ → 0 ≤ p → prods.get? p.toNat = some pr →
      c.stack.drop pr.rhs.length = t :: below → rows_at tables t = some rowt →
      rowt.2 pr.lhs = some g →
      parse_step prods tables tokens c
        = Step.next ⟨g :: c.stack.drop pr.rhs.length, c.ip⟩ (Move.reduce p g) ∧
      (g :: c.stack.drop pr.rhs.length).length = c.stack.length - pr.rhs.length + 1 ∧
      ∀ n, parse_loop prods tables tokens (n + 1) c
        = ⟨Move.reduce p g ::
            (parse_loop prods tables tokens n ⟨g :: c.stack.drop pr.rhs.length, c.ip⟩).trace,
          (parse_loop prods tables tokens n ⟨g :: c.stack.drop pr.rhs.length, c.ip⟩).final,
          (parse_loop prods tables tokens n ⟨g :: c.stack.drop pr.rhs.length, c.ip⟩).outcome⟩) ∧
    (∀ (j : Int), action_at row.1 a = ⟨ActionType.SHIFT, j⟩ →
      parse_step prods tables tokens c = Step.next ⟨j :: c.stack, c.ip + 1⟩ (Move.shift a j) ∧
      ∀ n, parse_loop prods tables tokens (n + 1) c
        = ⟨Move.shift a j :: (parse_loop prods tables tokens n ⟨j :: c.stack, c.ip + 1⟩).trace,
          (parse_loop prods tables tokens n ⟨j :: c.stack, c.ip + 1⟩).final,
          (parse_loop prods tables tokens n ⟨j :: c.stack, c.ip + 1⟩).outcome⟩) := by
  refine ⟨?_, ?_⟩
  · intro p pr t below rowt g hact hp hpr hdrop hrowt hg
    have hstep : parse_step prods tables tokens c
        = Step.next ⟨g :: c.stack.drop pr.rhs.length, c.ip⟩ (Move.reduce p g) := by
      unfold parse_step
      rw [hs] at hdrop ⊢
      simp only [ha, hrow, hact, hpr, hdrop, hrowt, hg]
      rw [if_neg (by omega)]
    refine ⟨hstep, ?_, ?_⟩
    · simp only [List.length_cons, List.length_drop]
    · intro n
      simp only [parse_loop, hstep]
  · intro j hact
    have hstep : parse_step prods tables tokens c
        = Step.next ⟨j :: c.stack, c.ip + 1⟩ (Move.shift a j) := by
      unfold parse_step
      rw [hs]
      simp only [ha, hrow, hact]
    refine ⟨hstep, ?_⟩
    intro n
    simp only [parse_loop, hstep]

/-- An instance of `step_frame` in the run of the example grammar on `id + id`:
with stack `0 3` and cursor 1 the step is the reduce by `T -> id` to stack `0 2`,
cursor 1; with stack `0` and cursor 0 it is the shift of `id` to stack `0 3`,
cursor 1. -/
theorem step_frame_witness :
    parse_step grammarE.prods tablesE ["id", "+", "id", "$"] ⟨[3, 0], 1⟩
      = Step.next ⟨[2, 0], 1⟩ (Move.reduce 3 2) ∧
    parse_step grammarE.prods tablesE ["id", "+", "id", "$"] ⟨[0], 0⟩
      = Step.next ⟨[3, 0], 1⟩ (Move.shift "id" 3) :=
  ⟨((step_frame grammarE.prods tablesE ["id", "+", "id", "$"] ⟨[3, 0], 1⟩ 3 [0] "+"
      (table_row grammarE.prods grammarE.nonterminals grammarE.terminals statesE [⟨3, 1⟩])
      rfl rfl rfl).1 3 ⟨"T", ["id"]⟩ 0 []
      (table_row grammarE.prods grammarE.nonterminals grammarE.terminals statesE
        [⟨0, 0⟩, ⟨1, 0⟩, ⟨2, 0⟩, ⟨3, 0⟩])
      2 (by decide) (by decide) rfl rfl rfl (by decide)).1,
   ((step_frame grammarE.prods tablesE ["id", "+", "id", "$"] ⟨[0], 0⟩ 0 [] "id"
      (table_row grammarE.prods grammarE.nonterminals grammarE.terminals statesE
        [⟨0, 0⟩, ⟨1, 0⟩, ⟨2, 0⟩, ⟨3, 0⟩])
      rfl rfl rfl).2 3 (by decide)).1⟩

/-! ## Symbol sets -/

theorem mem_set_insert (x a : String) : ∀ (s : List String), x ∈ set_insert a s ↔ x = a ∨ x ∈ s := by
  intro s
  induction s with
  | nil => simp [set_insert]
  | cons y ys ih =>
    unfold set_insert
    by_cases h1 : a = y
    · rw [if_pos h1]
      subst h1
      simp
    · rw [if_neg h1]
      by_cases h2 : str_less a y = true
      · rw [if_pos h2]
        simp
      · rw [if_neg h2]
        simp only [List.mem_cons, ih]
        tauto

theorem mem_line_nonterminals_aux (x : String) :
    ∀ (lines : List GrammarLine) (s : List String),
      x ∈ lines.foldl (fun s l => set_insert l.lhs s) s ↔ (x ∈ s ∨ ∃ l ∈ lines, l.lhs = x) := by
  intro lines
  induction lines with
  | nil => intro s; simp
  | cons l ls ih =>
    intro s
    simp only [List.foldl_cons, ih, mem_set_insert, List.mem_cons, exists_eq_or_imp]
    constructor
    · rintro ((h | h) | h)
      · exact Or.inr (Or.inl h.symm)
      · exact Or.inl h
      · exact Or.inr (Or.inr h)
    · rintro (h | h | h)
      · exact Or.inl (Or.inr h)
      · exact Or.inl (Or.inl h.symm)
      · exact Or.inr h

/-- The nonterminals `read_grammar` collects are the left-hand sides of the lines. -/
theorem mem_line_nonterminals (x : String) (lines : List GrammarLine) :
    x ∈ line_nonterminals lines ↔ ∃ l ∈ lines, l.lhs = x := by
  unfold line_nonterminals
  rw [mem_line_nonterminals_aux]
  simp

theorem mem_collect_rhs (nonterminals : List String) (x : String) :
    ∀ (rhs : List String) (ts : List String),
      x ∈ rhs.foldl (fun ts s => if set_count nonterminals s = false then set_insert s ts else ts) ts
        ↔ (x ∈ ts ∨ (x ∈ rhs ∧ x ∉ nonterminals)) := by
  intro rhs
  induction rhs with
  | nil => intro ts; simp
  | cons s rest ih =>
    intro ts
    simp only [List.foldl_cons, ih, List.mem_cons]
    by_cases hs : s ∈ nonterminals
    · have : set_count nonterminals s = true := by unfold set_count; simpa using hs
      simp only [this, Bool.true_eq_false, if_false]
      constructor
      · rintro (h | ⟨h1, h2⟩)
        · exact Or.inl h
        · exact Or.inr ⟨Or.inr h1, h2⟩
      · rintro (h | ⟨h1 | h1, h2⟩)
        · exact Or.inl h
        · exact absurd (h1 ▸ hs) h2
        · exact Or.inr ⟨h1, h2⟩
    · have : set_count nonterminals s = false := by unfold set_count; simpa using hs
      simp only [this, if_true, mem_set_insert]
      constructor
      · rintro ((h | h) | ⟨h1, h2⟩)
        · exact Or.inr ⟨Or.inl h, h ▸ hs⟩
        · exact Or.inl h
        · exact Or.inr ⟨Or.inr h1, h2⟩
      · rintro (h | ⟨h1 | h1, h2⟩)
        · exact Or.inl (Or.inr h)
        · exact Or.inl (Or.inl h1)
        · exact Or.inr ⟨h1, h2⟩

theorem mem_collect_terminals_aux (nonterminals : List String) (x : String) :
    ∀ (prods : List Production) (ts : List String),
      x ∈ prods.foldl
        (fun ts p => p.rhs.foldl
          (fun ts s => if set_count nonterminals s = false then set_insert s ts else ts) ts) ts
        ↔ (x ∈ ts ∨ ∃ p ∈ prods, x ∈ p.rhs ∧ x ∉ nonterminals) := by
  intro prods
  induction prods with
  | nil => intro ts; simp
  | cons p ps ih =>
    intro ts
    simp only [List.foldl_cons, ih, mem_collect_rhs, List.mem_cons, exists_eq_or_imp]
    tauto

/-- The terminals `read_grammar` collects are the right-hand-side symbols that
are not nonterminals. -/
theorem mem_collect_terminals (prods : List Production) (nonterminals : List String)
    (x : String) :
    x ∈ collect_terminals prods nonterminals ↔ ∃ p ∈ prods, x ∈ p.rhs ∧ x ∉ nonterminals := by
  unfold collect_terminals
  rw [mem_collect_terminals_aux]
  simp

/-- Every production read comes from a line, whose left-hand side it carries. -/
theorem mem_line_prods (lines : List GrammarLine) (p : Production) :
    p ∈ line_prods lines ↔ ∃ l ∈ lines, ∃ a ∈ l.alts, p = ⟨l.lhs, a⟩ := by
  unfold line_prods
  simp only [List.mem_flatMap, List.mem_map]
  constructor
  · rintro ⟨l, hl, a, ha, rfl⟩
    exact ⟨l, hl, a, ha, rfl⟩
  · rintro ⟨l, hl, a, ha, rfl⟩
    exact ⟨l, hl, a, ha, rfl⟩

/-- The symbol sets after `read_grammar` and the augmentation of `main`. -/
theorem augment_sets (lines : List GrammarLine) (x : String) :
    (x ∈ (augment (read_grammar lines)).nonterminals ↔
      x = start_name (read_grammar lines) ∨ ∃ l ∈ lines, l.lhs = x) ∧
    (x ∈ (augment (read_grammar lines)).terminals ↔
      x = "$" ∨ ∃ p ∈ line_prods lines, x ∈ p.rhs ∧ ¬ ∃ l ∈ lines, l.lhs = x) := by
  unfold augment read_grammar start_name
  simp only [mem_set_insert, mem_line_nonterminals, mem_collect_terminals]
  exact ⟨trivial, by tauto⟩

/-! ## The augmented start symbol -/

/-- C12 (code defect): the start symbol minted by the augmentation is not fresh when
the grammar already uses the name. For the grammar lines `E -> x E' | a`,
`E' -> b` (language `{a, x b}`) production 0 becomes `E' -> E`, whose left-hand
side is the nonterminal `E'` of the grammar, so `E'` now also derives `E`; on the
input `x a`, which is not in the language, the run shifts `x`, shifts `a`, reduces
by `E -> a`, finds `GOTO[3]["E"] = 1`, the state of the complete item of
production 0, and accepts. -/
theorem start_name_collision_accepts :
    (read_grammar linesClash).prods = [⟨"E", ["x", "E'"]⟩, ⟨"E", ["a"]⟩, ⟨"E'", ["b"]⟩] ∧
    (augment (read_grammar linesClash)).prods.getD 0 default = ⟨"E'", ["E"]⟩ ∧
    "E'" ∈ (read_grammar linesClash).nonterminals ∧
    main linesClash ["x", "a"] 4
      = some ⟨[Move.shift "x" 3, Move.shift "a" 2, Move.reduce 2 1], ⟨[1, 3, 0], 2⟩,
          some Outcome.accept⟩ := by
  decide

/-! ## Classification of symbols -/

/-- C14 (as stated, refuted): for the grammar line `$ -> a` the name `$` is in the
nonterminal set (it is a left-hand side) and in the terminal set (it is always
inserted). -/
theorem dollar_in_both_sets :
    (read_grammar linesDollar).prods ≠ [] ∧
    "$" ∈ (augment (read_grammar linesDollar)).nonterminals ∧
    "$" ∈ (augment (read_grammar linesDollar)).terminals := by
  decide

/-- After `read_grammar` and the augmentation step, a name that is in both the
terminal set and the nonterminal set is `$` or the augmented start symbol.
Every left-hand side of a production is in the nonterminal set and every
right-hand-side symbol is in one of the two sets. -/
theorem symbols_overlap (lines : List GrammarLine) (h : (read_grammar lines).prods ≠ []) :
    (∀ s, s ∈ (augment (read_grammar lines)).terminals →
      s ∈ (augment (read_grammar lines)).nonterminals →
      s = "$" ∨ s = start_name (read_grammar lines)) ∧
    (∀ p ∈ (augment (read_grammar lines)).prods,
      p.lhs ∈ (augment (read_grammar lines)).nonterminals ∧
      ∀ s ∈ p.rhs, s ∈ (augment (read_grammar lines)).terminals ∨
        s ∈ (augment (read_grammar lines)).nonterminals) := by
  have hprods : (read_grammar lines).prods = line_prods lines := rfl
  have hlhs : ∀ p ∈ line_prods lines, ∃ l ∈ lines, l.lhs = p.lhs := by
    intro p hp
    obtain ⟨l, hl, a, _, rfl⟩ := (mem_line_prods lines p).mp hp
    exact ⟨l, hl, rfl⟩
  refine ⟨?_, ?_⟩
  · intro s ht hn
    rw [(augment_sets lines s).1] at hn
    rw [(augment_sets lines s).2] at ht
    rcases ht with ht | ⟨_, _, _, hnot⟩
    · exact Or.inl ht
    · rcases hn with hn | hn
      · exact Or.inr hn
      · exact absurd hn hnot
  · intro p hp
    have haug : (augment (read_grammar lines)).prods
        = ⟨((read_grammar lines).prods.getD 0 default).lhs ++ "'",
            [((read_grammar lines).prods.getD 0 default).lhs]⟩ :: (read_grammar lines).prods := rfl
    rw [haug, hprods] at hp
    rcases List.mem_cons.mp hp with rfl | hp
    · refine ⟨((augment_sets lines _).1).mpr (Or.inl rfl), ?_⟩
      intro s hs
      right
      have hs1 : s = ((line_prods lines).getD 0 default).lhs := by simpa using hs
      rw [(augment_sets lines s).1]
      right
      rw [hs1]
      cases hlp : line_prods lines with
      | nil => rw [hprods] at h; exact absurd hlp h
      | cons p0 rest =>
        rw [List.getD_cons_zero]
        exact hlhs p0 (by rw [hlp]; exact List.mem_cons_self _ _)
    · refine ⟨((augment_sets lines _).1).mpr (Or.inr (hlhs p hp)), ?_⟩
      intro s hs
      by_cases hl : ∃ l ∈ lines, l.lhs = s
      · exact Or.inr (((augment_sets lines s).1).mpr (Or.inr hl))
      · exact Or.inl (((augment_sets lines s).2).mpr (Or.inr ⟨p, hp, hs, hl⟩))

/-- The minted start symbol can itself be in both sets: for the grammar line
`E -> x E' | a` the name `E'` is read as a terminal and then inserted into the
nonterminals as the start symbol. -/
theorem start_name_in_both_sets :
    start_name (read_grammar linesClashTerminal) = "E'" ∧
    "E'" ∈ (read_grammar linesClashTerminal).terminals ∧
    "E'" ∈ (augment (read_grammar linesClashTerminal)).nonterminals ∧
    "E'" ∈ (augment (read_grammar linesClashTerminal)).terminals := by
  decide

/-- C14 (amended): for every non-empty grammar in which `$` is not a left-hand side
and the name minted for the start symbol was not read as a terminal, after
`read_grammar` and the augmentation step the terminal set and the nonterminal
set are disjoint (no name, `$` and the augmented start symbol included, is in
both), every left-hand side of a production is in the nonterminal set, and
every right-hand-side symbol is in one of the two sets. -/
theorem symbols_classified (lines : List GrammarLine) (h : (read_grammar lines).prods ≠ [])
    (hd : "$" ∉ (read_grammar lines).nonterminals)
    (hs : start_name (read_grammar lines) ∉ (read_grammar lines).terminals) :
    (∀ s, ¬ (s ∈ (augment (read_grammar lines)).terminals ∧
      s ∈ (augment (read_grammar lines)).nonterminals)) ∧
    (∀ p ∈ (augment (read_grammar lines)).prods,
      p.lhs ∈ (augment (read_grammar lines)).nonterminals ∧
      ∀ s ∈ p.rhs, s ∈ (augment (read_grammar lines)).terminals ∨
        s ∈ (augment (read_grammar lines)).nonterminals) := by
  obtain ⟨h1, h2⟩ := symbols_overlap lines h
  have hdT : "$" ∈ (read_grammar lines).terminals := by
    unfold read_grammar
    simp only [mem_set_insert, true_or]
  have hT : ∀ s, s ∈ (augment (read_grammar lines)).terminals →
      s ∈ (read_grammar lines).terminals := by
    intro s hs1
    have e : (augment (read_grammar lines)).terminals
        = set_insert "$" (read_grammar lines).terminals := rfl
    rw [e, mem_set_insert] at hs1
    rcases hs1 with rfl | hs1
    · exact hdT
    · exact hs1
  have hN : ∀ s, s ∈ (augment (read_grammar lines)).nonterminals →
      s = start_name (read_grammar lines) ∨ s ∈ (read_grammar lines).nonterminals := by
    intro s hs1
    have e : (augment (read_grammar lines)).nonterminals
        = set_insert (start_name (read_grammar lines)) (read_grammar lines).nonterminals := rfl
    rw [e, mem_set_insert] at hs1
    exact hs1
  refine ⟨?_, h2⟩
  rintro s ⟨ht, hn⟩
  rcases h1 s ht hn with rfl | rfl
  · rcases hN _ hn with e | e
    · exact hs (by rw [← e]; exact hdT)
    · exact hd e
  · exact hs (hT _ ht)

/-- An instance of `symbols_classified`: the example grammar. -/
theorem symbols_classified_witness :
    (read_grammar linesE).prods ≠ [] ∧
    "$" ∉ (read_grammar linesE).nonterminals ∧
    start_name (read_grammar linesE) ∉ (read_grammar linesE).terminals ∧
    ((∀ s, ¬ (s ∈ (augment (read_grammar linesE)).terminals ∧
      s ∈ (augment (read_grammar linesE)).nonterminals)) ∧
    (∀ p ∈ (augment (read_grammar linesE)).prods,
      p.lhs ∈ (augment (read_grammar linesE)).nonterminals ∧
      ∀ s ∈ p.rhs, s ∈ (augment (read_grammar linesE)).terminals ∨
        s ∈ (augment (read_grammar linesE)).nonterminals)) :=
  ⟨by decide, by decide, by decide, symbols_classified linesE (by decide) (by decide) (by decide)⟩

/-! ## Closure: least closed superset -/

/-- A finished worklist loop of `closure` keeps `C`, adds only dot-0 items asked
for by a different member, and stays inside every closed list that contains `C`. -/
theorem closure_loop_origin (prods : List Production) (nonterminals : List String) :
    ∀ (fuel : Nat) (C q D : List Item),
      closure_loop prods nonterminals fuel C q = some D → (∀ x ∈ q, x ∈ C) →
      (∀ x ∈ C, x ∈ D) ∧
      (∀ x ∈ D, x ∈ C ∨ (x.dot = 0 ∧ x.prod < prods.length ∧
        ∃ y ∈ D, y ≠ x ∧ symbol_after_dot y prods ≠ "" ∧
          set_count nonterminals (symbol_after_dot y prods) = true ∧
          (prods.getD x.prod default).lhs = symbol_after_dot y prods)) ∧
      (∀ E : List Item, (∀ x ∈ C, x ∈ E) → closed_items prods nonterminals E →
        ∀ x ∈ D, x ∈ E) := by
  intro fuel
  induction fuel with
  | zero =>
    intro C q D h hq
    cases q with
    | nil =>
      simp only [closure_loop, Option.some.injEq] at h
      subst h
      exact ⟨fun x hx => hx, fun x hx => Or.inl hx, fun E hE _ x hx => hE x hx⟩
    | cons it q => simp [closure_loop] at h
  | succ n ih =>
    intro C q D h hq
    cases q with
    | nil =>
      simp only [closure_loop, Option.some.injEq] at h
      subst h
      exact ⟨fun x hx => hx, fun x hx => Or.inl hx, fun E hE _ x hx => hE x hx⟩
    | cons it q =>
      have hq1 : ∀ x ∈ q, x ∈ C := fun x hx => hq x (List.mem_cons_of_mem _ hx)
      have hit : it ∈ C := hq it (List.mem_cons_self _ _)
      simp only [closure_loop] at h
      by_cases h1 : symbol_after_dot it prods = ""
      · rw [if_pos h1] at h
        exact ih C q D h hq1
      · rw [if_neg h1] at h
        by_cases h2 : set_count nonterminals (symbol_after_dot it prods) = false
        · rw [if_pos h2] at h
          exact ih C q D h hq1
        · rw [if_neg h2] at h
          have h2t : set_count nonterminals (symbol_after_dot it prods) = true := by
            cases hb : set_count nonterminals (symbol_after_dot it prods)
            · exact absurd hb h2
            · rfl
          obtain ⟨f1, _, f3, f4, _, _, _⟩ :=
            closure_fold_spec prods (symbol_after_dot it prods) (List.range prods.length) (C, q)
          obtain ⟨a1, a2, a3⟩ := ih _ _ D h (by
            intro x hx
            rcases f4 x hx with h' | h'
            · exact f1 x (hq1 x h')
            · exact h')
          refine ⟨fun x hx => a1 x (f1 x hx), ?_, ?_⟩
          · intro x hx
            rcases a2 x hx with h' | h'
            · by_cases hxC : x ∈ C
              · exact Or.inl hxC
              · rcases f3 x h' with h'' | ⟨d0, hp, _, hl⟩
                · exact absurd h'' hxC
                · right
                  refine ⟨d0, List.mem_range.mp hp, it, a1 _ (f1 _ hit), ?_, h1, h2t, hl⟩
                  intro e
                  exact hxC (e ▸ hit)
            · exact Or.inr h'
          · intro E hE hcl x hx
            apply a3 E ?_ hcl x hx
            intro z hz
            rcases f3 z hz with h' | ⟨d0, hp, _, hl⟩
            · exact hE z h'
            · have hz' := hcl it (hE it hit) h1 h2t z.prod (List.mem_range.mp hp) hl
              have : z = ⟨z.prod, 0⟩ := by
                cases z
                simp only [Item.mk.injEq, true_and]
                exact d0
              rw [this]
              exact hz'

/-- Two different items in the order of `sort` are in strictly increasing order. -/
theorem item_lt_of_le_of_ne (x y : Item) (h : item_le x y) (hne : x ≠ y) :
    x.prod < y.prod ∨ (x.prod = y.prod ∧ x.dot < y.dot) := by
  rw [item_le_iff] at h
  rcases h with h | ⟨h1, h2⟩
  · exact Or.inl h
  · right
    refine ⟨h1, ?_⟩
    rcases Nat.eq_or_lt_of_le h2 with e | e
    · exfalso
      apply hne
      cases x; cases y
      simp only [Item.mk.injEq] at *
      exact ⟨h1, e⟩
    · exact e

/-- C15: `closure` computes the least closed superset in canonical order. For every
production list, nonterminal set and item list `I` with valid production
indices, the result of `closure(I)` (a) contains every item of `I`; (b) contains
`(p, 0)` for every production `p` whose left-hand side is the nonterminal after
the dot of a member; (c) contains nothing else: every member is in `I` or is a
dot-0 item `(p, 0)` whose left-hand side is the nonterminal after the dot of
another member; (d) is strictly increasing in (production index, dot) order,
hence duplicate-free; and it is contained in every closed item list that
contains `I`. -/
theorem closure_least_closed (prods : List Production) (nonterminals : List String)
    (I : State) (_hI : ∀ it ∈ I, it.prod < prods.length) :
    (∀ x ∈ I, x ∈ closure I prods nonterminals) ∧
    (∀ y ∈ closure I prods nonterminals, symbol_after_dot y prods ≠ "" →
      symbol_after_dot y prods ∈ nonterminals →
      ∀ p, p < prods.length → (prods.getD p default).lhs = symbol_after_dot y prods →
        (⟨p, 0⟩ : Item) ∈ closure I prods nonterminals) ∧
    (∀ x ∈ closure I prods nonterminals, x ∈ I ∨ (x.dot = 0 ∧ x.prod < prods.length ∧
      ∃ y ∈ closure I prods nonterminals, y ≠ x ∧ symbol_after_dot y prods ≠ "" ∧
        symbol_after_dot y prods ∈ nonterminals ∧
        (prods.getD x.prod default).lhs = symbol_after_dot y prods)) ∧
    (closure I prods nonterminals).Pairwise
      (fun x y => x.prod < y.prod ∨ (x.prod = y.prod ∧ x.dot < y.dot)) ∧
    (closure I prods nonterminals).Nodup ∧
    (∀ E : List Item, (∀ x ∈ I, x ∈ E) → closed_items prods nonterminals E →
      ∀ x ∈ closure I prods nonterminals, x ∈ E) := by
  obtain ⟨b1, _, b3, b4, b5⟩ := closure_spec prods nonterminals I
  obtain ⟨D, e, hcl, _, _, _, _⟩ := closure_loop_terminates prods nonterminals I
  obtain ⟨_, o2, o3⟩ := closure_loop_origin prods nonterminals _ _ _ D e
    (fun x hx => List.mem_dedup.mpr hx)
  have hp := sort_items_perm D
  refine ⟨b1, ?_, ?_, ?_, b3, ?_⟩
  · intro y hy hne hnt p hp' hl
    exact b5 y hy hne (by unfold set_count; simpa using hnt) p hp' hl
  · intro x hx
    rw [hcl] at hx ⊢
    rcases o2 x (hp.mem_iff.mp hx) with h | ⟨d0, hlt, y, hy, hyx, hne, hnt, hl⟩
    · exact Or.inl (List.mem_dedup.mp h)
    · refine Or.inr ⟨d0, hlt, y, hp.mem_iff.mpr hy, hyx, hne, ?_, hl⟩
      unfold set_count at hnt
      simpa using hnt
  · have hpw : (closure I prods nonterminals).Pairwise (fun x y => item_le x y ∧ x ≠ y) :=
      List.Pairwise.and b4 b3
    exact hpw.imp fun {x y} h => item_lt_of_le_of_ne x y h.1 h.2
  · intro E hE hclE x hx
    rw [hcl] at hx
    exact o3 E (fun z hz => hE z (List.mem_dedup.mp hz)) hclE x (hp.mem_iff.mp hx)

/-- An instance of `closure_least_closed`: the start item of the example grammar. -/
theorem closure_least_closed_witness :
    (∀ it ∈ ([⟨0, 0⟩] : State), it.prod < grammarE.prods.length) ∧
    closure [⟨0, 0⟩] grammarE.prods grammarE.nonterminals = [⟨0, 0⟩, ⟨1, 0⟩, ⟨2, 0⟩, ⟨3, 0⟩] ∧
    (∀ x ∈ closure [⟨0, 0⟩] grammarE.prods grammarE.nonterminals,
      x ∈ ([⟨0, 0⟩] : State) ∨ (x.dot = 0 ∧ x.prod < grammarE.prods.length ∧
      ∃ y ∈ closure [⟨0, 0⟩] grammarE.prods grammarE.nonterminals, y ≠ x ∧
        symbol_after_dot y grammarE.prods ≠ "" ∧
        symbol_after_dot y grammarE.prods ∈ grammarE.nonterminals ∧
        (grammarE.prods.getD x.prod default).lhs = symbol_after_dot y grammarE.prods)) :=
  ⟨by decide, by decide,
    (closure_least_closed grammarE.prods grammarE.nonterminals [⟨0, 0⟩] (by decide)).2.2.1⟩

/-! ## The finished automaton is closed under `go_to` -/

theorem mem_next_symbols_aux (prods : List Production) (X : String) :
    ∀ (l : List Item) (s : List String),
      X ∈ l.foldl (fun s it =>
          if symbol_after_dot it prods ≠ "" then set_insert (symbol_after_dot it prods) s else s) s
        ↔ (X ∈ s ∨ ∃ it ∈ l, symbol_after_dot it prods = X ∧ X ≠ "") := by
  intro l
  induction l with
  | nil => intro s; simp
  | cons it l ih =>
    intro s
    simp only [List.foldl_cons, ih, List.mem_cons, exists_eq_or_imp]
    by_cases h : symbol_after_dot it prods = ""
    · simp only [h, ne_eq, not_true_eq_false, if_false]
      constructor
      · rintro (h1 | h1)
        · exact Or.inl h1
        · exact Or.inr (Or.inr h1)
      · rintro (h1 | ⟨h1, h2⟩ | h1)
        · exact Or.inl h1
        · exact absurd h1.symm h2
        · exact Or.inr h1
    · simp only [ne_eq, h, not_false_eq_true, if_true, mem_set_insert]
      constructor
      · rintro ((h1 | h1) | h1)
        · exact Or.inr (Or.inl ⟨h1.symm, h1 ▸ h⟩)
        · exact Or.inl h1
        · exact Or.inr (Or.inr h1)
      · rintro (h1 | ⟨h1, _⟩ | h1)
        · exact Or.inl (Or.inr h1)
        · exact Or.inl (Or.inl h1.symm)
        · exact Or.inr h1

/-- The set `nextSymbols` of a state holds the non-empty symbols after a dot. -/
theorem mem_next_symbols (Ci : State) (prods : List Production) (X : String) :
    X ∈ next_symbols Ci prods ↔ ∃ it ∈ Ci, symbol_after_dot it prods = X ∧ X ≠ "" := by
  unfold next_symbols
  rw [mem_next_symbols_aux]
  simp

/-- When the loop over `nextSymbols` ends with `changed` unset, it appended
nothing: every `go_to` result was empty or found by `state_index`. -/
theorem add_goto_fold_unchanged (prods : List Production) (nonterminals : List String)
    (Ci : State) :
    ∀ (l : List String) (st : List State × Bool),
      (l.foldl (add_goto prods nonterminals Ci) st).2 = false →
      l.foldl (add_goto prods nonterminals Ci) st = st ∧ st.2 = false ∧
      ∀ X ∈ l, (go_to Ci X prods nonterminals).isEmpty = true ∨
        state_index st.1 (go_to Ci X prods nonterminals) ≠ -1 := by
  intro l
  induction l with
  | nil => intro st h; exact ⟨rfl, h, fun X hX => by simp at hX⟩
  | cons X l ih =>
    intro st h
    simp only [List.foldl_cons] at h ⊢
    obtain ⟨i1, i2, i3⟩ := ih _ h
    rcases add_goto_spec prods nonterminals Ci st X with e | ⟨e, _, _⟩
    · rw [e] at i1 i2 i3 ⊢
      refine ⟨i1, i2, ?_⟩
      intro Y hY
      rcases List.mem_cons.mp hY with rfl | hY
      · unfold add_goto at e
        by_cases h1 : (go_to Ci Y prods nonterminals).isEmpty = true
        · exact Or.inl h1
        · right
          intro h2
          simp only [h1, h2, if_true] at e
          have := congrArg Prod.snd e
          simp only at this
          rw [i2] at this
          simp at this
      · exact i3 Y hY
    · rw [e] at i2
      simp at i2

/-- A pass that ends with `changed` unset left the state list as it was, and
for every state from `i` on every `go_to` result on a symbol of `nextSymbols` is
empty or already a state. -/
theorem collect_pass_unchanged (prods : List Production) (nonterminals : List String) :
    ∀ (fuel i : Nat) (C : List State) (changed : Bool) (D : List State),
      collect_pass prods nonterminals fuel i C changed = some (D, false) →
      D = C ∧ changed = false ∧
      ∀ (k : Nat) (Ck : State), i ≤ k → C.get? k = some Ck →
        ∀ X ∈ next_symbols Ck prods, (go_to Ck X prods nonterminals).isEmpty = true ∨
          state_index C (go_to Ck X prods nonterminals) ≠ -1 := by
  intro fuel
  induction fuel with
  | zero => intro i C changed D h; simp [collect_pass] at h
  | succ n ih =>
    intro i C changed D h
    simp only [collect_pass] at h
    cases hg : C.get? i with
    | none =>
      rw [hg] at h
      simp only [Option.some.injEq, Prod.mk.injEq] at h
      refine ⟨h.1.symm, h.2, ?_⟩
      intro k Ck hk hCk
      have hlen : C.length ≤ i := List.get?_eq_none.mp hg
      have : C.get? k = none := List.get?_eq_none.mpr (by omega)
      rw [this] at hCk
      simp at hCk
    | some Ci =>
      rw [hg] at h
      simp only at h
      obtain ⟨i1, i2, i3⟩ := ih _ _ _ _ h
      obtain ⟨f1, f2, f3⟩ := add_goto_fold_unchanged prods nonterminals Ci _ _ i2
      simp only at f2 f3
      rw [f1] at i1 i3
      simp only at i1 i3
      refine ⟨i1, f2, ?_⟩
      intro k Ck hk hCk
      rcases Nat.eq_or_lt_of_le hk with e | hlt
      · subst e
        rw [hg] at hCk
        simp only [Option.some.injEq] at hCk
        subst hCk
        exact f3
      · exact i3 k Ck hlt hCk

/-- When the construction loop ends, every `go_to` result of a state on a
symbol of its `nextSymbols` is empty or already a state. -/
theorem collect_loop_goto_closed (prods : List Production) (nonterminals : List String)
    (passFuel : Nat) :
    ∀ (fuel : Nat) (C D : List State),
      collect_loop prods nonterminals passFuel fuel C = some D →
      ∀ (k : Nat) (Dk : State), D.get? k = some Dk →
        ∀ X ∈ next_symbols Dk prods, (go_to Dk X prods nonterminals).isEmpty = true ∨
          state_index D (go_to Dk X prods nonterminals) ≠ -1 := by
  intro fuel
  induction fuel with
  | zero => intro C D h; simp [collect_loop] at h
  | succ n ih =>
    intro C D h
    simp only [collect_loop] at h
    cases hp : collect_pass prods nonterminals passFuel 0 C false with
    | none => rw [hp] at h; simp at h
    | some r =>
      obtain ⟨C1, ch⟩ := r
      rw [hp] at h
      cases ch with
      | true => exact ih C1 D h
      | false =>
        simp only [Option.some.injEq] at h
        subst h
        obtain ⟨e, _, hall⟩ := collect_pass_unchanged prods nonterminals passFuel 0 C false C1 hp
        subst e
        intro k Dk hk
        exact hall k Dk (Nat.zero_le _) hk

/-- In the finished automaton, `go_to` of a state on a symbol after one of its
dots is non-empty and is the state at the index `state_index` returns. -/
theorem canonical_collection_goto_closed (prods : List Production)
    (nonterminals : List String) (C : List State)
    (h : canonical_collection prods nonterminals = some C)
    (i : Nat) (Ci : State) (hC : C.get? i = some Ci) (it : Item) (hit : it ∈ Ci)
    (hne : symbol_after_dot it prods ≠ "") :
    go_to Ci (symbol_after_dot it prods) prods nonterminals ≠ [] ∧
    ∃ j : Nat, state_index C (go_to Ci (symbol_after_dot it prods) prods nonterminals) = (j : Int) ∧
      C.get? j = some (go_to Ci (symbol_after_dot it prods) prods nonterminals) := by
  have hne1 := go_to_nonempty prods nonterminals Ci it hit hne
  have hne2 : go_to Ci (symbol_after_dot it prods) prods nonterminals ≠ [] := by
    intro e; rw [e] at hne1; simp at hne1
  refine ⟨hne2, ?_⟩
  unfold canonical_collection at h
  have hX : symbol_after_dot it prods ∈ next_symbols Ci prods :=
    (mem_next_symbols Ci prods _).mpr ⟨it, hit, rfl, hne⟩
  rcases collect_loop_goto_closed prods nonterminals _ _ _ C h i Ci hC _ hX with h1 | h1
  · rw [hne1] at h1; simp at h1
  · unfold state_index at h1 ⊢
    rcases state_index_from_spec (go_to Ci (symbol_after_dot it prods) prods nonterminals) C 0
      with ⟨_, h3⟩ | ⟨k, _, h3, h4⟩
    · exact absurd h3 h1
    · refine ⟨k, ?_, h3⟩
      rw [h4]; simp

/-! ## Table construction: where shift and GOTO entries come from -/

/-- Shift: a cell that is a `shift` after the items `l` is the cell it was
before, or it is the shift to `state_index(C, go_to(Ci, t))` proposed by an item
of `l` with the terminal `t` after its dot. -/
theorem cell_fold_shift_origin (prods : List Production) (nonterminals terminals : List String)
    (C : List State) (Ci : State) (t : String) :
    ∀ (l : List Item) (c0 : Action),
      (l.foldl (item_cell prods nonterminals terminals C Ci t) c0).type = ActionType.SHIFT →
      l.foldl (item_cell prods nonterminals terminals C Ci t) c0 = c0 ∨
      (l.foldl (item_cell prods nonterminals terminals C Ci t) c0
          = ⟨ActionType.SHIFT, state_index C (go_to Ci t prods nonterminals)⟩ ∧
        ∃ it ∈ l, is_dot_at_end it prods = false ∧
          (go_to Ci (symbol_after_dot it prods) prods nonterminals).isEmpty = false ∧
          set_count terminals (symbol_after_dot it prods) = true ∧
          t = symbol_after_dot it prods) := by
  intro l
  induction l with
  | nil => intro c0 _; exact Or.inl rfl
  | cons it l ih =>
    intro c0 h
    simp only [List.foldl_cons] at h ⊢
    rcases ih _ h with e | ⟨e, x, hx, r⟩
    · rw [e] at h ⊢
      rcases item_cell_cases prods nonterminals terminals C Ci t c0 it with
        ⟨e1, _⟩ | ⟨e1, r⟩ | ⟨e1, _⟩ | ⟨e1, _⟩
      · exact Or.inl e1
      · rcases shift_cell_cases c0 (state_index C (go_to Ci t prods nonterminals)) with
          ⟨_, e2⟩ | ⟨_, e2⟩
        · right
          rw [e1, e2]
          exact ⟨rfl, it, List.mem_cons_self _ _, r⟩
        · left; rw [e1, e2]
      · rw [e1] at h; simp at h
      · rcases reduce_cell_cases c0 (it.prod : Int) with
          ⟨_, e2⟩ | ⟨_, _, e2⟩ | ⟨_, _, e2⟩ | ⟨_, e2⟩
        · rw [e1, e2] at h; simp at h
        · rw [e1, e2] at h; simp at h
        · left; rw [e1, e2]
        · left; rw [e1, e2]
    · exact Or.inr ⟨e, x, List.mem_cons_of_mem _ hx, r⟩

/-- The visit of one item, seen from entry `x` of the GOTO row. -/
theorem goto_at_table_item (prods : List Production) (nonterminals terminals : List String)
    (C : List State) (Ci : State) (rows : ActionRow × GotoRow) (it : Item) (x : String) :
    (table_item prods nonterminals terminals C Ci rows it).2 x
      = if is_dot_at_end it prods = false ∧
          (go_to Ci (symbol_after_dot it prods) prods nonterminals).isEmpty = false ∧
          set_count terminals (symbol_after_dot it prods) = false ∧
          set_count nonterminals (symbol_after_dot it prods) = true ∧
          x = symbol_after_dot it prods
        then some (state_index C (go_to Ci x prods nonterminals))
        else rows.2 x := by
  unfold table_item
  cases h1 : is_dot_at_end it prods with
  | true =>
    simp only [Bool.true_eq_false, if_false, false_and]
    split <;> rfl
  | false =>
    simp only [if_true, true_and]
    cases h2 : (go_to Ci (symbol_after_dot it prods) prods nonterminals).isEmpty with
    | true => simp only [Bool.true_eq_false, if_false, false_and]
    | false =>
      simp only [if_true, true_and]
      cases h3 : set_count terminals (symbol_after_dot it prods) with
      | true => simp only [if_true, Bool.true_eq_false, false_and, if_false]
      | false =>
        simp only [Bool.false_eq_true, if_false, true_and]
        cases h4 : set_count nonterminals (symbol_after_dot it prods) with
        | false => simp only [Bool.false_eq_true, if_false, false_and]
        | true =>
          simp only [if_true, true_and]
          unfold map_set
          by_cases h5 : x = symbol_after_dot it prods
          · simp only [h5, if_true]
          · simp only [h5, if_false]

/-- GOTO entries: after the items `l`, entry `x` of the GOTO row is
`state_index(C, go_to(Ci, x))` if an item of `l` has the nonterminal `x` (not in
the terminal set) after its dot, and otherwise what it was before. -/
theorem goto_fold (prods : List Production) (nonterminals terminals : List String)
    (C : List State) (Ci : State) (x : String) :
    ∀ (l : List Item) (rows : ActionRow × GotoRow),
      (l.foldl (table_item prods nonterminals terminals C Ci) rows).2 x
        = if ∃ it ∈ l, is_dot_at_end it prods = false ∧
            (go_to Ci (symbol_after_dot it prods) prods nonterminals).isEmpty = false ∧
            set_count terminals (symbol_after_dot it prods) = false ∧
            set_count nonterminals (symbol_after_dot it prods) = true ∧
            x = symbol_after_dot it prods
          then some (state_index C (go_to Ci x prods nonterminals))
          else rows.2 x := by
  intro l
  induction l with
  | nil => intro rows; simp
  | cons it l ih =>
    intro rows
    simp only [List.foldl_cons]
    rw [ih, goto_at_table_item]
    by_cases h1 : ∃ y ∈ l, is_dot_at_end y prods = false ∧
        (go_to Ci (symbol_after_dot y prods) prods nonterminals).isEmpty = false ∧
        set_count terminals (symbol_after_dot y prods) = false ∧
        set_count nonterminals (symbol_after_dot y prods) = true ∧
        x = symbol_after_dot y prods
    · rw [if_pos h1, if_pos]
      obtain ⟨y, hy, r⟩ := h1
      exact ⟨y, List.mem_cons_of_mem _ hy, r⟩
    · rw [if_neg h1]
      by_cases h2 : is_dot_at_end it prods = false ∧
          (go_to Ci (symbol_after_dot it prods) prods nonterminals).isEmpty = false ∧
          set_count terminals (symbol_after_dot it prods) = false ∧
          set_count nonterminals (symbol_after_dot it prods) = true ∧
          x = symbol_after_dot it prods
      · rw [if_pos h2, if_pos]
        exact ⟨it, List.mem_cons_self _ _, h2⟩
      · rw [if_neg h2, if_neg]
        rintro ⟨y, hy, r⟩
        rcases List.mem_cons.mp hy with rfl | hy
        · exact h2 r
        · exact h1 ⟨y, hy, r⟩

/-- On the empty symbol `go_to` is empty: no item is advanced. -/
theorem go_to_empty_symbol (prods : List Production) (nonterminals : List String) (I : State) :
    go_to I "" prods nonterminals = [] := by
  have hJ : ∀ (l : State), l.filterMap (fun it =>
      if symbol_after_dot it prods ≠ "" ∧ symbol_after_dot it prods = "" then
        some (⟨it.prod, it.dot + 1⟩ : Item) else none) = [] := by
    intro l
    induction l with
    | nil => rfl
    | cons x xs ih =>
      rw [List.filterMap_cons]
      have : ¬ (symbol_after_dot x prods ≠ "" ∧ symbol_after_dot x prods = "") :=
        fun h => h.1 h.2
      rw [if_neg this]
      exact ih
  unfold go_to
  simp only
  rw [hJ I]
  exact closure_of_closed prods nonterminals [] List.nodup_nil List.sorted_nil
    (fun it hit => by simp at hit)

/-- A non-empty `go_to` result is on a non-empty symbol. -/
theorem symbol_ne_empty_of_go_to (prods : List Production) (nonterminals : List String)
    (I : State) (X : String) (h : (go_to I X prods nonterminals).isEmpty = false) : X ≠ "" := by
  intro e
  rw [e, go_to_empty_symbol] at h
  simp at h

/-- The `go_to` results of a state of the finished automaton are states, and the
shift targets and GOTO entries of its row are their indices. -/
theorem goto_closed_rows (lines : List GrammarLine) (g : Grammar) (C : List State)
    (tables : List (ActionRow × GotoRow)) (h : main_tables lines = some (g, C, tables))
    (i : Nat) (Ci : State) (rows : ActionRow × GotoRow)
    (hC : C.get? i = some Ci) (hT : tables.get? i = some rows) :
    (∀ it ∈ Ci, symbol_after_dot it g.prods ≠ "" →
      go_to Ci (symbol_after_dot it g.prods) g.prods g.nonterminals ≠ [] ∧
      ∃ j : Nat, j < C.length ∧
        state_index C (go_to Ci (symbol_after_dot it g.prods) g.prods g.nonterminals) = (j : Int) ∧
        C.get? j = some (go_to Ci (symbol_after_dot it g.prods) g.prods g.nonterminals)) ∧
    (∀ (t : String) (j : Int), action_at rows.1 t = ⟨ActionType.SHIFT, j⟩ →
      go_to Ci t g.prods g.nonterminals ≠ [] ∧
      ∃ k : Nat, k < C.length ∧ j = (k : Int) ∧
        C.get? k = some (go_to Ci t g.prods g.nonterminals)) ∧
    (∀ (A : String) (j : Int), rows.2 A = some j →
      go_to Ci A g.prods g.nonterminals ≠ [] ∧
      ∃ k : Nat, k < C.length ∧ j = (k : Int) ∧
        C.get? k = some (go_to Ci A g.prods g.nonterminals)) := by
  obtain ⟨_, _, hcc, htab⟩ := main_tables_spec lines g C tables h
  rw [htab] at hT
  have hrows := build_tables_get _ _ _ _ _ _ _ hC hT
  have hlt : ∀ (j : Nat) (S : State), C.get? j = some S → j < C.length := by
    intro j S hj
    rcases Nat.lt_or_ge j C.length with h1 | h1
    · exact h1
    · rw [List.get?_eq_none.mpr h1] at hj; simp at hj
  have key : ∀ it ∈ Ci, symbol_after_dot it g.prods ≠ "" →
      go_to Ci (symbol_after_dot it g.prods) g.prods g.nonterminals ≠ [] ∧
      ∃ j : Nat, j < C.length ∧
        state_index C (go_to Ci (symbol_after_dot it g.prods) g.prods g.nonterminals) = (j : Int) ∧
        C.get? j = some (go_to Ci (symbol_after_dot it g.prods) g.prods g.nonterminals) := by
    intro it hit hne
    obtain ⟨h1, j, h2, h3⟩ :=
      canonical_collection_goto_closed g.prods g.nonterminals C hcc i Ci hC it hit hne
    exact ⟨h1, j, hlt j _ h3, h2, h3⟩
  refine ⟨key, ?_, ?_⟩
  · intro t j hact
    rw [hrows, action_at_table_row] at hact
    rcases cell_fold_shift_origin g.prods g.nonterminals g.terminals C Ci t Ci {}
      (by rw [hact]) with e | ⟨e, it, hit, _, hgne, _, hsym⟩
    · rw [hact] at e
      exact absurd e (by simp)
    · rw [hact] at e
      have hj : j = state_index C (go_to Ci t g.prods g.nonterminals) := by
        simpa using e
      have hne : symbol_after_dot it g.prods ≠ "" :=
        symbol_ne_empty_of_go_to _ _ _ _ hgne
      obtain ⟨h1, k, h2, h3, h4⟩ := key it hit hne
      rw [← hsym] at h1 h3 h4
      exact ⟨h1, k, h2, by rw [hj, h3], h4⟩
  · intro A j hA
    rw [hrows] at hA
    unfold table_row at hA
    rw [goto_fold] at hA
    split at hA
    · rename_i hex
      obtain ⟨it, hit, _, hgne, _, _, hsym⟩ := hex
      simp only [Option.some.injEq] at hA
      have hne : symbol_after_dot it g.prods ≠ "" :=
        symbol_ne_empty_of_go_to _ _ _ _ hgne
      obtain ⟨h1, k, h2, h3, h4⟩ := key it hit hne
      rw [← hsym] at h1 h3 h4
      exact ⟨h1, k, h2, by rw [← hA, h3], h4⟩
    · simp at hA

/-- C16: the final automaton is closed under `go_to`. When the construction loop
has stopped, for every state `C[i]` and every non-empty symbol `X` after a dot in
`C[i]`, `go_to(C[i], X)` is non-empty and `state_index(C, go_to(C[i], X))` is an
index `j` in `[0, N)` with `C[j] = go_to(C[i], X)`; so every shift target stored in
`ACTION[i]` and every entry stored in `GOTO[i]` is a valid state index whose
state is that `go_to` result. -/
theorem automaton_goto_closed (lines : List GrammarLine) (g : Grammar) (C : List State)
    (tables : List (ActionRow × GotoRow)) (h : main_tables lines = some (g, C, tables))
    (i : Nat) (Ci : State) (rows : ActionRow × GotoRow)
    (hC : C.get? i = some Ci) (hT : tables.get? i = some rows) :
    (∀ it ∈ Ci, symbol_after_dot it g.prods ≠ "" →
      go_to Ci (symbol_after_dot it g.prods) g.prods g.nonterminals ≠ [] ∧
      ∃ j : Nat, j < C.length ∧
        state_index C (go_to Ci (symbol_after_dot it g.prods) g.prods g.nonterminals) = (j : Int) ∧
        C.get? j = some (go_to Ci (symbol_after_dot it g.prods) g.prods g.nonterminals)) ∧
    (∀ (t : String) (j : Int), action_at rows.1 t = ⟨ActionType.SHIFT, j⟩ →
      go_to Ci t g.prods g.nonterminals ≠ [] ∧
      ∃ k : Nat, k < C.length ∧ j = (k : Int) ∧
        C.get? k = some (go_to Ci t g.prods g.nonterminals)) ∧
    (∀ (A : String) (j : Int), rows.2 A = some j →
      go_to Ci A g.prods g.nonterminals ≠ [] ∧
      ∃ k : Nat, k < C.length ∧ j = (k : Int) ∧
        C.get? k = some (go_to Ci A g.prods g.nonterminals)) :=
  goto_closed_rows lines g C tables h i Ci rows hC hT

/-- An instance of `automaton_goto_closed`: state 0 of the example grammar, whose
`go_to` on `id` is state 3, the target of the shift on `id`, and whose `go_to` on
`T` is state 2, the entry `GOTO[0]["T"]`. -/
theorem automaton_goto_closed_witness :
    main_tables linesE = some (grammarE, statesE, tablesE) ∧
    action_at (table_row grammarE.prods grammarE.nonterminals grammarE.terminals statesE
      [⟨0, 0⟩, ⟨1, 0⟩, ⟨2, 0⟩, ⟨3, 0⟩]).1 "id" = ⟨ActionType.SHIFT, 3⟩ ∧
    (go_to [⟨0, 0⟩, ⟨1, 0⟩, ⟨2, 0⟩, ⟨3, 0⟩] "id" grammarE.prods grammarE.nonterminals ≠ [] ∧
      ∃ k : Nat, k < statesE.length ∧ (3 : Int) = (k : Int) ∧
        statesE.get? k
          = some (go_to [⟨0, 0⟩, ⟨1, 0⟩, ⟨2, 0⟩, ⟨3, 0⟩] "id" grammarE.prods
              grammarE.nonterminals)) :=
  ⟨rfl, by decide,
    (automaton_goto_closed linesE grammarE statesE tablesE rfl 0
      [⟨0, 0⟩, ⟨1, 0⟩, ⟨2, 0⟩, ⟨3, 0⟩]
      (table_row grammarE.prods grammarE.nonterminals grammarE.terminals statesE
        [⟨0, 0⟩, ⟨1, 0⟩, ⟨2, 0⟩, ⟨3, 0⟩]) rfl rfl).2.1 "id" 3 (by decide)⟩

/-! ## The parse stack is a path of the automaton -/

/-- State 0 of the finished automaton is `closure({(0, 0)})`. -/
theorem canonical_collection_zero (prods : List Production) (nonterminals : List String)
    (C : List State) (h : canonical_collection prods nonterminals = some C) :
    C.get? 0 = some (closure [⟨0, 0⟩] prods nonterminals) := by
  unfold canonical_collection at h
  refine collect_loop_inv prods nonterminals
    (fun D => D.get? 0 = some (closure [⟨0, 0⟩] prods nonterminals)) ?_ _ _ _ C h rfl
  intro D Ci X hD _ _
  cases D with
  | nil => simp at hD
  | cons d ds => simpa using hD

/-- An item of a `closure` result with the dot past position 0 is an item of
the argument. -/
theorem closure_dot_pos (prods : List Production) (nonterminals : List String) (I : State)
    (x : Item) (hx : x ∈ closure I prods nonterminals) (hd : x.dot ≠ 0) : x ∈ I := by
  rcases (closure_spec prods nonterminals I).2.1 x hx with h | ⟨d0, _⟩
  · exact h
  · exact absurd d0 hd

/-- An item `(p, d + 1)` of `go_to(I, X)` comes from the item `(p, d)` of `I`. -/
theorem go_to_kernel (prods : List Production) (nonterminals : List String) (I : State)
    (X : String) (p d : Nat) (h : (⟨p, d + 1⟩ : Item) ∈ go_to I X prods nonterminals) :
    (⟨p, d⟩ : Item) ∈ I := by
  unfold go_to at h
  have h1 := closure_dot_pos prods nonterminals _ _ h (by simp)
  simp only [List.mem_filterMap] at h1
  obtain ⟨it, hit, e⟩ := h1
  split at e
  · simp only [Option.some.injEq, Item.mk.injEq] at e
    have : it = ⟨p, d⟩ := by
      cases it
      simp only [Item.mk.injEq] at *
      omega
    rw [← this]; exact hit
  · simp at e

/-- The top of a stack that is a path is the index of a state. -/
theorem stack_path_top (prods : List Production) (nonterminals : List String)
    (C : List State) (hz : C.get? 0 = some (closure [⟨0, 0⟩] prods nonterminals))
    (s : Int) (rest : List Int) (h : stack_path prods nonterminals C (s :: rest)) :
    ∃ (k : Nat) (Cs : State), s = (k : Int) ∧ C.get? k = some Cs := by
  cases rest with
  | nil =>
    simp only [stack_path] at h
    exact ⟨0, _, by rw [h]; rfl, hz⟩
  | cons s1 rest =>
    simp only [stack_path] at h
    obtain ⟨⟨k, _, _, _, hk, _, _, _, hCk⟩, _⟩ := h
    exact ⟨k, _, hk, hCk⟩

/-- Below the top of a path stack: if the top state holds the item `(p, d)`, the
stack has more than `d` entries and the state exposed by removing the top `d`
entries holds the item `(p, 0)`. -/
theorem stack_path_descend (prods : List Production) (nonterminals : List String)
    (C : List State) (hz : C.get? 0 = some (closure [⟨0, 0⟩] prods nonterminals)) (p : Nat) :
    ∀ (d : Nat) (s : Int) (rest : List Int) (k : Nat) (Cs : State),
      stack_path prods nonterminals C (s :: rest) → s = (k : Int) → C.get? k = some Cs →
      (⟨p, d⟩ : Item) ∈ Cs →
      ∃ (t : Int) (below : List Int) (kt : Nat) (Ct : State),
        (s :: rest).drop d = t :: below ∧ t = (kt : Int) ∧ C.get? kt = some Ct ∧
        (⟨p, 0⟩ : Item) ∈ Ct ∧ stack_path prods nonterminals C (t :: below) := by
  intro d
  induction d with
  | zero =>
    intro s rest k Cs hpath hs hCs hmem
    exact ⟨s, rest, k, Cs, rfl, hs, hCs, hmem, hpath⟩
  | succ d ih =>
    intro s rest k Cs hpath hs hCs hmem
    cases rest with
    | nil =>
      simp only [stack_path] at hpath
      have hk : k = 0 := by omega
      subst hk
      rw [hz] at hCs
      simp only [Option.some.injEq] at hCs
      subst hCs
      have := closure_dot_pos prods nonterminals _ _ hmem (by simp)
      simp at this
    | cons s1 rest =>
      simp only [stack_path] at hpath
      obtain ⟨⟨k', k1, C1, X, hk', hk1, hC1, _, hCk'⟩, hrest⟩ := hpath
      have hkk : k' = k := by omega
      subst hkk
      rw [hCs] at hCk'
      simp only [Option.some.injEq] at hCk'
      subst hCk'
      have hmem1 := go_to_kernel prods nonterminals C1 X p d hmem
      obtain ⟨t, below, kt, Ct, e1, e2, e3, e4, e5⟩ := ih s1 rest k1 C1 hrest hk1 hC1 hmem1
      exact ⟨t, below, kt, Ct, by simpa using e1, e2, e3, e4, e5⟩

/-- The rows the parse loop reads for a state index are those built from that
state. -/
theorem rows_at_build_tables (prods : List Production) (nonterminals terminals : List String)
    (C : List State) (s : Int) (row : ActionRow × GotoRow)
    (h : rows_at (build_tables prods nonterminals terminals C) s = some row) :
    ∃ (k : Nat) (Cs : State), s = (k : Int) ∧ C.get? k = some Cs ∧
      (build_tables prods nonterminals terminals C).get? k = some row ∧
      row = table_row prods nonterminals terminals C Cs := by
  unfold rows_at at h
  split at h
  · rename_i hs
    refine ⟨s.toNat, ?_⟩
    have hk : s = (s.toNat : Int) := (Int.toNat_of_nonneg hs).symm
    cases hC : C.get? s.toNat with
    | none =>
      unfold build_tables at h
      rw [List.get?_eq_getElem?] at h hC
      rw [List.getElem?_map, hC] at h
      simp at h
    | some Cs =>
      exact ⟨Cs, hk, rfl, h, build_tables_get _ _ _ _ _ _ _ hC h⟩
  · simp at h

theorem rows_at_of_state (prods : List Production) (nonterminals terminals : List String)
    (C : List State) (k : Nat) (Cs : State) (h : C.get? k = some Cs) :
    rows_at (build_tables prods nonterminals terminals C) (k : Int)
      = some (table_row prods nonterminals terminals C Cs) := by
  unfold rows_at build_tables
  rw [if_pos (Int.ofNat_nonneg k), Int.toNat_ofNat, List.get?_eq_getElem?, List.getElem?_map]
  rw [List.get?_eq_getElem?] at h
  rw [h]
  rfl

theorem get?_of_getD_lt (prods : List Production) (k : Nat) (h : k < prods.length) :
    prods.get? k = some (prods.getD k default) := by
  rw [List.get?_eq_getElem?, List.getD_eq_getElem?_getD, List.getElem?_eq_getElem h]
  rfl

/-- What the parse loop finds when the action is `reduce p` and the stack is a
path: `p` is the index of a production `pr` other than 0, the stack has more
than `|rhs(pr)|` entries, and the state exposed by removing the top `|rhs(pr)|`
entries holds the item `(p, 0)`. -/
theorem reduce_exposes (lines : List GrammarLine) (g : Grammar) (C : List State)
    (tables : List (ActionRow × GotoRow)) (h : main_tables lines = some (g, C, tables))
    (stack : List Int) (hpath : stack_path g.prods g.nonterminals C stack)
    (s : Int) (rest : List Int) (a : String) (row : ActionRow × GotoRow) (p : Int)
    (hs : stack = s :: rest) (hrow : rows_at tables s = some row)
    (hact : action_at row.1 a = ⟨ActionType.REDUCE, p⟩) :
    ∃ (pr : Production) (t : Int) (below : List Int) (kt : Nat) (Ct : State),
      0 ≤ p ∧ p ≠ 0 ∧ g.prods.get? p.toNat = some pr ∧
      stack.drop pr.rhs.length = t :: below ∧ pr.rhs.length + 1 ≤ stack.length ∧
      t = (kt : Int) ∧ C.get? kt = some Ct ∧ (⟨p.toNat, 0⟩ : Item) ∈ Ct ∧
      stack_path g.prods g.nonterminals C (t :: below) := by
  obtain ⟨_, _, hcc, htab⟩ := main_tables_spec lines g C tables h
  obtain ⟨hinv, _⟩ := main_tables_inv lines g C tables h
  have hz := canonical_collection_zero g.prods g.nonterminals C hcc
  subst hs
  rw [htab] at hrow
  obtain ⟨k, Cs, hk, hCs, hTk, _⟩ := rows_at_build_tables _ _ _ _ _ _ hrow
  rw [← htab] at hTk
  obtain ⟨_, ⟨it, hit, hp, hp0, hdot⟩, _⟩ :=
    reduce_entry_spec lines g C tables h k Cs row a p hCs hTk hact
  have hval := (hinv.2 Cs (List.get?_mem hCs)).2 it hit
  have hpn : p.toNat = it.prod := by omega
  have hmem : (⟨it.prod, (g.prods.getD it.prod default).rhs.length⟩ : Item) ∈ Cs := by
    have : it = ⟨it.prod, (g.prods.getD it.prod default).rhs.length⟩ := by
      cases it
      simp only [Item.mk.injEq, true_and] at *
      exact hdot
    rw [← this]; exact hit
  obtain ⟨t, below, kt, Ct, e1, e2, e3, e4, e5⟩ :=
    stack_path_descend g.prods g.nonterminals C hz it.prod _ s rest k Cs hpath hk hCs hmem
  refine ⟨g.prods.getD it.prod default, t, below, kt, Ct, by omega, by omega, ?_, e1, ?_,
    e2, e3, by rw [hpn]; exact e4, e5⟩
  · rw [hpn]; exact get?_of_getD_lt g.prods it.prod hval.1
  · have hl := congrArg List.length e1
    simp only [List.length_drop, List.length_cons] at hl ⊢
    omega

/-- Where the dot-0 items of a state come from: in every state of the finished
automaton a dot-0 item is `(0, 0)` or an item of a production whose left-hand
side is the nonterminal after the dot of a member of the state. -/
theorem canonical_collection_origin (prods : List Production) (nonterminals : List String)
    (C : List State) (h : canonical_collection prods nonterminals = some C) :
    ∀ s ∈ C, ∀ x ∈ s, x.dot = 0 → x = ⟨0, 0⟩ ∨
      ∃ y ∈ s, symbol_after_dot y prods ≠ "" ∧
        set_count nonterminals (symbol_after_dot y prods) = true ∧
        (prods.getD x.prod default).lhs = symbol_after_dot y prods := by
  unfold canonical_collection at h
  refine collect_loop_inv prods nonterminals
    (fun D => ∀ s ∈ D, ∀ x ∈ s, x.dot = 0 → x = ⟨0, 0⟩ ∨
      ∃ y ∈ s, symbol_after_dot y prods ≠ "" ∧
        set_count nonterminals (symbol_after_dot y prods) = true ∧
        (prods.getD x.prod default).lhs = symbol_after_dot y prods) ?_ _ _ _ C h ?_
  · intro D Ci X hD _ _ s hs x hx hd
    rcases List.mem_append.mp hs with h1 | h1
    · exact hD s h1 x hx hd
    · have e : s = go_to Ci X prods nonterminals := by simpa using h1
      subst e
      unfold go_to at hx ⊢
      rcases (closure_spec prods nonterminals _).2.1 x hx with h2 | ⟨_, _, y, hy, r⟩
      · simp only [List.mem_filterMap] at h2
        obtain ⟨it, _, e2⟩ := h2
        split at e2
        · simp only [Option.some.injEq] at e2
          rw [← e2] at hd
          simp at hd
        · simp at e2
      · exact Or.inr ⟨y, hy, r⟩
  · intro s hs x hx _
    have e : s = closure [⟨0, 0⟩] prods nonterminals := by simpa using hs
    subst e
    rcases (closure_spec prods nonterminals _).2.1 x hx with h2 | ⟨_, _, y, hy, r⟩
    · left; simpa using h2
    · exact Or.inr ⟨y, hy, r⟩

/-- The left-hand side of a production other than production 0 is a terminal
only if it is `$`. -/
theorem lhs_not_terminal (lines : List GrammarLine) (p : Nat) (hp : p ≠ 0)
    (hlt : p < (augment (read_grammar lines)).prods.length)
    (hd : ((augment (read_grammar lines)).prods.getD p default).lhs ≠ "$") :
    ((augment (read_grammar lines)).prods.getD p default).lhs
      ∉ (augment (read_grammar lines)).terminals := by
  have haug : (augment (read_grammar lines)).prods
      = ⟨((read_grammar lines).prods.getD 0 default).lhs ++ "'",
          [((read_grammar lines).prods.getD 0 default).lhs]⟩ :: line_prods lines := rfl
  obtain ⟨q, rfl⟩ : ∃ q, p = q + 1 := ⟨p - 1, by omega⟩
  rw [haug] at hlt hd ⊢
  rw [List.getD_cons_succ] at hd ⊢
  simp only [List.length_cons] at hlt
  have hq : q < (line_prods lines).length := by omega
  have hmem : (line_prods lines).getD q default ∈ line_prods lines := by
    rw [List.getD_eq_getElem?_getD, List.getElem?_eq_getElem hq]
    exact List.getElem_mem hq
  obtain ⟨l, hl, a, _, e⟩ := (mem_line_prods lines _).mp hmem
  rw [(augment_sets lines _).2]
  rintro (h1 | ⟨_, _, _, h2⟩)
  · exact hd h1
  · exact h2 ⟨l, hl, by rw [e]⟩

/-- The GOTO entry a reduce needs is present: if state `Ct` of the finished
automaton holds the item `(p, 0)` of a production other than 0 whose left-hand
side is not `$`, then `GOTO[t][lhs(p)]` is stored. -/
theorem goto_present (lines : List GrammarLine) (g : Grammar) (C : List State)
    (tables : List (ActionRow × GotoRow)) (h : main_tables lines = some (g, C, tables))
    (kt : Nat) (Ct : State) (hCt : C.get? kt = some Ct) (p : Nat) (hp : p ≠ 0)
    (hmem : (⟨p, 0⟩ : Item) ∈ Ct) (hd : (g.prods.getD p default).lhs ≠ "$") :
    (table_row g.prods g.nonterminals g.terminals C Ct).2 (g.prods.getD p default).lhs
      = some (state_index C (go_to Ct (g.prods.getD p default).lhs g.prods g.nonterminals)) := by
  obtain ⟨_, hg, hcc, _⟩ := main_tables_spec lines g C tables h
  obtain ⟨hinv, _⟩ := main_tables_inv lines g C tables h
  have hval := (hinv.2 Ct (List.get?_mem hCt)).2 _ hmem
  rcases canonical_collection_origin g.prods g.nonterminals C hcc Ct (List.get?_mem hCt)
    ⟨p, 0⟩ hmem rfl with e | ⟨y, hy, hne, hnt, hl⟩
  · simp only [Item.mk.injEq, and_true] at e
    exact absurd e hp
  · simp only at hl
    have hterm : set_count g.terminals (symbol_after_dot y g.prods) = false := by
      rw [← hl]
      unfold set_count
      simp only [decide_eq_false_iff_not]
      subst hg
      exact lhs_not_terminal lines p hp hval.1 hd
    unfold table_row
    rw [goto_fold, if_pos]
    exact ⟨y, hy, not_at_end_of_symbol _ _ hne, go_to_nonempty _ _ _ _ hy hne, hterm, hnt, hl⟩

/-- A production other than production 0 is a production read from the lines. -/
theorem lhs_ne_dollar (lines : List GrammarLine)
    (hd : ∀ p ∈ (read_grammar lines).prods, p.lhs ≠ "$") (p : Nat) (hp : p ≠ 0)
    (pr : Production) (hpr : (augment (read_grammar lines)).prods.get? p = some pr) :
    pr.lhs ≠ "$" := by
  have haug : (augment (read_grammar lines)).prods
      = ⟨((read_grammar lines).prods.getD 0 default).lhs ++ "'",
          [((read_grammar lines).prods.getD 0 default).lhs]⟩ :: (read_grammar lines).prods := rfl
  obtain ⟨q, rfl⟩ : ∃ q, p = q + 1 := ⟨p - 1, by omega⟩
  rw [haug] at hpr
  simp only [List.get?_cons_succ] at hpr
  exact hd pr (List.get?_mem hpr)

/-- One iteration of the parse loop from a configuration whose stack is a path:
a move leads to a stack that is a path again, the iteration stops with an
out-of-range access only when the cursor is past the last token, and it does
not stop in the missing-GOTO branch when no production read has the left-hand
side `$`. -/
theorem parse_step_path (lines : List GrammarLine) (g : Grammar) (C : List State)
    (tables : List (ActionRow × GotoRow)) (h : main_tables lines = some (g, C, tables))
    (tokens : List String) (c : Config)
    (hpath : stack_path g.prods g.nonterminals C c.stack) :
    (∀ c1 m, parse_step g.prods tables tokens c = Step.next c1 m →
      stack_path g.prods g.nonterminals C c1.stack) ∧
    (parse_step g.prods tables tokens c = Step.stop Outcome.outOfRange →
      tokens.get? c.ip = none) ∧
    ((∀ p ∈ (read_grammar lines).prods, p.lhs ≠ "$") →
      ∀ t A, parse_step g.prods tables tokens c ≠ Step.stop (Outcome.missingGoto t A)) := by
  obtain ⟨_, hgaug, hcc, htab⟩ := main_tables_spec lines g C tables h
  have hz := canonical_collection_zero g.prods g.nonterminals C hcc
  cases hs : c.stack with
  | nil => rw [hs] at hpath; simp [stack_path] at hpath
  | cons s rest =>
    rw [hs] at hpath
    obtain ⟨k, Cs, hk, hCs⟩ := stack_path_top g.prods g.nonterminals C hz s rest hpath
    have hrow : rows_at tables s
        = some (table_row g.prods g.nonterminals g.terminals C Cs) := by
      rw [htab, hk]; exact rows_at_of_state _ _ _ _ _ _ hCs
    have hTk : tables.get? k = some (table_row g.prods g.nonterminals g.terminals C Cs) := by
      rw [htab]
      unfold build_tables
      rw [List.get?_eq_getElem?, List.getElem?_map]
      rw [List.get?_eq_getElem?] at hCs
      rw [hCs]; rfl
    cases ha : tokens.get? c.ip with
    | none =>
      have e : parse_step g.prods tables tokens c = Step.stop Outcome.outOfRange := by
        simp only [parse_step, hs, ha]
      rw [e]
      exact ⟨fun c1 m hstep => by simp at hstep, fun _ => rfl, fun _ t A => by simp⟩
    | some a =>
      rcases hact : action_at (table_row g.prods g.nonterminals g.terminals C Cs).1 a
        with ⟨ty, v⟩
      cases ty with
      | ERR =>
        have e : parse_step g.prods tables tokens c = Step.stop (Outcome.parseError a s) := by
          simp only [parse_step, hs, ha, hrow, hact]
        rw [e]
        exact ⟨fun c1 m hstep => by simp at hstep, fun hstop => by simp at hstop,
          fun _ t A => by simp⟩
      | ACCEPT =>
        have e : parse_step g.prods tables tokens c = Step.stop Outcome.accept := by
          simp only [parse_step, hs, ha, hrow, hact]
        rw [e]
        exact ⟨fun c1 m hstep => by simp at hstep, fun hstop => by simp at hstop,
          fun _ t A => by simp⟩
      | SHIFT =>
        have e : parse_step g.prods tables tokens c
            = Step.next ⟨v :: s :: rest, c.ip + 1⟩ (Move.shift a v) := by
          simp only [parse_step, hs, ha, hrow, hact]
        rw [e]
        refine ⟨?_, fun hstop => by simp at hstop, fun _ t A => by simp⟩
        intro c1 m hstep
        simp only [Step.next.injEq] at hstep
        rw [← hstep.1]
        obtain ⟨hne, kv, _, hv, hCv⟩ :=
          (goto_closed_rows lines g C tables h k Cs _ hCs hTk).2.1 a v hact
        simp only [stack_path]
        exact ⟨⟨kv, k, Cs, a, hv, hk, hCs, hne, hCv⟩, hpath⟩
      | REDUCE =>
        obtain ⟨pr, t, below, kt, Ct, hp0, hpne, hpr, hdrop, _, ht, hCt, hmem0, hpt⟩ :=
          reduce_exposes lines g C tables h (s :: rest) hpath s rest a _ v rfl hrow hact
        have hrowt : rows_at tables t
            = some (table_row g.prods g.nonterminals g.terminals C Ct) := by
          rw [htab, ht]; exact rows_at_of_state _ _ _ _ _ _ hCt
        have hTt : tables.get? kt = some (table_row g.prods g.nonterminals g.terminals C Ct) := by
          rw [htab]
          unfold build_tables
          rw [List.get?_eq_getElem?, List.getElem?_map]
          rw [List.get?_eq_getElem?] at hCt
          rw [hCt]; rfl
        cases hg : (table_row g.prods g.nonterminals g.terminals C Ct).2 pr.lhs with
        | none =>
          have e : parse_step g.prods tables tokens c
              = Step.stop (Outcome.missingGoto t pr.lhs) := by
            simp only [parse_step, hs, ha, hrow, hact, hpr, hdrop, hrowt, hg]
            rw [if_neg (by omega)]
          rw [e]
          refine ⟨fun c1 m hstep => by simp at hstep, fun hstop => by simp at hstop, ?_⟩
          intro hd _ _ _
          have hpn : v.toNat ≠ 0 := by omega
          have hprD : g.prods.getD v.toNat default = pr := by
            rw [List.getD_eq_getElem?_getD, ← List.get?_eq_getElem?, hpr]
            rfl
          have hlhs : pr.lhs ≠ "$" := by
            subst hgaug
            exact lhs_ne_dollar lines hd v.toNat hpn pr hpr
          have := goto_present lines g C tables h kt Ct hCt v.toNat hpn hmem0
            (by rw [hprD]; exact hlhs)
          rw [hprD, hg] at this
          simp at this
        | some gt =>
          have e : parse_step g.prods tables tokens c
              = Step.next ⟨gt :: t :: below, c.ip⟩ (Move.reduce v gt) := by
            simp only [parse_step, hs, ha, hrow, hact, hpr, hdrop, hrowt, hg]
            rw [if_neg (by omega)]
          rw [e]
          refine ⟨?_, fun hstop => by simp at hstop, fun _ t A => by simp⟩
          intro c1 m hstep
          simp only [Step.next.injEq] at hstep
          rw [← hstep.1]
          obtain ⟨hne, kg, _, hgk, hCg⟩ :=
            (goto_closed_rows lines g C tables h kt Ct _ hCt hTt).2.2 pr.lhs gt hg
          simp only [stack_path]
          exact ⟨⟨kg, kt, Ct, pr.lhs, hgk, ht, hCt, hne, hCg⟩, hpt⟩

/-- Every bounded run of the parse loop from a path stack ends in a
configuration whose stack is a path, it reports an out-of-range access only
with the cursor past the last token, and it does not end in the missing-GOTO
branch when no production read has the left-hand side `$`. -/
theorem parse_loop_path (lines : List GrammarLine) (g : Grammar) (C : List State)
    (tables : List (ActionRow × GotoRow)) (h : main_tables lines = some (g, C, tables))
    (tokens : List String) :
    ∀ (fuel : Nat) (c : Config), stack_path g.prods g.nonterminals C c.stack →
      stack_path g.prods g.nonterminals C (parse_loop g.prods tables tokens fuel c).final.stack ∧
      ((parse_loop g.prods tables tokens fuel c).outcome = some Outcome.outOfRange →
        tokens.get? (parse_loop g.prods tables tokens fuel c).final.ip = none) ∧
      ((∀ p ∈ (read_grammar lines).prods, p.lhs ≠ "$") → ∀ t A,
        (parse_loop g.prods tables tokens fuel c).outcome
          ≠ some (Outcome.missingGoto t A)) := by
  intro fuel
  induction fuel with
  | zero => intro c hc; simp [parse_loop, hc]
  | succ n ih =>
    intro c hc
    obtain ⟨p1, p2, p3⟩ := parse_step_path lines g C tables h tokens c hc
    simp only [parse_loop]
    cases hstep : parse_step g.prods tables tokens c with
    | stop o =>
      simp only
      refine ⟨hc, ?_, ?_⟩
      · intro ho
        simp only [Option.some.injEq] at ho
        rw [ho] at hstep
        exact p2 hstep
      · intro hd t A ho
        simp only [Option.some.injEq] at ho
        rw [ho] at hstep
        exact p3 hd t A hstep
    | next c1 m =>
      simp only
      exact ih c1 (p1 c1 m hstep)

/-- C18: the parse stack never underflows. For every non-empty grammar and every
input, every configuration the parse loop reaches has a non-empty stack, which
is a path of `go_to` transitions starting at state 0; whenever the action of the
top state (on any token) is `reduce p`, `p` is the index of a production `pr`,
the stack holds at least `|rhs(pr)| + 1` entries, and the state `t` exposed by
removing the top `|rhs(pr)|` entries holds the item `(p, 0)`; the loop reports an
out-of-range access only with the cursor past the last token, never for the
stack. -/
theorem stack_never_underflows (lines : List GrammarLine) (g : Grammar) (C : List State)
    (tables : List (ActionRow × GotoRow)) (h : main_tables lines = some (g, C, tables))
    (input : List String) (fuel : Nat) (r : Run) (hr : main lines input fuel = some r) :
    r.final.stack ≠ [] ∧
    stack_path g.prods g.nonterminals C r.final.stack ∧
    (∀ (s : Int) (rest : List Int) (a : String) (row : ActionRow × GotoRow) (p : Int),
      r.final.stack = s :: rest → rows_at tables s = some row →
      action_at row.1 a = ⟨ActionType.REDUCE, p⟩ →
      ∃ (pr : Production) (t : Int) (below : List Int) (kt : Nat) (Ct : State),
        0 ≤ p ∧ g.prods.get? p.toNat = some pr ∧
        pr.rhs.length + 1 ≤ r.final.stack.length ∧
        r.final.stack.drop pr.rhs.length = t :: below ∧
        t = (kt : Int) ∧ C.get? kt = some Ct ∧ (⟨p.toNat, 0⟩ : Item) ∈ Ct) ∧
    (r.outcome = some Outcome.outOfRange → (input ++ ["$"]).get? r.final.ip = none) := by
  rw [main_of_tables lines input fuel g C tables h] at hr
  simp only [Option.some.injEq] at hr
  have hinit : stack_path g.prods g.nonterminals C (⟨[0], 0⟩ : Config).stack := by
    simp [stack_path]
  obtain ⟨q1, q2, _⟩ := parse_loop_path lines g C tables h (input ++ ["$"]) fuel ⟨[0], 0⟩ hinit
  rw [hr] at q1 q2
  refine ⟨?_, q1, ?_, q2⟩
  · intro e
    rw [e] at q1
    simp [stack_path] at q1
  · intro s rest a row p hs hrow hact
    obtain ⟨pr, t, below, kt, Ct, a1, _, a3, a4, a5, a6, a7, a8, _⟩ :=
      reduce_exposes lines g C tables h r.final.stack q1 s rest a row p hs hrow hact
    exact ⟨pr, t, below, kt, Ct, a1, a3, a5, a4, a6, a7, a8⟩

/-- An instance of `stack_never_underflows`: the example run after six
iterations, with stack `0 1 4 5`. -/
theorem stack_never_underflows_witness :
    main_tables linesE = some (grammarE, statesE, tablesE) ∧
    main linesE ["id", "+", "id"] 6 = some runE6 ∧
    (runE6.final.stack ≠ [] ∧
      stack_path grammarE.prods grammarE.nonterminals statesE runE6.final.stack) :=
  ⟨rfl, by decide,
    ⟨(stack_never_underflows linesE grammarE statesE tablesE rfl ["id", "+", "id"] 6 runE6
        (by decide)).1,
     (stack_never_underflows linesE grammarE statesE tablesE rfl ["id", "+", "id"] 6 runE6
        (by decide)).2.1⟩⟩

/-! ## The input cursor -/

/-- A symbol after a dot is a right-hand-side symbol of a production. -/
theorem symbol_after_dot_mem_rhs (prods : List Production) (it : Item)
    (h : symbol_after_dot it prods ≠ "") :
    ∃ p ∈ prods, symbol_after_dot it prods ∈ p.rhs := by
  obtain ⟨h1, h2⟩ := symbol_after_dot_ne_empty prods it h
  refine ⟨prods.getD it.prod default, ?_, ?_⟩
  · rw [List.getD_eq_getElem?_getD, List.getElem?_eq_getElem h1]
    exact List.getElem_mem h1
  · have e : symbol_after_dot it prods = (prods.getD it.prod default).rhs.getD it.dot "" := by
      unfold symbol_after_dot
      exact if_pos h2
    rw [e]
    generalize (prods.getD it.prod default).rhs = rhs at h2 ⊢
    rw [List.getD_eq_getElem?_getD, List.getElem?_eq_getElem h2]
    exact List.getElem_mem h2

/-- When `$` is on no right-hand side of the augmented grammar, no cell on `$` is
a shift. -/
theorem no_shift_on_dollar (prods : List Production) (nonterminals terminals : List String)
    (C : List State) (Ci : State) (hrhs : ∀ p ∈ prods, "$" ∉ p.rhs) :
    (action_at (table_row prods nonterminals terminals C Ci).1 "$").type ≠ ActionType.SHIFT := by
  intro hty
  rw [action_at_table_row] at hty
  rcases cell_fold_shift_origin prods nonterminals terminals C Ci "$" Ci {} hty with
    e | ⟨_, it, _, _, hgne, _, hsym⟩
  · rw [e] at hty
    simp at hty
  · have hne : symbol_after_dot it prods ≠ "" := symbol_ne_empty_of_go_to _ _ _ _ hgne
    obtain ⟨p, hp, hmem⟩ := symbol_after_dot_mem_rhs prods it hne
    rw [← hsym] at hmem
    exact hrhs p hp hmem

/-- A shift move is made on the token under the cursor, from a cell of the top
state's row that is a shift. -/
theorem parse_step_shift (prods : List Production) (tables : List (ActionRow × GotoRow))
    (tokens : List String) (c c1 : Config) (m : Move)
    (h : parse_step prods tables tokens c = Step.next c1 m) (hm : m.is_shift = true) :
    ∃ (s : Int) (rest : List Int) (a : String) (row : ActionRow × GotoRow),
      c.stack = s :: rest ∧ tokens.get? c.ip = some a ∧ rows_at tables s = some row ∧
      (action_at row.1 a).type = ActionType.SHIFT := by
  unfold parse_step at h
  split at h
  · simp at h
  · rename_i s rest hs
    split at h
    · simp at h
    · rename_i a ha
      split at h
      · simp at h
      · rename_i row hrow
        dsimp only at h
        split at h
        · rename_i hty
          exact ⟨s, rest, a, row, hs, ha, hrow, hty⟩
        · split at h
          · simp at h
          · split at h
            · simp at h
            · split at h
              · simp at h
              · split at h
                · simp at h
                · split at h
                  · simp at h
                  · simp only [Step.next.injEq] at h
                    obtain ⟨_, h2⟩ := h
                    subst h2
                    simp [Move.is_shift] at hm
        · simp at h
        · simp at h

/-- When no cell on `$` is a shift, a move from a cursor within `input ++ ["$"]`
leaves the cursor within it. -/
theorem parse_step_cursor (prods : List Production) (nonterminals terminals : List String)
    (C : List State) (input : List String) (hrhs : ∀ p ∈ prods, "$" ∉ p.rhs)
    (c c1 : Config) (m : Move)
    (h : parse_step prods (build_tables prods nonterminals terminals C) (input ++ ["$"]) c
      = Step.next c1 m) :
    c1.ip < (input ++ ["$"]).length := by
  obtain ⟨h1, h2⟩ := parse_step_ip prods _ _ c c1 m h
  cases hm : m.is_shift with
  | false =>
    rw [hm] at h2
    simp only [Bool.false_eq_true, if_false, Nat.add_zero] at h2
    rw [h2]; exact h1
  | true =>
    rw [hm] at h2
    simp only [if_true] at h2
    obtain ⟨s, rest, a, row, _, ha, hrow, hty⟩ := parse_step_shift prods _ _ c c1 m h hm
    obtain ⟨_, Cs, _, _, _, hrowe⟩ := rows_at_build_tables _ _ _ _ _ _ hrow
    have hlen : (input ++ ["$"]).length = input.length + 1 := by simp
    rw [h2, hlen]
    rw [hlen] at h1
    rcases Nat.lt_or_ge c.ip input.length with hlt | hge
    · omega
    · exfalso
      have hip : c.ip = input.length := by omega
      rw [hip, List.get?_eq_getElem?, List.getElem?_append_right (Nat.le_refl _)] at ha
      simp only [Nat.sub_self, List.getElem?_cons_zero, Option.some.injEq] at ha
      rw [← ha, hrowe] at hty
      exact no_shift_on_dollar prods nonterminals terminals C Cs hrhs hty

/-- When no cell on `$` is a shift, every bounded run from a cursor within
`input ++ ["$"]` ends with the cursor within it. -/
theorem parse_loop_cursor (prods : List Production) (nonterminals terminals : List String)
    (C : List State) (input : List String) (hrhs : ∀ p ∈ prods, "$" ∉ p.rhs) :
    ∀ (fuel : Nat) (c : Config), c.ip < (input ++ ["$"]).length →
      (parse_loop prods (build_tables prods nonterminals terminals C) (input ++ ["$"])
        fuel c).final.ip < (input ++ ["$"]).length := by
  intro fuel
  induction fuel with
  | zero => intro c hc; simpa [parse_loop] using hc
  | succ n ih =>
    intro c hc
    simp only [parse_loop]
    cases hstep : parse_step prods (build_tables prods nonterminals terminals C)
        (input ++ ["$"]) c with
    | stop o => exact hc
    | next c1 m =>
      exact ih c1 (parse_step_cursor prods nonterminals terminals C input hrhs c c1 m hstep)

/-- C20 (as stated, refuted): for the grammar line `$ -> a`, in which `$` is on no
right-hand side, and the empty input (token sequence `$`), the loop shifts `$`
(production 0 is `$' -> $`), the cursor becomes 1, the length of the token
sequence, and the next read of the current token is out of range. -/
theorem cursor_leaves_range :
    (∀ p ∈ (read_grammar linesDollar).prods, "$" ∉ p.rhs) ∧
    main linesDollar [] 2
      = some ⟨[Move.shift "$" 1], ⟨[1, 0], 1⟩, some Outcome.outOfRange⟩ ∧
    ¬ (1 < (([] : List String) ++ ["$"]).length) := by
  decide

/-- C20 (amended): the input cursor stays in range. For every non-empty grammar in
which `$` occurs on no production's right-hand side and is not the left-hand
side of the first production (so that `$` is on no right-hand side of the
augmented grammar either), and for every input (to which `$` is appended): no
cell `ACTION[i]["$"]` is a shift, every configuration the parse loop reaches has
its cursor strictly below the length of the token sequence, and no run ends
with an out-of-range access. -/
theorem cursor_in_range (lines : List GrammarLine) (g : Grammar) (C : List State)
    (tables : List (ActionRow × GotoRow)) (h : main_tables lines = some (g, C, tables))
    (hrhs : ∀ p ∈ (read_grammar lines).prods, "$" ∉ p.rhs)
    (hstart : ((read_grammar lines).prods.getD 0 default).lhs ≠ "$")
    (input : List String) (fuel : Nat) (r : Run) (hr : main lines input fuel = some r) :
    r.final.ip < (input ++ ["$"]).length ∧
    r.outcome ≠ some Outcome.outOfRange ∧
    (∀ (i : Nat) (rows : ActionRow × GotoRow), tables.get? i = some rows →
      (action_at rows.1 "$").type ≠ ActionType.SHIFT) := by
  obtain ⟨_, hgaug, _, htab⟩ := main_tables_spec lines g C tables h
  have haug : ∀ p ∈ g.prods, "$" ∉ p.rhs := by
    intro p hp
    rw [hgaug] at hp
    have e : (augment (read_grammar lines)).prods
        = ⟨((read_grammar lines).prods.getD 0 default).lhs ++ "'",
            [((read_grammar lines).prods.getD 0 default).lhs]⟩ :: (read_grammar lines).prods :=
      rfl
    rw [e] at hp
    rcases List.mem_cons.mp hp with rfl | hp
    · simp only [List.mem_singleton]
      exact fun e1 => hstart e1.symm
    · exact hrhs p hp
  rw [main_of_tables lines input fuel g C tables h] at hr
  simp only [Option.some.injEq] at hr
  have hinit : stack_path g.prods g.nonterminals C (⟨[0], 0⟩ : Config).stack := by
    simp [stack_path]
  obtain ⟨_, q2, _⟩ := parse_loop_path lines g C tables h (input ++ ["$"]) fuel ⟨[0], 0⟩ hinit
  have hcur := parse_loop_cursor g.prods g.nonterminals g.terminals C input haug fuel ⟨[0], 0⟩
    (by simp)
  rw [← htab, hr] at hcur
  rw [hr] at q2
  refine ⟨hcur, ?_, ?_⟩
  · intro ho
    have := q2 ho
    rw [List.get?_eq_none] at this
    omega
  · intro i rows hT
    rw [htab] at hT
    unfold build_tables at hT
    rw [List.get?_eq_getElem?, List.getElem?_map] at hT
    cases hCi : C[i]? with
    | none => rw [hCi] at hT; simp at hT
    | some Ci =>
      rw [hCi] at hT
      simp only [Option.map_some', Option.some.injEq] at hT
      rw [← hT]
      exact no_shift_on_dollar g.prods g.nonterminals g.terminals C Ci haug

/-- An instance of `cursor_in_range`: the example run after six iterations has its
cursor on the last token `$`. -/
theorem cursor_in_range_witness :
    main_tables linesE = some (grammarE, statesE, tablesE) ∧
    (∀ p ∈ (read_grammar linesE).prods, "$" ∉ p.rhs) ∧
    ((read_grammar linesE).prods.getD 0 default).lhs ≠ "$" ∧
    main linesE ["id", "+", "id"] 6 = some runE6 ∧
    (runE6.final.ip < (["id", "+", "id"] ++ ["$"]).length ∧
      runE6.outcome ≠ some Outcome.outOfRange) :=
  ⟨rfl, by decide, by decide, by decide,
    ⟨(cursor_in_range linesE grammarE statesE tablesE rfl (by decide) (by decide)
        ["id", "+", "id"] 6 runE6 (by decide)).1,
     (cursor_in_range linesE grammarE statesE tablesE rfl (by decide) (by decide)
        ["id", "+", "id"] 6 runE6 (by decide)).2.1⟩⟩

/-! ## The missing-GOTO branch -/

/-- C19 (as stated, refuted): for the grammar line `S -> a $`, in which no production
has the left-hand side `$`, and the input `a`, the run shifts `a`, shifts `$`,
and then reads the current token past the end of the token sequence: it ends
neither in accept nor in the parse-error branch, and it does not go on. -/
theorem run_past_end_marker :
    (read_grammar linesEnd).prods ≠ [] ∧
    (∀ p ∈ (read_grammar linesEnd).prods, p.lhs ≠ "$") ∧
    main linesEnd ["a"] 3
      = some ⟨[Move.shift "a" 2, Move.shift "$" 3], ⟨[3, 2, 0], 2⟩,
          some Outcome.outOfRange⟩ ∧
    (["a"] ++ ["$"]).get? 2 = none := by
  decide

/-- C19 (amended): the missing-GOTO branch is unreachable for well-formed grammars.
For every non-empty grammar in which no production has the left-hand side `$`,
and for every input: no run of the parse loop ends in the missing-GOTO branch;
in every configuration the loop reaches, whenever the action of the top state
is `reduce p` and `t` is the state exposed by removing the top `|rhs(p)|` entries,
`GOTO[t][lhs(p)]` is present; a run that ends does so in accept, in the
parse-error branch, or by reading the current token with the cursor past the
last token; and if `$` also occurs on no right-hand side, a run that ends does
so in accept or in the parse-error branch. -/
theorem goto_never_missing (lines : List GrammarLine) (g : Grammar) (C : List State)
    (tables : List (ActionRow × GotoRow)) (h : main_tables lines = some (g, C, tables))
    (hd : ∀ p ∈ (read_grammar lines).prods, p.lhs ≠ "$")
    (input : List String) (fuel : Nat) (r : Run) (hr : main lines input fuel = some r) :
    (∀ t A, r.outcome ≠ some (Outcome.missingGoto t A)) ∧
    (∀ (s : Int) (rest : List Int) (a : String) (row : ActionRow × GotoRow) (p : Int),
      r.final.stack = s :: rest → rows_at tables s = some row →
      action_at row.1 a = ⟨ActionType.REDUCE, p⟩ →
      ∃ (pr : Production) (t : Int) (below : List Int) (rowt : ActionRow × GotoRow) (gt : Int),
        g.prods.get? p.toNat = some pr ∧
        r.final.stack.drop pr.rhs.length = t :: below ∧
        rows_at tables t = some rowt ∧ rowt.2 pr.lhs = some gt) ∧
    (∀ o, r.outcome = some o →
      o = Outcome.accept ∨ (∃ a s, o = Outcome.parseError a s) ∨
      (o = Outcome.outOfRange ∧ (input ++ ["$"]).length ≤ r.final.ip)) ∧
    ((∀ p ∈ (read_grammar lines).prods, "$" ∉ p.rhs) →
      ∀ o, r.outcome = some o → o = Outcome.accept ∨ ∃ a s, o = Outcome.parseError a s) := by
  obtain ⟨hne, hgaug, _, htab⟩ := main_tables_spec lines g C tables h
  rw [main_of_tables lines input fuel g C tables h] at hr
  simp only [Option.some.injEq] at hr
  have hinit : stack_path g.prods g.nonterminals C (⟨[0], 0⟩ : Config).stack := by
    simp [stack_path]
  obtain ⟨q1, q2, q3⟩ := parse_loop_path lines g C tables h (input ++ ["$"]) fuel ⟨[0], 0⟩ hinit
  have hclass : ∀ o, r.outcome = some o →
      o = Outcome.accept ∨ (∃ a s, o = Outcome.parseError a s) ∨
      (o = Outcome.outOfRange ∧ (input ++ ["$"]).length ≤ r.final.ip) := by
    intro o ho
    cases o with
    | accept => exact Or.inl rfl
    | parseError a s => exact Or.inr (Or.inl ⟨a, s, rfl⟩)
    | missingGoto t A =>
      rw [hr] at q3
      exact absurd ho (q3 hd t A)
    | outOfRange =>
      rw [hr] at q2
      exact Or.inr (Or.inr ⟨rfl, List.get?_eq_none.mp (q2 ho)⟩)
  rw [hr] at q1 q3
  refine ⟨q3 hd, ?_, hclass, ?_⟩
  · intro s rest a row p hs hrow hact
    obtain ⟨pr, t, below, kt, Ct, a1, a2, a3, a4, _, a6, a7, a8, _⟩ :=
      reduce_exposes lines g C tables h r.final.stack q1 s rest a row p hs hrow hact
    have hpn : p.toNat ≠ 0 := by omega
    have hprD : g.prods.getD p.toNat default = pr := by
      rw [List.getD_eq_getElem?_getD, ← List.get?_eq_getElem?, a3]
      rfl
    have hlhs : pr.lhs ≠ "$" := by
      subst hgaug
      exact lhs_ne_dollar lines hd p.toNat hpn pr a3
    have hgo := goto_present lines g C tables h kt Ct a7 p.toNat hpn a8
      (by rw [hprD]; exact hlhs)
    rw [hprD] at hgo
    refine ⟨pr, t, below, table_row g.prods g.nonterminals g.terminals C Ct, _, a3, a4, ?_, hgo⟩
    rw [htab, a6]
    exact rows_at_of_state _ _ _ _ _ _ a7
  · intro hrhs o ho
    have hstart : ((read_grammar lines).prods.getD 0 default).lhs ≠ "$" := by
      cases hp : (read_grammar lines).prods with
      | nil => exact absurd hp hne
      | cons p0 rest =>
        rw [List.getD_cons_zero]
        exact hd p0 (by rw [hp]; exact List.mem_cons_self _ _)
    have haug : ∀ p ∈ g.prods, "$" ∉ p.rhs := by
      intro p hp
      rw [hgaug] at hp
      have e : (augment (read_grammar lines)).prods
          = ⟨((read_grammar lines).prods.getD 0 default).lhs ++ "'",
              [((read_grammar lines).prods.getD 0 default).lhs]⟩ :: (read_grammar lines).prods :=
        rfl
      rw [e] at hp
      rcases List.mem_cons.mp hp with rfl | hp
      · simp only [List.mem_singleton]
        exact fun e1 => hstart e1.symm
      · exact hrhs p hp
    have hcur := parse_loop_cursor g.prods g.nonterminals g.terminals C input haug fuel ⟨[0], 0⟩
      (by simp)
    rw [← htab, hr] at hcur
    rcases hclass o ho with h1 | h1 | ⟨_, h2⟩
    · exact Or.inl h1
    · exact Or.inr h1
    · omega

/-- An instance of `goto_never_missing`: the example run after six iterations;
no production of the example grammar has the left-hand side `$`. -/
theorem goto_never_missing_witness :
    main_tables linesE = some (grammarE, statesE, tablesE) ∧
    (∀ p ∈ (read_grammar linesE).prods, p.lhs ≠ "$") ∧
    main linesE ["id", "+", "id"] 6 = some runE6 ∧
    (∀ t A, runE6.outcome ≠ some (Outcome.missingGoto t A)) :=
  ⟨rfl, by decide, by decide,
    (goto_never_missing linesE grammarE statesE tablesE rfl (by decide) ["id", "+", "id"] 6
      runE6 (by decide)).1⟩

/-! ## Termination of the parse loop -/

/-- An item `(p, d + 1)` of `go_to(I, X)` comes from the item `(p, d)` of `I`,
whose dot is in front of `X`. -/
theorem go_to_kernel_symbol (prods : List Production) (nonterminals : List String)
    (I : State) (X : String) (p d : Nat)
    (h : (⟨p, d + 1⟩ : Item) ∈ go_to I X prods nonterminals) :
    (⟨p, d⟩ : Item) ∈ I ∧ symbol_after_dot ⟨p, d⟩ prods = X ∧ X ≠ "" := by
  unfold go_to at h
  have h1 := closure_dot_pos prods nonterminals _ _ h (by simp)
  simp only [List.mem_filterMap] at h1
  obtain ⟨it, hit, e⟩ := h1
  split at e
  · rename_i hc
    simp only [Option.some.injEq, Item.mk.injEq] at e
    have : it = ⟨p, d⟩ := by
      cases it
      simp only [Item.mk.injEq] at *
      omega
    rw [this] at hit hc
    exact ⟨hit, hc.2, by rw [← hc.2]; exact hc.1⟩
  · simp at e

/-- A production of the augmented grammar other than production 0 is a
production read from the lines. -/
theorem production_read (lines : List GrammarLine) (p : Nat) (hp : p ≠ 0) (pr : Production)
    (hpr : (augment (read_grammar lines)).prods.get? p = some pr) :
    pr ∈ (read_grammar lines).prods := by
  have haug : (augment (read_grammar lines)).prods
      = ⟨((read_grammar lines).prods.getD 0 default).lhs ++ "'",
          [((read_grammar lines).prods.getD 0 default).lhs]⟩ :: (read_grammar lines).prods := rfl
  obtain ⟨q, rfl⟩ : ∃ q, p = q + 1 := ⟨p - 1, by omega⟩
  rw [haug] at hpr
  simp only [List.get?_cons_succ] at hpr
  exact List.get?_mem hpr

/-- Every move of the parse loop makes progress, in a grammar without empty
right-hand sides whose unit productions are ranked: from a path stack whose top
state was entered on `X`, a move leads to a path stack whose top state was
entered on some `X1`, and it either advances the cursor, or keeps the cursor and
shortens the stack, or keeps both and raises the rank of the entry symbol. -/
theorem parse_step_progress (lines : List GrammarLine) (g : Grammar) (C : List State)
    (tables : List (ActionRow × GotoRow)) (h : main_tables lines = some (g, C, tables))
    (tokens : List String) (rank : String → Nat) (R : Nat)
    (hne : ∀ p ∈ (read_grammar lines).prods, p.rhs ≠ [])
    (hrank : ∀ p ∈ (read_grammar lines).prods, ∀ X, p.rhs = [X] → rank X < rank p.lhs)
    (hR : ∀ p ∈ (read_grammar lines).prods, rank p.lhs ≤ R)
    (c : Config) (X : String) (hpath : stack_path g.prods g.nonterminals C c.stack)
    (hentry : stack_entry g.prods g.nonterminals C X c.stack)
    (c1 : Config) (m : Move) (hstep : parse_step g.prods tables tokens c = Step.next c1 m) :
    stack_path g.prods g.nonterminals C c1.stack ∧
    ∃ X1, stack_entry g.prods g.nonterminals C X1 c1.stack ∧
      ((c1.ip = c.ip + 1 ∧ c.ip < tokens.length) ∨
       (c1.ip = c.ip ∧ c1.stack.length < c.stack.length) ∨
       (c1.ip = c.ip ∧ c1.stack.length = c.stack.length ∧ rank X < rank X1 ∧ rank X1 ≤ R)) := by
  obtain ⟨_, hgaug, hcc, htab⟩ := main_tables_spec lines g C tables h
  have hz := canonical_collection_zero g.prods g.nonterminals C hcc
  refine ⟨(parse_step_path lines g C tables h tokens c hpath).1 c1 m hstep, ?_⟩
  cases hs : c.stack with
  | nil => rw [hs] at hpath; simp [stack_path] at hpath
  | cons s rest =>
    rw [hs] at hpath hentry
    obtain ⟨k, Cs, hk, hCs⟩ := stack_path_top g.prods g.nonterminals C hz s rest hpath
    have hrow : rows_at tables s
        = some (table_row g.prods g.nonterminals g.terminals C Cs) := by
      rw [htab, hk]; exact rows_at_of_state _ _ _ _ _ _ hCs
    have hTk : tables.get? k = some (table_row g.prods g.nonterminals g.terminals C Cs) := by
      rw [htab]
      unfold build_tables
      rw [List.get?_eq_getElem?, List.getElem?_map]
      rw [List.get?_eq_getElem?] at hCs
      rw [hCs]; rfl
    cases ha : tokens.get? c.ip with
    | none =>
      have e : parse_step g.prods tables tokens c = Step.stop Outcome.outOfRange := by
        simp only [parse_step, hs, ha]
      rw [e] at hstep
      simp at hstep
    | some a =>
      have hip : c.ip < tokens.length := by
        rcases Nat.lt_or_ge c.ip tokens.length with h1 | h1
        · exact h1
        · rw [List.get?_eq_none.mpr h1] at ha; simp at ha
      rcases hact : action_at (table_row g.prods g.nonterminals g.terminals C Cs).1 a
        with ⟨ty, v⟩
      cases ty with
      | ERR =>
        have e : parse_step g.prods tables tokens c = Step.stop (Outcome.parseError a s) := by
          simp only [parse_step, hs, ha, hrow, hact]
        rw [e] at hstep
        simp at hstep
      | ACCEPT =>
        have e : parse_step g.prods tables tokens c = Step.stop Outcome.accept := by
          simp only [parse_step, hs, ha, hrow, hact]
        rw [e] at hstep
        simp at hstep
      | SHIFT =>
        have e : parse_step g.prods tables tokens c
            = Step.next ⟨v :: s :: rest, c.ip + 1⟩ (Move.shift a v) := by
          simp only [parse_step, hs, ha, hrow, hact]
        rw [e] at hstep
        simp only [Step.next.injEq] at hstep
        rw [← hstep.1]
        obtain ⟨_, kv, _, hv, hCv⟩ :=
          (goto_closed_rows lines g C tables h k Cs _ hCs hTk).2.1 a v hact
        exact ⟨a, ⟨kv, k, Cs, hv, hk, hCs, hCv⟩, Or.inl ⟨rfl, hip⟩⟩
      | REDUCE =>
        obtain ⟨pr, t, below, kt, Ct, hp0, hpne, hpr, hdrop, hlen, ht, hCt, hmem0, hpt⟩ :=
          reduce_exposes lines g C tables h (s :: rest) hpath s rest a _ v rfl hrow hact
        have hrowt : rows_at tables t
            = some (table_row g.prods g.nonterminals g.terminals C Ct) := by
          rw [htab, ht]; exact rows_at_of_state _ _ _ _ _ _ hCt
        have hTt : tables.get? kt = some (table_row g.prods g.nonterminals g.terminals C Ct) := by
          rw [htab]
          unfold build_tables
          rw [List.get?_eq_getElem?, List.getElem?_map]
          rw [List.get?_eq_getElem?] at hCt
          rw [hCt]; rfl
        cases hg : (table_row g.prods g.nonterminals g.terminals C Ct).2 pr.lhs with
        | none =>
          have e : parse_step g.prods tables tokens c
              = Step.stop (Outcome.missingGoto t pr.lhs) := by
            simp only [parse_step, hs, ha, hrow, hact, hpr, hdrop, hrowt, hg]
            rw [if_neg (by omega)]
          rw [e] at hstep
          simp at hstep
        | some gt =>
          have e : parse_step g.prods tables tokens c
              = Step.next ⟨gt :: t :: below, c.ip⟩ (Move.reduce v gt) := by
            simp only [parse_step, hs, ha, hrow, hact, hpr, hdrop, hrowt, hg]
            rw [if_neg (by omega)]
          rw [e] at hstep
          simp only [Step.next.injEq] at hstep
          rw [← hstep.1]
          obtain ⟨_, kg, _, hgk, hCg⟩ :=
            (goto_closed_rows lines g C tables h kt Ct _ hCt hTt).2.2 pr.lhs gt hg
          refine ⟨pr.lhs, ⟨kg, kt, Ct, hgk, ht, hCt, hCg⟩, Or.inr ?_⟩
          have hpn : v.toNat ≠ 0 := by omega
          have hprmem : pr ∈ (read_grammar lines).prods := by
            subst hgaug
            exact production_read lines v.toNat hpn pr hpr
          have hpos : pr.rhs.length ≠ 0 := by
            intro e0
            exact hne pr hprmem (List.length_eq_zero.mp e0)
          have hl := congrArg List.length hdrop
          simp only [List.length_drop, List.length_cons] at hl hlen ⊢
          by_cases h1 : pr.rhs.length = 1
          · right
            refine ⟨trivial, by omega, ?_, hR pr hprmem⟩
            -- the top state holds the complete item of the unit production
            obtain ⟨_, ⟨it, hit, hitp, _, hdot⟩, _⟩ :=
              reduce_entry_spec lines g C tables h k Cs _ a v hCs hTk hact
            have hpnat : v.toNat = it.prod := by omega
            have hprD : g.prods.getD it.prod default = pr := by
              rw [← hpnat, List.getD_eq_getElem?_getD, ← List.get?_eq_getElem?, hpr]
              rfl
            rw [hprD, h1] at hdot
            cases rest with
            | nil => simp only [List.length_nil] at hlen; omega
            | cons s1 rest1 =>
              simp only [stack_entry] at hentry
              obtain ⟨k', k1, C1, hk', _, _, hCk'⟩ := hentry
              have hkk : k' = k := by omega
              subst hkk
              rw [hCs] at hCk'
              simp only [Option.some.injEq] at hCk'
              have hit1 : (⟨it.prod, 0 + 1⟩ : Item) ∈ go_to C1 X g.prods g.nonterminals := by
                rw [← hCk']
                have : it = ⟨it.prod, 0 + 1⟩ := by
                  cases it
                  simp only [Item.mk.injEq, true_and] at *
                  omega
                rw [← this]; exact hit
              obtain ⟨_, hsym, _⟩ := go_to_kernel_symbol _ _ _ _ _ _ hit1
              unfold symbol_after_dot at hsym
              simp only at hsym
              rw [hprD, if_pos (by omega)] at hsym
              apply hrank pr hprmem X
              match hrhs : pr.rhs, h1, hsym with
              | [Y], _, hsym => simp at hsym; rw [hsym]
          · left
            exact ⟨trivial, by omega⟩

/-- The parse loop ends, in a grammar without empty right-hand sides whose unit
productions are ranked: from every configuration whose stack is a path, some
number of iterations reaches an outcome. The cursor cannot pass the last
token, between two shifts the stack cannot grow, and at constant stack height
each reduce raises the rank of the symbol on which the top state was entered. -/
theorem parse_loop_reaches_outcome (lines : List GrammarLine) (g : Grammar) (C : List State)
    (tables : List (ActionRow × GotoRow)) (h : main_tables lines = some (g, C, tables))
    (tokens : List String) (rank : String → Nat) (R : Nat)
    (hne : ∀ p ∈ (read_grammar lines).prods, p.rhs ≠ [])
    (hrank : ∀ p ∈ (read_grammar lines).prods, ∀ X, p.rhs = [X] → rank X < rank p.lhs)
    (hR : ∀ p ∈ (read_grammar lines).prods, rank p.lhs ≤ R) :
    ∀ (a b d : Nat) (c : Config) (X : String),
      stack_path g.prods g.nonterminals C c.stack →
      stack_entry g.prods g.nonterminals C X c.stack →
      tokens.length - c.ip = a → c.stack.length = b → R - rank X = d →
      ∃ n, (parse_loop g.prods tables tokens n c).outcome ≠ none := by
  intro a
  induction a using Nat.strong_induction_on with
  | _ a iha =>
    intro b
    induction b using Nat.strong_induction_on with
    | _ b ihb =>
      intro d
      induction d using Nat.strong_induction_on with
      | _ d ihd =>
        intro c X hpath hentry ha hb hd
        cases hstep : parse_step g.prods tables tokens c with
        | stop o =>
          exact ⟨1, by simp [parse_loop, hstep]⟩
        | next c1 m =>
          obtain ⟨hp1, X1, he1, hcase⟩ :=
            parse_step_progress lines g C tables h tokens rank R hne hrank hR c X hpath hentry
              c1 m hstep
          have key : ∃ n, (parse_loop g.prods tables tokens n c1).outcome ≠ none := by
            rcases hcase with ⟨h1, h2⟩ | ⟨h1, h2⟩ | ⟨h1, h2, h3, h4⟩
            · exact iha (tokens.length - c1.ip) (by omega) _ _ c1 X1 hp1 he1 rfl rfl rfl
            · exact ihb c1.stack.length (by omega) _ c1 X1 hp1 he1 (by omega) rfl rfl
            · exact ihd (R - rank X1) (by omega) c1 X1 hp1 he1 (by omega) (by omega) rfl
          obtain ⟨n, hn⟩ := key
          exact ⟨n + 1, by rw [parse_loop_outcome_next _ _ _ _ _ _ _ hstep]; exact hn⟩

/-- A grammar whose unit productions have no cycle can be ranked: there is a
rank of the symbols, bounded on the left-hand sides, that every unit production
`A -> B` lowers from `A` to `B`. The rank of `A` is the number of symbols reached
from `A` by unit productions. -/
theorem unit_rank_exists (prods : List Production)
    (hacyc : ∀ A, ¬ Relation.TransGen (unit_step prods) A A) :
    ∃ (rank : String → Nat) (R : Nat),
      (∀ p ∈ prods, ∀ X, p.rhs = [X] → rank X < rank p.lhs) ∧
      (∀ p ∈ prods, rank p.lhs ≤ R) := by
  classical
  let S : Finset String := (prods.map fun p => p.rhs.headD "").toFinset
  refine ⟨fun A => (S.filter fun B => Relation.TransGen (unit_step prods) B A).card, S.card,
    ?_, ?_⟩
  · intro p hp X hX
    have hstep : unit_step prods X p.lhs := ⟨p, hp, rfl, hX⟩
    apply Finset.card_lt_card
    rw [Finset.ssubset_iff_of_subset]
    · refine ⟨X, ?_, ?_⟩
      · simp only [Finset.mem_filter, List.mem_toFinset, List.mem_map, S]
        exact ⟨⟨p, hp, by rw [hX]; rfl⟩, Relation.TransGen.single hstep⟩
      · simp only [Finset.mem_filter, not_and]
        exact fun _ => hacyc X
    · intro B hB
      simp only [Finset.mem_filter] at hB ⊢
      exact ⟨hB.1, Relation.TransGen.tail hB.2 hstep⟩
  · intro p _
    exact Finset.card_filter_le _ _

/-- A grammar whose unit productions are ranked has no cycle of unit
productions. -/
theorem unit_acyclic_of_rank (prods : List Production) (rank : String → Nat)
    (hrank : ∀ p ∈ prods, p.rhs.length = 1 → rank (p.rhs.headD "") < rank p.lhs) :
    ∀ A, ¬ Relation.TransGen (unit_step prods) A A := by
  have hstep : ∀ B A, unit_step prods B A → rank B < rank A := by
    rintro B A ⟨p, hp, rfl, hB⟩
    have := hrank p hp (by rw [hB]; rfl)
    rw [hB] at this
    exact this
  have htrans : ∀ B A, Relation.TransGen (unit_step prods) B A → rank B < rank A := by
    intro B A hBA
    induction hBA with
    | single h1 => exact hstep _ _ h1
    | tail _ h2 ih => exact Nat.lt_trans ih (hstep _ _ h2)
  intro A hA
  exact Nat.lt_irrefl _ (htrans A A hA)

/-- The tables are built for every non-empty grammar. -/
theorem main_tables_exists (lines : List GrammarLine) (hne : (read_grammar lines).prods ≠ []) :
    ∃ C tables, main_tables lines = some (augment (read_grammar lines), C, tables) := by
  have haug : (augment (read_grammar lines)).prods ≠ [] := by
    unfold augment
    simp
  obtain ⟨D, e, _⟩ := collect_loop_terminates (augment (read_grammar lines)).prods
    (augment (read_grammar lines)).nonterminals
    (2 ^ item_count (augment (read_grammar lines)).prods + 1)
    (by omega) (2 ^ item_count (augment (read_grammar lines)).prods + 1)
    [closure [⟨0, 0⟩] (augment (read_grammar lines)).prods
      (augment (read_grammar lines)).nonterminals]
    (automaton_inv_init _ _ haug)
    (by simp only [List.length_singleton]; omega)
  have hcc : canonical_collection (augment (read_grammar lines)).prods
      (augment (read_grammar lines)).nonterminals = some D := e
  refine ⟨D, build_tables (augment (read_grammar lines)).prods
    (augment (read_grammar lines)).nonterminals (augment (read_grammar lines)).terminals D, ?_⟩
  unfold main_tables
  simp only [if_neg hne, hcc]

/-- For the grammar lines `S -> A S | a`, `A -> eps` and the empty input, whatever
the bound on the number of iterations, the run is still going: on `$` states 0
and 1 reduce by `A -> eps`, which removes nothing from the stack and pushes
`GOTO[0]["A"] = GOTO[1]["A"] = 1`. -/
theorem eps_run_outcome :
    ∀ fuel, (main linesEps [] fuel).map Run.outcome = some none := by
  intro fuel
  have ht : main_tables linesEps
      = some (augment (read_grammar linesEps),
          [[⟨0, 0⟩, ⟨1, 0⟩, ⟨2, 0⟩, ⟨3, 0⟩], [⟨1, 0⟩, ⟨1, 1⟩, ⟨2, 0⟩, ⟨3, 0⟩], [⟨0, 1⟩],
            [⟨2, 1⟩], [⟨1, 2⟩]],
          build_tables (augment (read_grammar linesEps)).prods
            (augment (read_grammar linesEps)).nonterminals
            (augment (read_grammar linesEps)).terminals
            [[⟨0, 0⟩, ⟨1, 0⟩, ⟨2, 0⟩, ⟨3, 0⟩], [⟨1, 0⟩, ⟨1, 1⟩, ⟨2, 0⟩, ⟨3, 0⟩], [⟨0, 1⟩],
              [⟨2, 1⟩], [⟨1, 2⟩]]) := by
    rfl
  rw [main_of_tables _ _ _ _ _ _ ht]
  simp only [Option.map_some', Option.some.injEq]
  generalize hP : (augment (read_grammar linesEps)).prods = P
  generalize hT : build_tables P (augment (read_grammar linesEps)).nonterminals
      (augment (read_grammar linesEps)).terminals
      [[⟨0, 0⟩, ⟨1, 0⟩, ⟨2, 0⟩, ⟨3, 0⟩], [⟨1, 0⟩, ⟨1, 1⟩, ⟨2, 0⟩, ⟨3, 0⟩], [⟨0, 1⟩],
        [⟨2, 1⟩], [⟨1, 2⟩]] = T
  have hrow : ∀ s : Int, s = 0 ∨ s = 1 →
      ∃ row, rows_at T s = some row ∧ action_at row.1 "$" = ⟨ActionType.REDUCE, 3⟩ ∧
        row.2 "A" = some 1 := by
    subst hT hP
    rintro s (rfl | rfl)
    · exact ⟨_, rfl, by decide, by decide⟩
    · exact ⟨_, rfl, by decide, by decide⟩
  have hprod : P.get? (3 : Int).toNat = some ⟨"A", []⟩ := by subst hP; decide
  have hstep : ∀ (s : Int) (rest : List Int), s = 0 ∨ s = 1 →
      parse_step P T ([] ++ ["$"]) ⟨s :: rest, 0⟩
        = Step.next ⟨1 :: s :: rest, 0⟩ (Move.reduce 3 1) := by
    intro s rest hs
    obtain ⟨row, h1, h2, h3⟩ := hrow s hs
    have htok : ([] ++ ["$"] : List String).get? 0 = some "$" := rfl
    simp only [parse_step, htok, h1, h2, hprod, List.length_nil, List.drop_zero, h3]
    rfl
  have cyc : ∀ (n : Nat) (s : Int) (rest : List Int), s = 0 ∨ s = 1 →
      (parse_loop P T ([] ++ ["$"]) n ⟨s :: rest, 0⟩).outcome = none := by
    intro n
    induction n with
    | zero => intro s rest _; simp [parse_loop]
    | succ n ih =>
      intro s rest hs
      rw [parse_loop_outcome_next _ _ _ _ _ _ _ (hstep s rest hs)]
      exact ih 1 (s :: rest) (Or.inr rfl)
  exact cyc fuel 0 [] (Or.inl rfl)

/-- An empty right-hand side can also keep the loop going: for the grammar lines
`S -> A S | a`, `A -> eps`, which have no cycle of unit productions, and the empty
input, no number of iterations ends the run. -/
theorem example_eps_loops :
    (∀ A, ¬ Relation.TransGen (unit_step (read_grammar linesEps).prods) A A) ∧
    ¬ ∃ fuel r, main linesEps [] fuel = some r ∧ r.outcome ≠ none := by
  refine ⟨unit_acyclic_of_rank _ (fun s => if s = "S" then 1 else 0) (by decide), ?_⟩
  rintro ⟨fuel, r, h, ho⟩
  have := eps_run_outcome fuel
  rw [h] at this
  simp only [Option.map_some', Option.some.injEq] at this
  exact ho this

/-- C4 (amended): the parse loop ends for grammars without empty right-hand sides
and without a cycle of unit productions. For every non-empty grammar in which
no production has an empty right-hand side and no symbol derives itself by a
chain of unit productions, and for every input, some number of iterations
takes the parse loop to an outcome, which every larger bound reproduces: accept,
the parse-error branch, the missing-GOTO branch, or the read of the current token
with the cursor past the last token; the last is excluded when `$` occurs on no
right-hand side and is not the first left-hand side. -/
theorem parse_terminates (lines : List GrammarLine) (hne : (read_grammar lines).prods ≠ [])
    (heps : ∀ p ∈ (read_grammar lines).prods, p.rhs ≠ [])
    (hacyc : ∀ A, ¬ Relation.TransGen (unit_step (read_grammar lines).prods) A A)
    (input : List String) :
    ∃ (fuel : Nat) (r : Run) (o : Outcome),
      (∀ k, main lines input (fuel + k) = some r) ∧ r.outcome = some o ∧
      (o = Outcome.accept ∨ (∃ a s, o = Outcome.parseError a s) ∨
        (∃ t A, o = Outcome.missingGoto t A) ∨
        (o = Outcome.outOfRange ∧ (input ++ ["$"]).length ≤ r.final.ip)) ∧
      ((∀ p ∈ (read_grammar lines).prods, "$" ∉ p.rhs) →
        ((read_grammar lines).prods.getD 0 default).lhs ≠ "$" → o ≠ Outcome.outOfRange) := by
  obtain ⟨C, tables, h⟩ := main_tables_exists lines hne
  obtain ⟨rank, R, hrank, hR⟩ := unit_rank_exists (read_grammar lines).prods hacyc
  obtain ⟨_, _, _, htab⟩ := main_tables_spec lines _ C tables h
  have hinit : stack_path (augment (read_grammar lines)).prods
      (augment (read_grammar lines)).nonterminals C (⟨[0], 0⟩ : Config).stack := by
    simp [stack_path]
  obtain ⟨n, hn⟩ := parse_loop_reaches_outcome lines _ C tables h (input ++ ["$"]) rank R heps
    hrank hR _ _ _ ⟨[0], 0⟩ "" hinit trivial rfl rfl rfl
  have hmain := main_of_tables lines input n _ C tables h
  obtain ⟨_, q2, _⟩ := parse_loop_path lines _ C tables h (input ++ ["$"]) n ⟨[0], 0⟩ hinit
  cases ho : (parse_loop (augment (read_grammar lines)).prods tables (input ++ ["$"]) n
      ⟨[0], 0⟩).outcome with
  | none => exact absurd ho hn
  | some o =>
    refine ⟨n, _, o, fun k => main_add lines input n k _ hmain hn, ho, ?_, ?_⟩
    · cases o with
      | accept => exact Or.inl rfl
      | parseError a s => exact Or.inr (Or.inl ⟨a, s, rfl⟩)
      | missingGoto t A => exact Or.inr (Or.inr (Or.inl ⟨t, A, rfl⟩))
      | outOfRange => exact Or.inr (Or.inr (Or.inr ⟨rfl, List.get?_eq_none.mp (q2 ho)⟩))
    · intro hrhs hstart e
      subst e
      have haug : ∀ p ∈ (augment (read_grammar lines)).prods, "$" ∉ p.rhs := by
        intro p hp
        have e : (augment (read_grammar lines)).prods
            = ⟨((read_grammar lines).prods.getD 0 default).lhs ++ "'",
                [((read_grammar lines).prods.getD 0 default).lhs]⟩
              :: (read_grammar lines).prods := rfl
        rw [e] at hp
        rcases List.mem_cons.mp hp with rfl | hp
        · simp only [List.mem_singleton]
          exact fun e1 => hstart e1.symm
        · exact hrhs p hp
      have hcur := parse_loop_cursor (augment (read_grammar lines)).prods
        (augment (read_grammar lines)).nonterminals (augment (read_grammar lines)).terminals C
        input haug n ⟨[0], 0⟩ (by simp)
      rw [← htab] at hcur
      have := List.get?_eq_none.mp (q2 ho)
      omega

/-- An instance of `parse_terminates`: the example grammar, whose unit productions
`E -> T` and `T -> id` are ranked by `rankE`, on the input `id + id`. -/
theorem parse_terminates_witness :
    (read_grammar linesE).prods ≠ [] ∧
    (∀ p ∈ (read_grammar linesE).prods, p.rhs ≠ []) ∧
    (∀ A, ¬ Relation.TransGen (unit_step (read_grammar linesE).prods) A A) ∧
    ∃ (fuel : Nat) (r : Run) (o : Outcome),
      (∀ k, main linesE ["id", "+", "id"] (fuel + k) = some r) ∧ r.outcome = some o ∧
      (o = Outcome.accept ∨ (∃ a s, o = Outcome.parseError a s) ∨
        (∃ t A, o = Outcome.missingGoto t A) ∨
        (o = Outcome.outOfRange ∧ (["id", "+", "id"] ++ ["$"]).length ≤ r.final.ip)) ∧
      ((∀ p ∈ (read_grammar linesE).prods, "$" ∉ p.rhs) →
        ((read_grammar linesE).prods.getD 0 default).lhs ≠ "$" → o ≠ Outcome.outOfRange) :=
  ⟨by decide, by decide, unit_acyclic_of_rank _ rankE (by decide),
    parse_terminates linesE (by decide) (by decide)
      (unit_acyclic_of_rank _ rankE (by decide)) ["id", "+", "id"]⟩

end LR0
